import Mathlib

/-!
Spreadsheet engine (cell.cpp / sheet.cpp): a shallow embedding of the cell and
sheet classes.

* A `Cell*` is an address (a natural number).  The sheet owns its cells: the
  map `cells_` sends a position to the address of the cell it owns and `heap`
  holds the objects.  `make_unique<Cell>` takes a fresh address, destroying a
  cell empties its heap slot; an address is never handed out twice.
* `std::unordered_set<Cell*>` is a duplicate-free list of addresses.
* A C++ exception is the result `throws e s` with the state the call leaves
  behind; using a pointer to a destroyed cell is the result `dangling`;
  recursion and loops are bounded by a fuel argument and give `timeout` when
  it runs out.
* The formula parser and evaluator (formula.h) are not part of the sources:
  the parser is a parameter `parse`, a parsed formula is a record of what the
  engine uses of it.
-/

namespace Spreadsheet

/-! ## common.h: positions, sizes, values, exceptions -/

/-- Position of a cell: zero-based row and column (common.h). -/
structure Position where
  row : Int
  col : Int
deriving DecidableEq, Repr

/-- Modelled from the spec: the constant MAX_ROWS of common.h (16384). -/
def MAX_ROWS : Int := 16384

/-- Modelled from the spec: the constant MAX_COLS of common.h (16384). -/
def MAX_COLS : Int := 16384

/-- Modelled from the spec: Position::IsValid of common.h, both coordinates
non-negative and in range. -/
def Position.IsValid (p : Position) : Bool :=
  decide (0 ≤ p.row) && decide (0 ≤ p.col) && decide (p.row < MAX_ROWS) && decide (p.col < MAX_COLS)

/-- Size of the printable area (common.h). -/
structure Size where
  rows : Int
  cols : Int
deriving DecidableEq, Repr

/-- Categories of FormulaError (common.h). -/
inductive FormulaError where
  | ref
  | value
  | arithmetic
deriving DecidableEq, Repr

/-- The type CellInterface::Value, a variant of string, double and
FormulaError.  The engine only stores and returns numbers, it never computes
with them; they are carried as integers. -/
inductive Value where
  | text (s : String)
  | number (x : Int)
  | error (e : FormulaError)
deriving DecidableEq, Repr

/-- The type FormulaInterface::Value, a variant of double and FormulaError. -/
inductive FValue where
  | number (x : Int)
  | error (e : FormulaError)
deriving DecidableEq, Repr

/-- Conversion done at the end of FormulaImpl::GetValue: the double if the
variant holds one, the FormulaError otherwise. -/
def FValue.toValue : FValue → Value
  | .number x => .number x
  | .error e => .error e

/-- The exceptions thrown by the engine. -/
inductive Exception where
  | InvalidPositionException
  | FormulaException
  | CircularDependencyException
deriving DecidableEq, Repr

/-! ## formula.h: the collaborator -/

/-- Modelled from the spec: what FormulaInterface::Evaluate does with the
sheet.  The evaluator looks referenced cells up through
sheet.GetCell(pos) and reads their GetValue(); `ask p k` is such a lookup
(the answer is `none` for a null cell) and `ret v` is the end of the
evaluation. -/
inductive Eval where
  | ret (v : FValue)
  | ask (p : Position) (k : Option Value → Eval)

/-- Modelled from the spec: a parsed formula (FormulaInterface), with
GetExpression, GetReferencedCells and Evaluate. -/
structure FormulaInterface where
  GetExpression : String
  GetReferencedCells : List Position
  Evaluate : Eval

/-- Positions an evaluation may look up, on any of its branches. -/
inductive Eval.Asks : Eval → Position → Prop where
  | here (p : Position) (k : Option Value → Eval) : Eval.Asks (.ask p k) p
  | later (p q : Position) (k : Option Value → Eval) (ov : Option Value) :
      Eval.Asks (k ov) q → Eval.Asks (.ask p k) q

/-- Contract of a parsed formula: the referenced positions are valid and the
evaluation only looks at referenced positions. -/
structure FormulaInterface.WellFormed (f : FormulaInterface) : Prop where
  refs_valid : ∀ q ∈ f.GetReferencedCells, q.IsValid = true
  asks_refs : ∀ q, f.Evaluate.Asks q → q ∈ f.GetReferencedCells

/-- Contract of the parser: every formula it returns is well formed. -/
def ParserContract (parse : String → Option FormulaInterface) : Prop :=
  ∀ e f, parse e = some f → f.WellFormed

/-! ## cell.cpp: the three implementations -/

/-- The class hierarchy Cell::Impl: EmptyImpl, TextImpl (value_ and text_)
and FormulaImpl (cache_ and formula_). -/
inductive Impl where
  | EmptyImpl
  | TextImpl (value_ : Value) (text_ : String)
  | FormulaImpl (cache_ : Option FValue) (formula_ : FormulaInterface)

/-- The character ESCAPE_SIGN. -/
def ESCAPE_SIGN : Char := Char.ofNat 39

/-- The character FORMULA_SIGN. -/
def FORMULA_SIGN : Char := '='

/-- Constructor TextImpl(text): text_ is the text, value_ the text without
its first character when that is an apostrophe. -/
def Impl.mkText (text : String) : Impl :=
  match text.data with
  | [] => .TextImpl (.text text) text
  | c :: rest =>
    if c = ESCAPE_SIGN then .TextImpl (.text (String.mk rest)) text
    else .TextImpl (.text text) text

/-- Impl::GetText. -/
def Impl.GetText : Impl → String
  | .EmptyImpl => ""
  | .TextImpl _ text_ => text_
  | .FormulaImpl _ formula_ => String.mk (FORMULA_SIGN :: formula_.GetExpression.data)

/-- Impl::GetReferencedCells: empty unless FormulaImpl. -/
def Impl.GetReferencedCells : Impl → List Position
  | .FormulaImpl _ formula_ => formula_.GetReferencedCells
  | _ => []

/-- Impl::HasCache: true in the base class, cache_.has_value() in
FormulaImpl. -/
def Impl.HasCache : Impl → Bool
  | .FormulaImpl cache_ _ => cache_.isSome
  | _ => true

/-- Impl::InvalidateCache: nothing in the base class, cache_.reset() in
FormulaImpl. -/
def Impl.InvalidateCache : Impl → Impl
  | .FormulaImpl _ formula_ => .FormulaImpl none formula_
  | i => i

/-- The first lines of Cell::Set: the implementation built from the text;
`none` when ParseFormula throws FormulaException. -/
def Impl.build (parse : String → Option FormulaInterface) (text : String) : Option Impl :=
  match text.data with
  | [] => some .EmptyImpl
  | c :: rest =>
    if rest ≠ [] ∧ c = FORMULA_SIGN then
      match parse (String.mk rest) with
      | none => none
      | some f => some (.FormulaImpl none f)
    else some (Impl.mkText text)

/-! ## cell.h / sheet.h: objects and state -/

/-- A Cell object: its implementation and the two sets of neighbours. -/
structure Cell where
  impl_ : Impl
  dependent_cells_ : List Nat
  referenced_cells_ : List Nat

/-- The sheet: the map cells_ from positions to owned cells, the objects
themselves, and the next fresh address. -/
structure Sheet where
  cells_ : List (Position × Nat)
  heap : Nat → Option Cell
  brk : Nat

/-- The sheet made by CreateSheet. -/
def Sheet.empty : Sheet := ⟨[], fun _ => none, 0⟩

/-- Result of an operation that may change the sheet. -/
inductive Res (α : Type) where
  | ok (a : α) (s : Sheet)
  | throws (e : Exception) (s : Sheet)
  | dangling
  | timeout

/-- Result of a const operation. -/
inductive Query (α : Type) where
  | ok (a : α)
  | throws (e : Exception)
  | dangling
  | timeout

/-- The state an operation leaves, when it returns or throws. -/
def Res.state? {α : Type} : Res α → Option Sheet
  | .ok _ s => some s
  | .throws _ s => some s
  | _ => none

/-- The exception an operation throws, if any. -/
def Res.exception? {α : Type} : Res α → Option Exception
  | .throws e _ => some e
  | _ => none

/-- The value an operation returns, if it returns. -/
def Res.value? {α : Type} : Res α → Option α
  | .ok a _ => some a
  | _ => none

/-- Insertion into an unordered_set. -/
def setInsert (a : Nat) (l : List Nat) : List Nat :=
  if a ∈ l then l else a :: l

/-- Erasure from an unordered_set. -/
def setErase (a : Nat) (l : List Nat) : List Nat :=
  l.filter (fun x => decide (x ≠ a))

/-- The iterator cells_.find(pos): the address of the cell owned at pos. -/
def Sheet.find (s : Sheet) (pos : Position) : Option Nat :=
  match s.cells_.find? (fun e => decide (e.1 = pos)) with
  | some e => some e.2
  | none => none

/-- Writing the object at an address. -/
def Sheet.store (s : Sheet) (a : Nat) (c : Cell) : Sheet :=
  { s with heap := fun x => if x = a then some c else s.heap x }

/-- The statement cells_[pos] = std::make_unique<Cell>(*this) for an absent
pos: a new cell with EmptyImpl and empty neighbour sets at a fresh address. -/
def Sheet.alloc (s : Sheet) (pos : Position) : Sheet :=
  { cells_ := s.cells_ ++ [(pos, s.brk)],
    heap := fun x => if x = s.brk then some ⟨.EmptyImpl, [], []⟩ else s.heap x,
    brk := s.brk + 1 }

/-- Sheet::GetCellPtr: throws for an invalid position, otherwise the pointer
or null. -/
def Sheet.GetCellPtr (s : Sheet) (pos : Position) : Query (Option Nat) :=
  if pos.IsValid then .ok (s.find pos) else .throws .InvalidPositionException

/-- Sheet::GetCell: same as GetCellPtr. -/
def Sheet.GetCell (s : Sheet) (pos : Position) : Query (Option Nat) :=
  if pos.IsValid then .ok (s.find pos) else .throws .InvalidPositionException

/-! ## Cell::HasCircularDependency -/

/-- The first loop of HasCircularDependency: the set of existing cells at the
referenced positions; `none` when GetCellPtr throws. -/
def collectReferenced (s : Sheet) : List Position → List Nat → Option (List Nat)
  | [], acc => some acc
  | pos :: rest, acc =>
    if pos.IsValid then
      match s.find pos with
      | some a => collectReferenced s rest (setInsert a acc)
      | none => collectReferenced s rest acc
    else none

/-- The inner for loop of the search: push the dependents that are not
visited, one after the other. -/
def pushUnvisited (visited : List Nat) : List Nat → List Nat → List Nat
  | [], to_visit => to_visit
  | incoming :: rest, to_visit =>
    if incoming ∈ visited then pushUnvisited visited rest to_visit
    else pushUnvisited visited rest (incoming :: to_visit)

/-- The while loop of HasCircularDependency over the stack to_visit (top
first) and the set visited. -/
def searchLoop (s : Sheet) (referenced : List Nat) : Nat → List Nat → List Nat → Query Bool
  | 0, _, _ => .timeout
  | _ + 1, [], _ => .ok false
  | fuel + 1, current :: to_visit, visited =>
    if current ∈ referenced then .ok true
    else
      match s.heap current with
      | none => .dangling
      | some c =>
        searchLoop s referenced fuel
          (pushUnvisited (setInsert current visited) c.dependent_cells_ to_visit)
          (setInsert current visited)

/-- Cell::HasCircularDependency for the cell at address this and a new
implementation. -/
def Cell.HasCircularDependency (s : Sheet) (fuel : Nat) (this : Nat) (new_impl : Impl) :
    Query Bool :=
  if new_impl.GetReferencedCells = [] then .ok false
  else
    match collectReferenced s new_impl.GetReferencedCells [] with
    | none => .throws .InvalidPositionException
    | some referenced => searchLoop s referenced fuel [this] []

/-! ## Cell::InvalidateAllCache -/

/-- Replacing impl_ of the cell at an address. -/
def Sheet.setImpl (s : Sheet) (a : Nat) (i : Impl) : Sheet :=
  match s.heap a with
  | some c => s.store a { c with impl_ := i }
  | none => s

/-- Running a step over a list of cells, stopping at the first failure. -/
def forEach (step : Nat → Sheet → Res Unit) : List Nat → Sheet → Res Unit
  | [], s => .ok () s
  | d :: rest, s =>
    match step d s with
    | .ok _ s1 => forEach step rest s1
    | r => r

/-- Cell::InvalidateAllCache(flag) on the cell at address this. -/
def Cell.InvalidateAllCache : Nat → Nat → Bool → Sheet → Res Unit
  | 0, _, _, _ => .timeout
  | fuel + 1, this, flag, s =>
    match s.heap this with
    | none => .dangling
    | some c =>
      if c.impl_.HasCache || flag then
        forEach (fun dep s1 => Cell.InvalidateAllCache fuel dep false s1)
          c.dependent_cells_ (s.setImpl this c.impl_.InvalidateCache)
      else .ok () s

/-! ## Cell::Set and Sheet::SetCell -/

/-- The loop of Cell::Set over the old referenced_cells_: erase this from the
dependents of each. -/
def eraseDependent (this : Nat) : List Nat → Sheet → Option Sheet
  | [], s => some s
  | r :: rest, s =>
    match s.heap r with
    | none => none
    | some c =>
      eraseDependent this rest
        (s.store r { c with dependent_cells_ := setErase this c.dependent_cells_ })

/-- The statement referenced_cells_.clear() on the cell at this. -/
def Sheet.clearReferenced (s : Sheet) (this : Nat) : Sheet :=
  match s.heap this with
  | some c => s.store this { c with referenced_cells_ := [] }
  | none => s

/-- The two insertions of the last loop of Cell::Set:
referenced_cells_.insert(ref) and ref->dependent_cells_.insert(this). -/
def Sheet.link (s : Sheet) (this ref : Nat) : Option Sheet :=
  match s.heap this with
  | none => none
  | some c =>
    let s1 := s.store this { c with referenced_cells_ := setInsert ref c.referenced_cells_ }
    match s1.heap ref with
    | none => none
    | some r => some (s1.store ref { r with dependent_cells_ := setInsert this r.dependent_cells_ })

/-- The last loop of Cell::Set over the referenced positions of the new
implementation; `inner pos` is the call sheet_.SetCell(pos, ""). -/
def rewire (inner : Position → Sheet → Res Unit) (this : Nat) :
    List Position → Sheet → Res Unit
  | [], s => .ok () s
  | pos :: rest, s =>
    if pos.IsValid then
      match s.find pos with
      | some ref =>
        match s.link this ref with
        | some s1 => rewire inner this rest s1
        | none => .dangling
      | none =>
        match inner pos s with
        | .ok _ s1 =>
          match s1.find pos with
          | some ref =>
            match s1.link this ref with
            | some s2 => rewire inner this rest s2
            | none => .dangling
          | none => .dangling
        | r => r
    else .throws .InvalidPositionException s

/-- Cell::Set(text) on the cell at address this. -/
def Cell.Set (parse : String → Option FormulaInterface) (inner : Position → Sheet → Res Unit)
    (fuel : Nat) (this : Nat) (text : String) (s : Sheet) : Res Unit :=
  match Impl.build parse text with
  | none => .throws .FormulaException s
  | some impl =>
    match Cell.HasCircularDependency s fuel this impl with
    | .throws e => .throws e s
    | .dangling => .dangling
    | .timeout => .timeout
    | .ok true => .throws .CircularDependencyException s
    | .ok false =>
      match s.heap this with
      | none => .dangling
      | some c =>
        match eraseDependent this c.referenced_cells_ (s.setImpl this impl) with
        | none => .dangling
        | some s1 =>
          match rewire inner this impl.GetReferencedCells (s1.clearReferenced this) with
          | .ok _ s2 => Cell.InvalidateAllCache fuel this true s2
          | r => r

/-- The statement if (!cells_.count(pos)) cells_[pos] = make_unique<Cell>(*this)
of Sheet::SetCell. -/
def Sheet.ensure (s : Sheet) (pos : Position) : Sheet :=
  if (s.find pos).isSome then s else s.alloc pos

/-- Sheet::SetCell(pos, text).  The fuel bounds the nested call made by
Cell::Set as well as the loops. -/
def Sheet.SetCell (parse : String → Option FormulaInterface) :
    Nat → Position → String → Sheet → Res Unit
  | 0, _, _, _ => .timeout
  | fuel + 1, pos, text, s =>
    if pos.IsValid then
      match (s.ensure pos).find pos with
      | none => .dangling
      | some this =>
        Cell.Set parse (fun p s1 => Sheet.SetCell parse fuel p "" s1) fuel this text
          (s.ensure pos)
    else .throws .InvalidPositionException s

/-! ## Sheet::ClearCell, Sheet::GetPrintableSize -/

/-- Sheet::ClearCell(pos): Cell::Clear on the cell, then the map entry is
erased and the cell destroyed. -/
def Sheet.ClearCell (s : Sheet) (pos : Position) : Res Unit :=
  if pos.IsValid then
    match s.find pos with
    | some a =>
      .ok () { s with cells_ := s.cells_.filter (fun e => decide (e.1 ≠ pos)),
                      heap := fun x => if x = a then none else s.heap x }
    | none => .ok () s
  else .throws .InvalidPositionException s

/-- Text of the cell at an address (Cell::GetText). -/
def Sheet.textAt (s : Sheet) (a : Nat) : String :=
  match s.heap a with
  | some c => c.impl_.GetText
  | none => ""

/-- The call GetCell(pos) followed by GetText() on a non-null cell; `none`
for a null cell. -/
def Sheet.GetText (s : Sheet) (pos : Position) : Option String :=
  match s.find pos with
  | some a => some (s.textAt a)
  | none => none

/-- Sheet::GetPrintableSize. -/
def Sheet.GetPrintableSize (s : Sheet) : Size :=
  s.cells_.foldl
    (fun acc e =>
      if s.textAt e.2 ≠ "" then ⟨max acc.rows (e.1.row + 1), max acc.cols (e.1.col + 1)⟩
      else acc)
    ⟨0, 0⟩

/-! ## Cell::GetValue -/

/-- Running an evaluation against the sheet; `getv p` is
sheet.GetCell(p) followed by GetValue() on a non-null cell. -/
def runEval (getv : Position → Sheet → Res (Option Value)) : Eval → Sheet → Res FValue
  | .ret v, s => .ok v s
  | .ask p k, s =>
    match getv p s with
    | .ok ov s1 => runEval getv (k ov) s1
    | .throws e s1 => .throws e s1
    | .dangling => .dangling
    | .timeout => .timeout

/-- The assignment cache_ = v in the FormulaImpl of the cell at an address. -/
def Sheet.setCache (s : Sheet) (a : Nat) (v : FValue) : Sheet :=
  match s.heap a with
  | some c =>
    match c.impl_ with
    | .FormulaImpl _ f => s.store a { c with impl_ := .FormulaImpl (some v) f }
    | _ => s
  | none => s

/-- The call sheet.GetCell(pos) followed, for a non-null cell, by
Cell::GetValue; the answer is `none` for a null cell. -/
def Sheet.GetValue : Nat → Position → Sheet → Res (Option Value)
  | 0, _, _ => .timeout
  | fuel + 1, pos, s =>
    if pos.IsValid then
      match s.find pos with
      | none => .ok none s
      | some a =>
        match s.heap a with
        | none => .dangling
        | some c =>
          match c.impl_ with
          | .EmptyImpl => .ok (some (.text "")) s
          | .TextImpl value_ _ => .ok (some value_) s
          | .FormulaImpl cache_ formula_ =>
            match cache_ with
            | some _ =>
              match runEval (fun p s1 => Sheet.GetValue fuel p s1) formula_.Evaluate s with
              | .ok v s2 => .ok (some v.toValue) s2
              | .throws e s2 => .throws e s2
              | .dangling => .dangling
              | .timeout => .timeout
            | none =>
              match runEval (fun p s1 => Sheet.GetValue fuel p s1) formula_.Evaluate s with
              | .ok v0 s1 =>
                match runEval (fun p s1 => Sheet.GetValue fuel p s1) formula_.Evaluate
                    (s1.setCache a v0) with
                | .ok v s2 => .ok (some v.toValue) s2
                | .throws e s2 => .throws e s2
                | .dangling => .dangling
                | .timeout => .timeout
              | .throws e s1 => .throws e s1
              | .dangling => .dangling
              | .timeout => .timeout
    else .throws .InvalidPositionException s

/-! ## Observations on a state -/

/-- The positions of the map cells_. -/
def Sheet.keys (s : Sheet) : List Position := s.cells_.map Prod.fst

/-- The addresses of the cells owned by the map cells_. -/
def Sheet.addrs (s : Sheet) : List Nat := s.cells_.map Prod.snd

/-- The set dependent_cells_ of the cell at an address (empty when there is
no such cell). -/
def Sheet.deps (s : Sheet) (a : Nat) : List Nat :=
  match s.heap a with
  | some c => c.dependent_cells_
  | none => []

/-- The set referenced_cells_ of the cell at an address. -/
def Sheet.refd (s : Sheet) (a : Nat) : List Nat :=
  match s.heap a with
  | some c => c.referenced_cells_
  | none => []

/-- Cell::GetReferencedCells of the cell at an address. -/
def Sheet.prefs (s : Sheet) (a : Nat) : List Position :=
  match s.heap a with
  | some c => c.impl_.GetReferencedCells
  | none => []

/-- Cell::IsReferenced of the cell at an address. -/
def Sheet.IsReferenced (s : Sheet) (a : Nat) : Bool :=
  !(s.deps a).isEmpty

/-- The cell at address b is in the dependent_cells_ of the cell at a. -/
def DepEdge (s : Sheet) (a b : Nat) : Prop := b ∈ s.deps a

/-- The cell at position p lists q in GetReferencedCells. -/
def RefersTo (s : Sheet) (p q : Position) : Prop :=
  ∃ a, s.find p = some a ∧ q ∈ s.prefs a

/-- A cell without its cached value. -/
def Cell.uncache (c : Cell) : Cell := { c with impl_ := c.impl_.InvalidateCache }

/-- Two states that differ at most in the cached values of formula cells. -/
def SameUpToCache (s t : Sheet) : Prop :=
  t.cells_ = s.cells_ ∧ t.brk = s.brk ∧
    ∀ a, (t.heap a).map Cell.uncache = (s.heap a).map Cell.uncache

/-- Ownership: the map has one entry per position, every key is valid, the
owned cells are distinct objects at addresses already handed out, and an
object exists exactly when the map owns it. -/
structure Sheet.WF (s : Sheet) : Prop where
  keys_nodup : s.keys.Nodup
  keys_valid : ∀ p ∈ s.keys, p.IsValid = true
  addrs_nodup : s.addrs.Nodup
  addrs_lt : ∀ a ∈ s.addrs, a < s.brk
  live_iff : ∀ a, (s.heap a).isSome = true ↔ a ∈ s.addrs

/-- The dependency graph of a state without dangling pointers: the two
neighbour sets mirror each other, the referenced set of a cell is the set of
cells at the positions its implementation references, all of which exist,
and no cell depends on itself. -/
structure Sheet.Inv (s : Sheet) : Prop where
  wf : s.WF
  deps_live : ∀ a b, b ∈ s.deps a → (s.heap b).isSome = true
  symm : ∀ a b, b ∈ s.refd a ↔ a ∈ s.deps b
  refd_iff : ∀ a b, b ∈ s.refd a ↔ ∃ q ∈ s.prefs a, s.find q = some b
  prefs_present : ∀ a, ∀ q ∈ s.prefs a, (s.find q).isSome = true
  acyclic : ∀ a, ¬ Relation.TransGen (DepEdge s) a a

/-- What the steps of Cell::Set after the new implementation is in place do
to the rest of the sheet: cells stay where they are, implementations change at
most in their cache, new cells have EmptyImpl, ownership is kept. -/
structure Extends (s t : Sheet) : Prop where
  find_mono : ∀ q a, s.find q = some a → t.find q = some a
  impl_same : ∀ a c, s.heap a = some c →
    ∃ d, t.heap a = some d ∧ d.impl_.InvalidateCache = c.impl_.InvalidateCache
  new_empty : ∀ q a, s.find q = none → t.find q = some a →
    ∃ d, t.heap a = some d ∧ d.impl_ = .EmptyImpl
  wf : t.WF

/-- The dependency graph in the middle of Cell::Set on the cell at address
this, whose new implementation references the positions R: the graph
invariant holds except that referenced_cells_ of this holds the cells of the
positions in done (those the last loop has dealt with), and this reaches none
of the cells at the positions of R along dependents. -/
structure Sheet.PInv (s : Sheet) (this : Nat) (R done : List Position) : Prop where
  wf : s.WF
  this_live : (s.heap this).isSome = true
  prefs_this : s.prefs this = R
  deps_live : ∀ a b, b ∈ s.deps a → (s.heap b).isSome = true
  symm : ∀ a b, b ∈ s.refd a ↔ a ∈ s.deps b
  refd_iff : ∀ a b, a ≠ this → (b ∈ s.refd a ↔ ∃ q ∈ s.prefs a, s.find q = some b)
  refd_this : ∀ b, b ∈ s.refd this ↔ ∃ q ∈ done, s.find q = some b
  prefs_present : ∀ a, a ≠ this → ∀ q ∈ s.prefs a, (s.find q).isSome = true
  done_present : ∀ q ∈ done, (s.find q).isSome = true
  acyclic : ∀ a, ¬ Relation.TransGen (DepEdge s) a a
  no_reach : ∀ q ∈ R, ∀ r, s.find q = some r → ¬ Relation.ReflTransGen (DepEdge s) this r

/-! ## Calls of the public interface -/

/-- A call made by a user of the sheet: SetCell(pos, text), ClearCell(pos),
or GetCell(pos) followed by GetValue() on the cell when there is one. -/
inductive Op where
  | SetCell (pos : Position) (text : String)
  | ClearCell (pos : Position)
  | GetValue (pos : Position)

/-- The state a call leaves behind, whether it returns or throws. -/
def Op.run (parse : String → Option FormulaInterface) (fuel : Nat) : Op → Sheet → Option Sheet
  | .SetCell pos text, s => (Sheet.SetCell parse fuel pos text s).state?
  | .ClearCell pos, s => (s.ClearCell pos).state?
  | .GetValue pos, s => (Sheet.GetValue fuel pos s).state?

/-- Calls that are SetCell. -/
def Op.isSet : Op → Prop
  | .SetCell _ _ => True
  | _ => False

/-- Calls that are SetCell or GetValue. -/
def Op.isSetOrGet : Op → Prop
  | .ClearCell _ => False
  | _ => True

/-- Calls that are SetCell or ClearCell. -/
def Op.isSetOrClear : Op → Prop
  | .GetValue _ => False
  | _ => True

/-- Any call. -/
def Op.any : Op → Prop := fun _ => True

/-- The states reached from the empty sheet by calls of the allowed kinds,
failed calls included. -/
inductive Reach (parse : String → Option FormulaInterface) (allow : Op → Prop) : Sheet → Prop where
  | init : Reach parse allow Sheet.empty
  | step (s t : Sheet) (fuel : Nat) (op : Op) :
      Reach parse allow s → allow op → op.run parse fuel s = some t → Reach parse allow t

/-! ## Evaluation against a sheet, stated without caches -/

/-- The result of evaluating against the sheet s: a lookup of a position
without a cell answers null, a cell with EmptyImpl shows the empty text, a
TextImpl its value_, a FormulaImpl the result of evaluating its own formula
against s. -/
inductive Evaluates (s : Sheet) : Eval → FValue → Prop where
  | ret (v : FValue) : Evaluates s (.ret v) v
  | askNull (p : Position) (k : Option Value → Eval) (v : FValue) :
      p.IsValid = true → s.find p = none → Evaluates s (k none) v → Evaluates s (.ask p k) v
  | askEmpty (p : Position) (k : Option Value → Eval) (v : FValue) (a : Nat) (c : Cell) :
      p.IsValid = true → s.find p = some a → s.heap a = some c → c.impl_ = .EmptyImpl →
      Evaluates s (k (some (.text ""))) v → Evaluates s (.ask p k) v
  | askText (p : Position) (k : Option Value → Eval) (v : FValue) (a : Nat) (c : Cell)
      (value_ : Value) (text_ : String) :
      p.IsValid = true → s.find p = some a → s.heap a = some c →
      c.impl_ = .TextImpl value_ text_ →
      Evaluates s (k (some value_)) v → Evaluates s (.ask p k) v
  | askFormula (p : Position) (k : Option Value → Eval) (v w : FValue) (a : Nat) (c : Cell)
      (cache_ : Option FValue) (formula_ : FormulaInterface) :
      p.IsValid = true → s.find p = some a → s.heap a = some c →
      c.impl_ = .FormulaImpl cache_ formula_ →
      Evaluates s formula_.Evaluate w →
      Evaluates s (k (some w.toValue)) v → Evaluates s (.ask p k) v

/-- What the cell at a position shows to an evaluation: null when there is
no cell, the empty text for EmptyImpl, value_ for TextImpl, and for
FormulaImpl the result of evaluating its formula against the sheet. -/
inductive Shows (s : Sheet) : Position → Option Value → Prop where
  | null (p : Position) : p.IsValid = true → s.find p = none → Shows s p none
  | empty (p : Position) (a : Nat) (c : Cell) :
      p.IsValid = true → s.find p = some a → s.heap a = some c → c.impl_ = .EmptyImpl →
      Shows s p (some (.text ""))
  | text (p : Position) (a : Nat) (c : Cell) (value_ : Value) (text_ : String) :
      p.IsValid = true → s.find p = some a → s.heap a = some c →
      c.impl_ = .TextImpl value_ text_ → Shows s p (some value_)
  | formula (p : Position) (a : Nat) (c : Cell) (cache_ : Option FValue)
      (formula_ : FormulaInterface) (w : FValue) :
      p.IsValid = true → s.find p = some a → s.heap a = some c →
      c.impl_ = .FormulaImpl cache_ formula_ → Evaluates s formula_.Evaluate w →
      Shows s p (some w.toValue)

/-- Every formula held by a cell of the sheet keeps the contract of parsed
formulas. -/
def Sheet.FormulasWF (s : Sheet) : Prop :=
  ∀ a c cache_ formula_, s.heap a = some c → c.impl_ = .FormulaImpl cache_ formula_ →
    formula_.WellFormed

/-- Modelled from the spec: the display of a text, the raw text with a single
leading apostrophe stripped if present. -/
def stripApostrophe (raw : String) : String :=
  match raw.data with
  | c :: rest => if c = ESCAPE_SIGN then String.mk rest else raw
  | [] => raw

/-! ## Fuel that is enough -/

/-- Fuel that is enough for the search of HasCircularDependency inside
SetCell: one step per stack entry ever pushed. -/
def Sheet.searchFuel (s : Sheet) : Nat :=
  3 + (s.addrs.map (fun a => (s.deps a).length)).sum

/-- The number of dependents of the cells that the search has not visited
yet: a bound on what it can still push. -/
def searchPotential (s : Sheet) (visited : List Nat) : Nat :=
  ((s.addrs.filter (fun a => decide (a ∉ visited))).map (fun a => (s.deps a).length)).sum

/-- The stack of the search is ordered: the dependents of a visited cell on
the stack are visited or lie above it. -/
def stackOrdered (s : Sheet) (visited : List Nat) : List Nat → List Nat → Prop
  | _, [] => True
  | above, x :: below =>
    (x ∈ visited → ∀ d ∈ s.deps x, d ∈ visited ∨ d ∈ above) ∧
      stackOrdered s visited (x :: above) below

/-! ## A scripted parser for the scenarios -/

/-- Position A1. -/
def A1 : Position := ⟨0, 0⟩

/-- Position A2. -/
def A2 : Position := ⟨1, 0⟩

/-- Position A3. -/
def A3 : Position := ⟨2, 0⟩

/-- Position B2. -/
def B2 : Position := ⟨1, 1⟩

/-- Position B3. -/
def B3 : Position := ⟨2, 1⟩

/-- Position C1. -/
def C1 : Position := ⟨0, 2⟩

/-- Position D1. -/
def D1 : Position := ⟨0, 3⟩

/-- Position D2. -/
def D2 : Position := ⟨1, 3⟩

/-- Value of a string of decimal digits. -/
def digitsValue : List Char → Nat → Option Nat
  | [], acc => some acc
  | c :: cs, acc =>
    if c.isDigit then digitsValue cs (10 * acc + (c.toNat - 48)) else none

/-- Modelled from the spec: what a referenced cell contributes to an
evaluation (section 4.2): an absent or empty cell 0, a text that reads as a
number that number and any other text a Value error, a number itself, an
error itself. -/
def cellNumber : Option Value → Except FormulaError Int
  | none => .ok 0
  | some (.text t) =>
    match digitsValue t.data 0 with
    | some n => .ok n
    | none => .error .value
  | some (.number x) => .ok x
  | some (.error e) => .error e

/-- Evaluation of a binary operation on two referenced cells, read from left
to right. -/
def evalCells (op : Int → Int → Int) (p q : Position) : Eval :=
  .ask p (fun a =>
    match cellNumber a with
    | .error e => .ret (.error e)
    | .ok x =>
      .ask q (fun b =>
        match cellNumber b with
        | .error e => .ret (.error e)
        | .ok y => .ret (.number (op x y))))

/-- Evaluation of a function of one referenced cell. -/
def evalCell (op : Int → Int) (p : Position) : Eval :=
  .ask p (fun a =>
    match cellNumber a with
    | .error e => .ret (.error e)
    | .ok x => .ret (.number (op x)))

/-- Modelled from the spec: a parser that knows the formulas of the scenarios
of section 8 and rejects every other text. -/
def scripted (e : String) : Option FormulaInterface :=
  if e = "1+2" then some ⟨"1+2", [], .ret (.number 3)⟩
  else if e = "A1" then some ⟨"A1", [A1], evalCell id A1⟩
  else if e = "A2" then some ⟨"A2", [A2], evalCell id A2⟩
  else if e = "A3" then some ⟨"A3", [A3], evalCell id A3⟩
  else if e = "A1+3" then some ⟨"A1+3", [A1], evalCell (fun x => x + 3) A1⟩
  else if e = "A2*2" then some ⟨"A2*2", [A2], evalCell (fun x => x * 2) A2⟩
  else if e = "D1+D2" then some ⟨"D1+D2", [D1, D2], evalCells (fun x y => x + y) D1 D2⟩
  else if e = "A1+A2" then some ⟨"A1+A2", [A1, A2], evalCells (fun x y => x + y) A1 A2⟩
  else none

/-- A sequence of calls, one after the other; `none` when one of them has no
result. -/
def Op.runAll (parse : String → Option FormulaInterface) (fuel : Nat) :
    List Op → Sheet → Option Sheet
  | [], s => some s
  | op :: rest, s =>
    match op.run parse fuel s with
    | some t => Op.runAll parse fuel rest t
    | none => none

/-- The sheet after a sequence of calls on the empty sheet, with the scripted
parser. -/
def scenario (ops : List Op) : Sheet :=
  (Op.runAll scripted 20 ops Sheet.empty).getD Sheet.empty

end Spreadsheet


namespace Spreadsheet

/-! ## Caches -/

/-- The member cache_ of an implementation (only FormulaImpl has one). -/
def Impl.cache : Impl → Option FValue
  | .FormulaImpl cache_ _ => cache_
  | _ => none

/-- The cached value held by the cell at an address, if any. -/
def Sheet.cacheAt (s : Sheet) (a : Nat) : Option FValue :=
  match s.heap a with
  | some c => c.impl_.cache
  | none => none

/-- The cell at an address holds a cached value. -/
def Sheet.cached (s : Sheet) (a : Nat) : Bool := (s.cacheAt a).isSome

/-- The implementation is a FormulaImpl. -/
def Impl.isFormula : Impl → Bool
  | .FormulaImpl _ _ => true
  | _ => false

/-- The cell at an address holds a FormulaImpl. -/
def Sheet.holdsFormula (s : Sheet) (a : Nat) : Bool :=
  match s.heap a with
  | some c => c.impl_.isFormula
  | none => false

/-- What a run of InvalidateAllCache does between two states: only cached
values change, no cell gains one, and when a cell loses its cached value its
dependents hold none afterwards. -/
structure Swept (s t : Sheet) : Prop where
  same : SameUpToCache s t
  mono : ∀ x, t.cached x = true → s.cached x = true
  below : ∀ y d, s.cached y = true → t.cached y = false → d ∈ s.deps y → t.cached d = false

/-- What a run of GetValue does between two states: only cached values
change and no cell loses one. -/
structure Warmed (s t : Sheet) : Prop where
  same : SameUpToCache s t
  mono : ∀ x, s.cached x = true → t.cached x = true

/-- No dependent of a formula cell without a cached value holds a cached
value. -/
def Sheet.CacheClosed (s : Sheet) : Prop :=
  ∀ y d, s.holdsFormula y = true → s.cached y = false → d ∈ s.deps y → s.cached d = false

/-- The evaluation looks the position q up on every one of its branches. -/
inductive Eval.Reads (q : Position) : Eval → Prop where
  | here (k : Option Value → Eval) : Eval.Reads q (.ask q k)
  | later (p : Position) (k : Option Value → Eval) :
      (∀ ov, Eval.Reads q (k ov)) → Eval.Reads q (.ask p k)

/-- A parser whose formulas read every cell they reference whenever they are
evaluated. -/
def ReadsReferenced (parse : String → Option FormulaInterface) : Prop :=
  ∀ e f, parse e = some f → ∀ q ∈ f.GetReferencedCells, f.Evaluate.Reads q

/-- Every formula held by a cell of the sheet reads every cell it references
whenever it is evaluated. -/
def Sheet.FormulasRead (s : Sheet) : Prop :=
  ∀ a c cache_ formula_, s.heap a = some c → c.impl_ = .FormulaImpl cache_ formula_ →
    ∀ q ∈ formula_.GetReferencedCells, formula_.Evaluate.Reads q

/-- Evaluation of a binary operation on two referenced cells that reads both
cells before it looks at either value. -/
def evalBoth (op : Int → Int → Int) (p q : Position) : Eval :=
  .ask p (fun a =>
    .ask q (fun b =>
      match cellNumber a with
      | .error e => .ret (.error e)
      | .ok x =>
        match cellNumber b with
        | .error e => .ret (.error e)
        | .ok y => .ret (.number (op x y))))

/-- Modelled from the spec: a scripted parser whose formulas read all their
referenced cells on every evaluation. -/
def strict (e : String) : Option FormulaInterface :=
  if e = "1+2" then some ⟨"1+2", [], .ret (.number 3)⟩
  else if e = "A1" then some ⟨"A1", [A1], evalCell id A1⟩
  else if e = "A2" then some ⟨"A2", [A2], evalCell id A2⟩
  else if e = "D1+D2" then some ⟨"D1+D2", [D1, D2], evalBoth (fun x y => x + y) D1 D2⟩
  else if e = "A1+A2" then some ⟨"A1+A2", [A1, A2], evalBoth (fun x y => x + y) A1 A2⟩
  else none

/-- The sheet after a sequence of calls on the empty sheet, with the strict
parser. -/
def strictScenario (ops : List Op) : Sheet :=
  (Op.runAll strict 20 ops Sheet.empty).getD Sheet.empty

/-! ## Sheet::PrintTexts -/

/-- The tab written between columns. -/
def TAB : Char := Char.ofNat 9

/-- The newline written after a row. -/
def NEWLINE : Char := Char.ofNat 10

/-- The values 0, 1, .., n-1 taken by an int loop counter below the bound n. -/
def intRange (n : Int) : List Int := (List.range n.toNat).map Int.ofNat

/-- The body of the inner loop of PrintTexts for one position: a tab before
every column but the first, then the text of the cell if there is one. -/
def Sheet.printCell (s : Sheet) (row col : Int) (out : List Char) : Query (List Char) :=
  match s.GetCell ⟨row, col⟩ with
  | .ok (some a) => .ok ((if 0 < col then out ++ [TAB] else out) ++ (s.textAt a).data)
  | .ok none => .ok (if 0 < col then out ++ [TAB] else out)
  | .throws e => .throws e
  | .dangling => .dangling
  | .timeout => .timeout

/-- The inner loop of PrintTexts over the columns of a row; out is what has
been written so far. -/
def Sheet.printCols (s : Sheet) (row : Int) : List Int → List Char → Query (List Char)
  | [], out => .ok out
  | col :: rest, out =>
    match s.printCell row col out with
    | .ok out1 => s.printCols row rest out1
    | r => r

/-- The outer loop of PrintTexts over the rows. -/
def Sheet.printRows (s : Sheet) (cols : Int) : List Int → List Char → Query (List Char)
  | [], out => .ok out
  | row :: rest, out =>
    match s.printCols row (intRange cols) out with
    | .ok out1 => s.printRows cols rest (out1 ++ [NEWLINE])
    | r => r

/-- Sheet::PrintTexts: the characters written to the output stream. -/
def Sheet.PrintTexts (s : Sheet) : Query (List Char) :=
  s.printRows s.GetPrintableSize.cols (intRange s.GetPrintableSize.rows) []

/-- Texts with a separator between neighbours. -/
def joinWith (sep : Char) : List (List Char) → List Char
  | [] => []
  | [x] => x
  | x :: y :: rest => x ++ sep :: joinWith sep (y :: rest)

/-- The text a position contributes to the printout: GetText of the cell, the
empty text for a missing cell. -/
def Sheet.cellText (s : Sheet) (row col : Int) : List Char :=
  match s.GetText ⟨row, col⟩ with
  | some t => t.data
  | none => []

/-- A printed row: the texts of the columns 0..cols-1 with a tab between
neighbours. -/
def Sheet.rowText (s : Sheet) (cols row : Int) : List Char :=
  joinWith TAB ((intRange cols).map (s.cellText row))

/-- The printout with a newline between rows. -/
def Sheet.textsSeparated (s : Sheet) : List Char :=
  joinWith NEWLINE
    ((intRange s.GetPrintableSize.rows).map (s.rowText s.GetPrintableSize.cols))

/-- The printout with a newline after every row. -/
def Sheet.textsTerminated (s : Sheet) : List Char :=
  ((intRange s.GetPrintableSize.rows).map
    (fun row => s.rowText s.GetPrintableSize.cols row ++ [NEWLINE])).flatten

end Spreadsheet


namespace Spreadsheet

/-! ## Lists as sets -/

theorem mem_setInsert (a b : Nat) (l : List Nat) : b ∈ setInsert a l ↔ b = a ∨ b ∈ l := by
  unfold setInsert
  by_cases h : a ∈ l
  · simp only [h, if_true]
    constructor
    · intro hb; exact Or.inr hb
    · rintro (rfl | hb)
      · exact h
      · exact hb
  · simp [h]

theorem mem_setErase (a b : Nat) (l : List Nat) : b ∈ setErase a l ↔ b ∈ l ∧ b ≠ a := by
  unfold setErase
  simp [List.mem_filter]

theorem setErase_of_not_mem (a : Nat) (l : List Nat) (h : a ∉ l) : setErase a l = l := by
  unfold setErase
  apply List.filter_eq_self.2
  intro x hx
  simp only [ne_eq, decide_eq_true_eq]
  rintro rfl
  exact h hx

theorem setErase_idem (a : Nat) (l : List Nat) : setErase a (setErase a l) = setErase a l := by
  apply setErase_of_not_mem
  intro h
  exact ((mem_setErase a a l).1 h).2 rfl

theorem length_setErase_le (a : Nat) (l : List Nat) : (setErase a l).length ≤ l.length := by
  unfold setErase
  exact List.length_filter_le _ _

/-! ## The map cells_ -/

theorem find_eq_some_iff_of_nodup (s : Sheet) (h : s.keys.Nodup) (p : Position) (a : Nat) :
    s.find p = some a ↔ (p, a) ∈ s.cells_ := by
  unfold Sheet.find Sheet.keys at *
  generalize s.cells_ = l at *
  induction l with
  | nil => simp
  | cons e l ih =>
    obtain ⟨q, b⟩ := e
    simp only [List.map_cons, List.nodup_cons] at h
    by_cases hq : q = p
    · subst hq
      simp only [List.find?_cons, decide_True, List.mem_cons, Prod.mk.injEq, true_and]
      constructor
      · intro hb
        left
        simpa using hb.symm
      · rintro (rfl | hm)
        · rfl
        · exfalso
          exact h.1 (List.mem_map.2 ⟨(q, a), hm, rfl⟩)
    · simp only [List.find?_cons, hq, decide_False, List.mem_cons, Prod.mk.injEq]
      rw [ih h.2]
      constructor
      · intro hm; exact Or.inr hm
      · rintro (⟨rfl, _⟩ | hm)
        · exact absurd rfl hq
        · exact hm

theorem find_some_mem (s : Sheet) (p : Position) (a : Nat) (h : s.find p = some a) :
    (p, a) ∈ s.cells_ := by
  unfold Sheet.find at h
  cases hf : s.cells_.find? (fun e => decide (e.1 = p)) with
  | none => simp [hf] at h
  | some e =>
    simp only [hf, Option.some.injEq] at h
    have h1 := List.find?_some hf
    have h2 := List.mem_of_find?_eq_some hf
    simp only [decide_eq_true_eq] at h1
    obtain ⟨q, b⟩ := e
    simp only at h1 h
    subst h1 h
    exact h2

theorem find_eq_none_iff (s : Sheet) (p : Position) : s.find p = none ↔ p ∉ s.keys := by
  unfold Sheet.find Sheet.keys
  cases hf : s.cells_.find? (fun e => decide (e.1 = p)) with
  | none =>
    simp only [true_iff]
    intro hm
    obtain ⟨e, he, hp⟩ := List.mem_map.1 hm
    have := List.find?_eq_none.1 hf e he
    simp [hp] at this
  | some e =>
    have h1 := List.find?_some hf
    have h2 := List.mem_of_find?_eq_some hf
    simp only [decide_eq_true_eq] at h1
    have h3 : p ∈ List.map Prod.fst s.cells_ := List.mem_map.2 ⟨e, h2, h1⟩
    simp [h3]

theorem find_some_key (s : Sheet) (p : Position) (a : Nat) (h : s.find p = some a) :
    p ∈ s.keys :=
  List.mem_map.2 ⟨(p, a), find_some_mem s p a h, rfl⟩

theorem find_some_addr (s : Sheet) (p : Position) (a : Nat) (h : s.find p = some a) :
    a ∈ s.addrs :=
  List.mem_map.2 ⟨(p, a), find_some_mem s p a h, rfl⟩

theorem find_isSome_iff (s : Sheet) (p : Position) : (s.find p).isSome = true ↔ p ∈ s.keys := by
  rw [← not_iff_not, ← find_eq_none_iff]
  cases s.find p <;> simp

theorem find_alloc_self (s : Sheet) (p : Position) (h : s.find p = none) :
    (s.alloc p).find p = some s.brk := by
  have h0 : s.cells_.find? (fun e => decide (e.1 = p)) = none := by
    unfold Sheet.find at h
    cases hf : s.cells_.find? (fun e => decide (e.1 = p)) with
    | none => rfl
    | some e => simp [hf] at h
  unfold Sheet.find Sheet.alloc
  simp [List.find?_append, h0]

theorem find_alloc_of_ne (s : Sheet) (p q : Position) (h : q ≠ p) :
    (s.alloc p).find q = s.find q := by
  unfold Sheet.find Sheet.alloc
  simp only [List.find?_append]
  cases hf : s.cells_.find? (fun e => decide (e.1 = q)) with
  | some e => simp
  | none =>
    have : ¬ p = q := fun h1 => h h1.symm
    simp [this]

theorem find_alloc_of_some (s : Sheet) (p q : Position) (a : Nat) (h : s.find q = some a) :
    (s.alloc p).find q = some a := by
  unfold Sheet.find Sheet.alloc at *
  simp only [List.find?_append]
  cases hf : s.cells_.find? (fun e => decide (e.1 = q)) with
  | some e => simpa [hf] using h
  | none => simp [hf] at h

theorem addr_unique (s : Sheet) (h : s.addrs.Nodup) (p q : Position) (a : Nat)
    (hp : s.find p = some a) (hq : s.find q = some a) : p = q := by
  have h1 := find_some_mem s p a hp
  have h2 := find_some_mem s q a hq
  unfold Sheet.addrs at h
  have := List.inj_on_of_nodup_map h h1 h2 rfl
  exact congrArg Prod.fst this

end Spreadsheet


namespace Spreadsheet

/-! ## Elementary updates -/

@[simp] theorem store_heap (s : Sheet) (a : Nat) (c : Cell) (x : Nat) :
    (s.store a c).heap x = if x = a then some c else s.heap x := rfl

@[simp] theorem store_cells (s : Sheet) (a : Nat) (c : Cell) : (s.store a c).cells_ = s.cells_ := rfl

@[simp] theorem store_brk (s : Sheet) (a : Nat) (c : Cell) : (s.store a c).brk = s.brk := rfl

theorem find_congr (s t : Sheet) (h : t.cells_ = s.cells_) (p : Position) : t.find p = s.find p := by
  unfold Sheet.find
  rw [h]

theorem keys_congr (s t : Sheet) (h : t.cells_ = s.cells_) : t.keys = s.keys := by
  unfold Sheet.keys
  rw [h]

theorem addrs_congr (s t : Sheet) (h : t.cells_ = s.cells_) : t.addrs = s.addrs := by
  unfold Sheet.addrs
  rw [h]

theorem setImpl_heap (s : Sheet) (a : Nat) (i : Impl) (x : Nat) :
    (s.setImpl a i).heap x =
      if x = a then (s.heap a).map (fun c => { c with impl_ := i }) else s.heap x := by
  unfold Sheet.setImpl
  cases h : s.heap a with
  | none =>
    by_cases hx : x = a
    · simp [hx, h]
    · simp [hx]
  | some c => simp

@[simp] theorem setImpl_cells (s : Sheet) (a : Nat) (i : Impl) : (s.setImpl a i).cells_ = s.cells_ := by
  unfold Sheet.setImpl
  cases s.heap a <;> rfl

@[simp] theorem setImpl_brk (s : Sheet) (a : Nat) (i : Impl) : (s.setImpl a i).brk = s.brk := by
  unfold Sheet.setImpl
  cases s.heap a <;> rfl

theorem clearReferenced_heap (s : Sheet) (a : Nat) (x : Nat) :
    (s.clearReferenced a).heap x =
      if x = a then (s.heap a).map (fun c => { c with referenced_cells_ := [] }) else s.heap x := by
  unfold Sheet.clearReferenced
  cases h : s.heap a with
  | none =>
    by_cases hx : x = a
    · simp [hx, h]
    · simp [hx]
  | some c => simp

@[simp] theorem clearReferenced_cells (s : Sheet) (a : Nat) :
    (s.clearReferenced a).cells_ = s.cells_ := by
  unfold Sheet.clearReferenced
  cases s.heap a <;> rfl

@[simp] theorem clearReferenced_brk (s : Sheet) (a : Nat) : (s.clearReferenced a).brk = s.brk := by
  unfold Sheet.clearReferenced
  cases s.heap a <;> rfl

@[simp] theorem setCache_cells (s : Sheet) (a : Nat) (v : FValue) : (s.setCache a v).cells_ = s.cells_ := by
  unfold Sheet.setCache
  cases s.heap a with
  | none => rfl
  | some c =>
    obtain ⟨i, d, r⟩ := c
    cases i <;> rfl

@[simp] theorem setCache_brk (s : Sheet) (a : Nat) (v : FValue) : (s.setCache a v).brk = s.brk := by
  unfold Sheet.setCache
  cases s.heap a with
  | none => rfl
  | some c =>
    obtain ⟨i, d, r⟩ := c
    cases i <;> rfl

theorem uncache_idem (i : Impl) : i.InvalidateCache.InvalidateCache = i.InvalidateCache := by
  cases i <;> rfl

theorem setCache_heap_uncache (s : Sheet) (a : Nat) (v : FValue) (x : Nat) :
    ((s.setCache a v).heap x).map Cell.uncache = (s.heap x).map Cell.uncache := by
  unfold Sheet.setCache
  cases h : s.heap a with
  | none => rfl
  | some c =>
    obtain ⟨i, d, r⟩ := c
    cases i with
    | EmptyImpl => rfl
    | TextImpl _ _ => rfl
    | FormulaImpl cache f =>
      simp only [store_heap]
      by_cases hx : x = a
      · subst hx
        simp [h, Cell.uncache, Impl.InvalidateCache]
      · simp [hx]

theorem setImpl_uncache_heap (s : Sheet) (a : Nat) (c : Cell) (h : s.heap a = some c) (x : Nat) :
    ((s.setImpl a c.impl_.InvalidateCache).heap x).map Cell.uncache = (s.heap x).map Cell.uncache := by
  rw [setImpl_heap]
  by_cases hx : x = a
  · subst hx
    simp [h, Cell.uncache, uncache_idem]
  · simp [hx]

/-! ## Same up to cache -/

theorem SameUpToCache.refl (s : Sheet) : SameUpToCache s s := ⟨rfl, rfl, fun _ => rfl⟩

theorem SameUpToCache.trans {s t u : Sheet} (h1 : SameUpToCache s t) (h2 : SameUpToCache t u) :
    SameUpToCache s u :=
  ⟨h2.1.trans h1.1, h2.2.1.trans h1.2.1, fun a => (h2.2.2 a).trans (h1.2.2 a)⟩

theorem SameUpToCache.symm {s t : Sheet} (h : SameUpToCache s t) : SameUpToCache t s :=
  ⟨h.1.symm, h.2.1.symm, fun a => (h.2.2 a).symm⟩

theorem SameUpToCache.find {s t : Sheet} (h : SameUpToCache s t) (p : Position) :
    t.find p = s.find p := find_congr s t h.1 p

theorem SameUpToCache.heap_some {s t : Sheet} (h : SameUpToCache s t) (a : Nat) (c : Cell)
    (hc : s.heap a = some c) :
    ∃ d, t.heap a = some d ∧ d.dependent_cells_ = c.dependent_cells_ ∧
      d.referenced_cells_ = c.referenced_cells_ ∧
      d.impl_.InvalidateCache = c.impl_.InvalidateCache := by
  have h1 := h.2.2 a
  rw [hc] at h1
  cases hd : t.heap a with
  | none => simp [hd] at h1
  | some d =>
    refine ⟨d, rfl, ?_⟩
    simp only [hd, Option.map_some', Option.some.injEq, Cell.uncache] at h1
    have e1 := congrArg Cell.dependent_cells_ h1
    have e2 := congrArg Cell.referenced_cells_ h1
    have e3 := congrArg Cell.impl_ h1
    exact ⟨e1, e2, e3⟩

theorem SameUpToCache.heap_none {s t : Sheet} (h : SameUpToCache s t) (a : Nat)
    (hc : s.heap a = none) : t.heap a = none := by
  have h1 := h.2.2 a
  rw [hc] at h1
  cases hd : t.heap a with
  | none => rfl
  | some d => simp [hd] at h1

theorem SameUpToCache.isSome {s t : Sheet} (h : SameUpToCache s t) (a : Nat) :
    (t.heap a).isSome = (s.heap a).isSome := by
  cases hc : s.heap a with
  | none => rw [h.heap_none a hc]
  | some c =>
    obtain ⟨d, hd, _⟩ := h.heap_some a c hc
    rw [hd]; rfl

theorem SameUpToCache.deps {s t : Sheet} (h : SameUpToCache s t) (a : Nat) :
    t.deps a = s.deps a := by
  unfold Sheet.deps
  cases hc : s.heap a with
  | none => rw [h.heap_none a hc]
  | some c =>
    obtain ⟨d, hd, h1, _⟩ := h.heap_some a c hc
    rw [hd]; exact h1

theorem SameUpToCache.refd {s t : Sheet} (h : SameUpToCache s t) (a : Nat) :
    t.refd a = s.refd a := by
  unfold Sheet.refd
  cases hc : s.heap a with
  | none => rw [h.heap_none a hc]
  | some c =>
    obtain ⟨d, hd, _, h1, _⟩ := h.heap_some a c hc
    rw [hd]; exact h1

theorem refs_uncache (i : Impl) : i.InvalidateCache.GetReferencedCells = i.GetReferencedCells := by
  cases i <;> rfl

theorem text_uncache (i : Impl) : i.InvalidateCache.GetText = i.GetText := by
  cases i <;> rfl

theorem refs_of_uncache_eq {i j : Impl} (h : i.InvalidateCache = j.InvalidateCache) :
    i.GetReferencedCells = j.GetReferencedCells := by
  rw [← refs_uncache i, ← refs_uncache j, h]

theorem text_of_uncache_eq {i j : Impl} (h : i.InvalidateCache = j.InvalidateCache) :
    i.GetText = j.GetText := by
  rw [← text_uncache i, ← text_uncache j, h]

theorem SameUpToCache.prefs {s t : Sheet} (h : SameUpToCache s t) (a : Nat) :
    t.prefs a = s.prefs a := by
  unfold Sheet.prefs
  cases hc : s.heap a with
  | none => rw [h.heap_none a hc]
  | some c =>
    obtain ⟨d, hd, _, _, h1⟩ := h.heap_some a c hc
    rw [hd]; exact refs_of_uncache_eq h1

theorem SameUpToCache.textAt {s t : Sheet} (h : SameUpToCache s t) (a : Nat) :
    t.textAt a = s.textAt a := by
  unfold Sheet.textAt
  cases hc : s.heap a with
  | none => rw [h.heap_none a hc]
  | some c =>
    obtain ⟨d, hd, _, _, h1⟩ := h.heap_some a c hc
    rw [hd]; exact text_of_uncache_eq h1

theorem SameUpToCache.wf {s t : Sheet} (h : SameUpToCache s t) (w : s.WF) : t.WF := by
  have hk := keys_congr s t h.1
  have ha := addrs_congr s t h.1
  refine ⟨?_, ?_, ?_, ?_, ?_⟩
  · rw [hk]; exact w.keys_nodup
  · rw [hk]; exact w.keys_valid
  · rw [ha]; exact w.addrs_nodup
  · rw [ha, h.2.1]; exact w.addrs_lt
  · intro a; rw [ha, h.isSome]; exact w.live_iff a

theorem SameUpToCache.depEdge {s t : Sheet} (h : SameUpToCache s t) : DepEdge t = DepEdge s := by
  funext a b
  unfold DepEdge
  rw [h.deps]

theorem SameUpToCache.inv {s t : Sheet} (h : SameUpToCache s t) (i : s.Inv) : t.Inv := by
  refine ⟨h.wf i.wf, ?_, ?_, ?_, ?_, ?_⟩
  · intro a b hb
    rw [h.deps] at hb
    rw [h.isSome]
    exact i.deps_live a b hb
  · intro a b
    rw [h.refd, h.deps]
    exact i.symm a b
  · intro a b
    rw [h.refd, h.prefs]
    simp only [h.find]
    exact i.refd_iff a b
  · intro a q hq
    rw [h.prefs] at hq
    rw [h.find]
    exact i.prefs_present a q hq
  · intro a
    rw [h.depEdge]
    exact i.acyclic a

theorem SameUpToCache.setCache (s : Sheet) (a : Nat) (v : FValue) :
    SameUpToCache s (s.setCache a v) :=
  ⟨setCache_cells s a v, setCache_brk s a v, setCache_heap_uncache s a v⟩

end Spreadsheet


namespace Spreadsheet

/-! ## Cache invalidation and evaluation change caches only -/

theorem forEach_ok (step : Nat → Sheet → Res Unit) (P : Sheet → Sheet → Prop)
    (hrefl : ∀ s, P s s) (htrans : ∀ s t u, P s t → P t u → P s u)
    (hstep : ∀ d s u t, step d s = .ok u t → P s t) :
    ∀ (l : List Nat) (s : Sheet) (u : Unit) (t : Sheet), forEach step l s = .ok u t → P s t := by
  intro l
  induction l with
  | nil =>
    intro s u t h
    simp only [forEach, Res.ok.injEq] at h
    rw [← h.2]
    exact hrefl s
  | cons d rest ih =>
    intro s u t h
    unfold forEach at h
    cases hd : step d s with
    | ok u1 s1 =>
      rw [hd] at h
      exact htrans _ _ _ (hstep d s u1 s1 hd) (ih s1 u t h)
    | throws e s1 => rw [hd] at h; cases h
    | dangling => rw [hd] at h; cases h
    | timeout => rw [hd] at h; cases h

theorem forEach_not_throws (step : Nat → Sheet → Res Unit)
    (hstep : ∀ d s e t, step d s ≠ .throws e t) :
    ∀ (l : List Nat) (s : Sheet) (e : Exception) (t : Sheet), forEach step l s ≠ .throws e t := by
  intro l
  induction l with
  | nil =>
    intro s e t h
    simp [forEach] at h
  | cons d rest ih =>
    intro s e t h
    unfold forEach at h
    cases hd : step d s with
    | ok u1 s1 =>
      rw [hd] at h
      exact ih s1 e t h
    | throws e1 s1 => exact hstep d s e1 s1 hd
    | dangling => rw [hd] at h; cases h
    | timeout => rw [hd] at h; cases h

theorem InvalidateAllCache_ok :
    ∀ (fuel this : Nat) (flag : Bool) (s : Sheet) (u : Unit) (t : Sheet),
      Cell.InvalidateAllCache fuel this flag s = .ok u t → SameUpToCache s t := by
  intro fuel
  induction fuel with
  | zero =>
    intro this flag s u t h
    simp [Cell.InvalidateAllCache] at h
  | succ fuel ih =>
    intro this flag s u t h
    unfold Cell.InvalidateAllCache at h
    cases hc : s.heap this with
    | none => simp [hc] at h
    | some c =>
      simp only [hc] at h
      by_cases hf : (c.impl_.HasCache || flag) = true
      · simp only [hf, if_true] at h
        have h1 : SameUpToCache s (s.setImpl this c.impl_.InvalidateCache) :=
          ⟨setImpl_cells _ _ _, setImpl_brk _ _ _, setImpl_uncache_heap s this c hc⟩
        refine h1.trans ?_
        exact forEach_ok _ SameUpToCache SameUpToCache.refl
          (fun _ _ _ h1 h2 => h1.trans h2) (fun d s1 u1 t1 hd => ih d false s1 u1 t1 hd) _ _ u t h
      · simp only [hf] at h
        simp only [Bool.false_eq_true, if_false, Res.ok.injEq] at h
        rw [← h.2]
        exact SameUpToCache.refl s

theorem InvalidateAllCache_not_throws :
    ∀ (fuel this : Nat) (flag : Bool) (s : Sheet) (e : Exception) (t : Sheet),
      Cell.InvalidateAllCache fuel this flag s ≠ .throws e t := by
  intro fuel
  induction fuel with
  | zero =>
    intro this flag s e t h
    simp [Cell.InvalidateAllCache] at h
  | succ fuel ih =>
    intro this flag s e t h
    unfold Cell.InvalidateAllCache at h
    cases hc : s.heap this with
    | none => simp [hc] at h
    | some c =>
      simp only [hc] at h
      by_cases hf : (c.impl_.HasCache || flag) = true
      · simp only [hf, if_true] at h
        exact forEach_not_throws _ (fun d s1 e1 t1 => ih d false s1 e1 t1) _ _ e t h
      · simp only [hf] at h
        simp at h

theorem runEval_same (getv : Position → Sheet → Res (Option Value))
    (hok : ∀ p s ov t, getv p s = .ok ov t → SameUpToCache s t)
    (hth : ∀ p s e t, getv p s = .throws e t → SameUpToCache s t) :
    ∀ (ev : Eval) (s : Sheet),
      (∀ v t, runEval getv ev s = .ok v t → SameUpToCache s t) ∧
      (∀ e t, runEval getv ev s = .throws e t → SameUpToCache s t) := by
  intro ev
  induction ev with
  | ret v =>
    intro s
    constructor
    · intro v1 t h
      simp only [runEval, Res.ok.injEq] at h
      rw [← h.2]; exact SameUpToCache.refl s
    · intro e t h
      simp [runEval] at h
  | ask p k ih =>
    intro s
    unfold runEval
    cases hg : getv p s with
    | ok ov s1 =>
      simp only
      have h1 := hok p s ov s1 hg
      constructor
      · intro v t h
        exact h1.trans ((ih ov s1).1 v t h)
      · intro e t h
        exact h1.trans ((ih ov s1).2 e t h)
    | throws e1 s1 =>
      simp only
      constructor
      · intro v t h; cases h
      · intro e t h
        simp only [Res.throws.injEq] at h
        rw [← h.2]
        exact hth p s e1 s1 hg
    | dangling =>
      simp only
      constructor
      · intro v t h; cases h
      · intro e t h; cases h
    | timeout =>
      simp only
      constructor
      · intro v t h; cases h
      · intro e t h; cases h

theorem GetValue_same :
    ∀ (fuel : Nat) (pos : Position) (s : Sheet),
      (∀ ov t, Sheet.GetValue fuel pos s = .ok ov t → SameUpToCache s t) ∧
      (∀ e t, Sheet.GetValue fuel pos s = .throws e t → SameUpToCache s t) := by
  intro fuel
  induction fuel with
  | zero =>
    intro pos s
    constructor
    · intro ov t h; simp [Sheet.GetValue] at h
    · intro e t h; simp [Sheet.GetValue] at h
  | succ fuel ih =>
    intro pos s
    have hrun := runEval_same (fun p s1 => Sheet.GetValue fuel p s1)
      (fun p s1 ov t h => (ih p s1).1 ov t h) (fun p s1 e t h => (ih p s1).2 e t h)
    unfold Sheet.GetValue
    by_cases hv : pos.IsValid = true
    · simp only [hv, if_true]
      cases hf : s.find pos with
      | none =>
        simp only
        constructor
        · intro ov t h
          simp only [Res.ok.injEq] at h
          rw [← h.2]; exact SameUpToCache.refl s
        · intro e t h; cases h
      | some a =>
        simp only
        cases hc : s.heap a with
        | none =>
          simp only
          constructor
          · intro ov t h; cases h
          · intro e t h; cases h
        | some c =>
          simp only
          cases hi : c.impl_ with
          | EmptyImpl =>
            simp only
            constructor
            · intro ov t h
              simp only [Res.ok.injEq] at h
              rw [← h.2]; exact SameUpToCache.refl s
            · intro e t h; cases h
          | TextImpl value_ text_ =>
            simp only
            constructor
            · intro ov t h
              simp only [Res.ok.injEq] at h
              rw [← h.2]; exact SameUpToCache.refl s
            · intro e t h; cases h
          | FormulaImpl cache_ f =>
            simp only
            cases cache_ with
            | some w =>
              simp only
              cases hr : runEval (fun p s1 => Sheet.GetValue fuel p s1) f.Evaluate s with
              | ok v s2 =>
                simp only
                constructor
                · intro ov t h
                  simp only [Res.ok.injEq] at h
                  rw [← h.2]; exact (hrun f.Evaluate s).1 v s2 hr
                · intro e t h; cases h
              | throws e1 s2 =>
                simp only
                constructor
                · intro ov t h; cases h
                · intro e t h
                  simp only [Res.throws.injEq] at h
                  rw [← h.2]; exact (hrun f.Evaluate s).2 e1 s2 hr
              | dangling =>
                simp only
                constructor
                · intro ov t h; cases h
                · intro e t h; cases h
              | timeout =>
                simp only
                constructor
                · intro ov t h; cases h
                · intro e t h; cases h
            | none =>
              simp only
              cases hr : runEval (fun p s1 => Sheet.GetValue fuel p s1) f.Evaluate s with
              | ok v0 s1 =>
                simp only
                have h1 := (hrun f.Evaluate s).1 v0 s1 hr
                have h2 := h1.trans (SameUpToCache.setCache s1 a v0)
                cases hr2 : runEval (fun p s1 => Sheet.GetValue fuel p s1) f.Evaluate
                    (s1.setCache a v0) with
                | ok v s2 =>
                  simp only
                  constructor
                  · intro ov t h
                    simp only [Res.ok.injEq] at h
                    rw [← h.2]; exact h2.trans ((hrun f.Evaluate _).1 v s2 hr2)
                  · intro e t h; cases h
                | throws e1 s2 =>
                  simp only
                  constructor
                  · intro ov t h; cases h
                  · intro e t h
                    simp only [Res.throws.injEq] at h
                    rw [← h.2]; exact h2.trans ((hrun f.Evaluate _).2 e1 s2 hr2)
                | dangling =>
                  simp only
                  constructor
                  · intro ov t h; cases h
                  · intro e t h; cases h
                | timeout =>
                  simp only
                  constructor
                  · intro ov t h; cases h
                  · intro e t h; cases h
              | throws e1 s2 =>
                simp only
                constructor
                · intro ov t h; cases h
                · intro e t h
                  simp only [Res.throws.injEq] at h
                  rw [← h.2]; exact (hrun f.Evaluate s).2 e1 s2 hr
              | dangling =>
                simp only
                constructor
                · intro ov t h; cases h
                · intro e t h; cases h
              | timeout =>
                simp only
                constructor
                · intro ov t h; cases h
                · intro e t h; cases h
    · simp only [hv]
      simp only [Bool.false_eq_true, if_false]
      constructor
      · intro ov t h; cases h
      · intro e t h
        simp only [Res.throws.injEq] at h
        rw [← h.2]; exact SameUpToCache.refl s

theorem GetValue_state (fuel : Nat) (pos : Position) (s t : Sheet)
    (h : (Sheet.GetValue fuel pos s).state? = some t) : SameUpToCache s t := by
  cases hr : Sheet.GetValue fuel pos s with
  | ok ov t1 =>
    rw [hr] at h
    simp only [Res.state?, Option.some.injEq] at h
    rw [← h]; exact (GetValue_same fuel pos s).1 ov t1 hr
  | throws e t1 =>
    rw [hr] at h
    simp only [Res.state?, Option.some.injEq] at h
    rw [← h]; exact (GetValue_same fuel pos s).2 e t1 hr
  | dangling => rw [hr] at h; simp [Res.state?] at h
  | timeout => rw [hr] at h; simp [Res.state?] at h

end Spreadsheet


namespace Spreadsheet

/-! ## Ownership is kept -/

theorem Sheet.ext_heap (s t : Sheet) (h1 : t.cells_ = s.cells_) (h2 : t.brk = s.brk)
    (h3 : ∀ a, t.heap a = s.heap a) : t = s := by
  obtain ⟨c1, hp1, b1⟩ := s
  obtain ⟨c2, hp2, b2⟩ := t
  simp only at h1 h2 h3
  subst h1 h2
  have : hp2 = hp1 := funext h3
  subst this
  rfl

theorem wf_of_shape (s t : Sheet) (h1 : t.cells_ = s.cells_) (h2 : t.brk = s.brk)
    (h3 : ∀ a, (t.heap a).isSome = (s.heap a).isSome) (w : s.WF) : t.WF := by
  have hk := keys_congr s t h1
  have ha := addrs_congr s t h1
  refine ⟨?_, ?_, ?_, ?_, ?_⟩
  · rw [hk]; exact w.keys_nodup
  · rw [hk]; exact w.keys_valid
  · rw [ha]; exact w.addrs_nodup
  · rw [ha, h2]; exact w.addrs_lt
  · intro a; rw [ha, h3]; exact w.live_iff a

theorem empty_wf : Sheet.empty.WF := by
  refine ⟨?_, ?_, ?_, ?_, ?_⟩ <;> simp [Sheet.empty, Sheet.keys, Sheet.addrs]

theorem wf_heap_brk (s : Sheet) (w : s.WF) : s.heap s.brk = none := by
  cases h : s.heap s.brk with
  | none => rfl
  | some c =>
    have h1 : (s.heap s.brk).isSome = true := by rw [h]; rfl
    have h2 := w.addrs_lt _ ((w.live_iff _).1 h1)
    exact absurd h2 (lt_irrefl _)

theorem wf_live_lt (s : Sheet) (w : s.WF) (a : Nat) (c : Cell) (h : s.heap a = some c) :
    a < s.brk := by
  have h1 : (s.heap a).isSome = true := by rw [h]; rfl
  exact w.addrs_lt _ ((w.live_iff _).1 h1)

theorem wf_find_live (s : Sheet) (w : s.WF) (p : Position) (a : Nat) (h : s.find p = some a) :
    ∃ c, s.heap a = some c := by
  have h1 := (w.live_iff a).2 (find_some_addr s p a h)
  cases hc : s.heap a with
  | none => rw [hc] at h1; cases h1
  | some c => exact ⟨c, rfl⟩

@[simp] theorem alloc_heap (s : Sheet) (p : Position) (x : Nat) :
    (s.alloc p).heap x = if x = s.brk then some ⟨.EmptyImpl, [], []⟩ else s.heap x := rfl

@[simp] theorem alloc_cells (s : Sheet) (p : Position) :
    (s.alloc p).cells_ = s.cells_ ++ [(p, s.brk)] := rfl

@[simp] theorem alloc_brk (s : Sheet) (p : Position) : (s.alloc p).brk = s.brk + 1 := rfl

theorem alloc_keys (s : Sheet) (p : Position) : (s.alloc p).keys = s.keys ++ [p] := by
  simp [Sheet.keys]

theorem alloc_addrs (s : Sheet) (p : Position) : (s.alloc p).addrs = s.addrs ++ [s.brk] := by
  simp [Sheet.addrs]

theorem alloc_wf (s : Sheet) (p : Position) (w : s.WF) (hv : p.IsValid = true)
    (hp : s.find p = none) : (s.alloc p).WF := by
  have hpk : p ∉ s.keys := (find_eq_none_iff s p).1 hp
  have hb : s.brk ∉ s.addrs := fun h => absurd (w.addrs_lt _ h) (lt_irrefl _)
  refine ⟨?_, ?_, ?_, ?_, ?_⟩
  · rw [alloc_keys]
    refine List.Nodup.append w.keys_nodup (List.nodup_singleton p) ?_
    intro x hx hx2
    simp only [List.mem_singleton] at hx2
    subst hx2
    exact hpk hx
  · intro q hq
    rw [alloc_keys] at hq
    simp only [List.mem_append, List.mem_singleton] at hq
    rcases hq with hq | rfl
    · exact w.keys_valid q hq
    · exact hv
  · rw [alloc_addrs]
    refine List.Nodup.append w.addrs_nodup (List.nodup_singleton _) ?_
    intro x hx hx2
    simp only [List.mem_singleton] at hx2
    subst hx2
    exact hb hx
  · intro a ha
    rw [alloc_addrs] at ha
    simp only [List.mem_append, List.mem_singleton] at ha
    rw [alloc_brk]
    rcases ha with ha | rfl
    · exact Nat.lt_succ_of_lt (w.addrs_lt a ha)
    · exact Nat.lt_succ_self _
  · intro a
    rw [alloc_addrs, alloc_heap]
    simp only [List.mem_append, List.mem_singleton]
    by_cases ha : a = s.brk
    · simp [ha]
    · simp only [ha, if_false, or_false]
      exact w.live_iff a

/-! ## The nested call SetCell(pos, "") -/

theorem build_empty (parse : String → Option FormulaInterface) :
    Impl.build parse "" = some .EmptyImpl := rfl

theorem SetCell_empty_absent (parse : String → Option FormulaInterface) (fuel : Nat)
    (p : Position) (s : Sheet) (hv : p.IsValid = true) (hp : s.find p = none) :
    Sheet.SetCell parse (fuel + 2) p "" s = .ok () (s.alloc p) := by
  have hf := find_alloc_self s p hp
  have hh : (s.alloc p).heap s.brk = some ⟨.EmptyImpl, [], []⟩ := by simp
  have he : s.ensure p = s.alloc p := by simp [Sheet.ensure, hp]
  unfold Sheet.SetCell
  simp only [hv, if_true, he, hf]
  unfold Cell.Set
  simp only [build_empty, Cell.HasCircularDependency, Impl.GetReferencedCells, if_true, hh,
    eraseDependent, rewire]
  unfold Cell.InvalidateAllCache
  have h2 : ((s.alloc p).setImpl s.brk Impl.EmptyImpl).clearReferenced s.brk = s.alloc p := by
    apply Sheet.ext_heap
    · simp
    · simp
    · intro a
      rw [clearReferenced_heap, setImpl_heap]
      by_cases ha : a = s.brk
      · subst ha
        simp
      · simp [ha, setImpl_heap]
  rw [h2]
  simp only [hh, Impl.HasCache, Bool.or_true, if_true, forEach, Res.ok.injEq, true_and]
  apply Sheet.ext_heap
  · simp
  · simp
  · intro a
    rw [setImpl_heap]
    by_cases ha : a = s.brk
    · subst ha
      simp [Impl.InvalidateCache]
    · simp [ha]

theorem SetCell_empty_absent_cases (parse : String → Option FormulaInterface) (fuel : Nat)
    (p : Position) (s : Sheet) (hv : p.IsValid = true) (hp : s.find p = none) :
    Sheet.SetCell parse fuel p "" s = .timeout ∨
      Sheet.SetCell parse fuel p "" s = .ok () (s.alloc p) := by
  match fuel with
  | 0 => left; rfl
  | 1 =>
    left
    have hf := find_alloc_self s p hp
    have hh : (s.alloc p).heap s.brk = some ⟨.EmptyImpl, [], []⟩ := by simp
    have he : s.ensure p = s.alloc p := by simp [Sheet.ensure, hp]
    unfold Sheet.SetCell
    simp only [hv, if_true, he, hf]
    unfold Cell.Set
    simp only [build_empty, Cell.HasCircularDependency, Impl.GetReferencedCells, if_true, hh,
      eraseDependent, rewire, Cell.InvalidateAllCache]
  | fuel + 2 => right; exact SetCell_empty_absent parse fuel p s hv hp

end Spreadsheet


namespace Spreadsheet

/-! ## The loops of Cell::Set, pointwise -/

theorem eraseDependent_spec (this : Nat) :
    ∀ (l : List Nat) (s t : Sheet), eraseDependent this l s = some t →
      t.cells_ = s.cells_ ∧ t.brk = s.brk ∧
      ∀ x, t.heap x = (s.heap x).map (fun c =>
        { c with dependent_cells_ :=
            if x ∈ l then setErase this c.dependent_cells_ else c.dependent_cells_ }) := by
  intro l
  induction l with
  | nil =>
    intro s t h
    simp only [eraseDependent, Option.some.injEq] at h
    subst h
    refine ⟨rfl, rfl, ?_⟩
    intro x
    cases s.heap x <;> simp
  | cons r rest ih =>
    intro s t h
    unfold eraseDependent at h
    cases hr : s.heap r with
    | none => simp [hr] at h
    | some c =>
      simp only [hr] at h
      obtain ⟨h1, h2, h3⟩ := ih _ t h
      refine ⟨by simpa using h1, by simpa using h2, ?_⟩
      intro x
      rw [h3 x, store_heap]
      by_cases hx : x = r
      · subst hx
        simp only [if_true, hr, Option.map_some', List.mem_cons, true_or]
        by_cases hm : x ∈ rest
        · simp [hm, setErase_idem]
        · simp [hm]
      · simp only [hx, if_false, List.mem_cons, false_or]

theorem eraseDependent_some (this : Nat) :
    ∀ (l : List Nat) (s : Sheet), (∀ r ∈ l, (s.heap r).isSome = true) →
      ∃ t, eraseDependent this l s = some t := by
  intro l
  induction l with
  | nil => intro s _; exact ⟨s, rfl⟩
  | cons r rest ih =>
    intro s h
    unfold eraseDependent
    have hr := h r (List.mem_cons_self _ _)
    cases hc : s.heap r with
    | none => rw [hc] at hr; cases hr
    | some c =>
      simp only
      apply ih
      intro x hx
      rw [store_heap]
      by_cases hxr : x = r
      · simp [hxr]
      · simp only [hxr, if_false]
        exact h x (List.mem_cons_of_mem _ hx)

theorem link_spec (s t : Sheet) (this ref : Nat) (h : s.link this ref = some t) :
    t.cells_ = s.cells_ ∧ t.brk = s.brk ∧
    ∀ x, t.heap x = (s.heap x).map (fun c =>
      { impl_ := c.impl_,
        dependent_cells_ := if x = ref then setInsert this c.dependent_cells_ else c.dependent_cells_,
        referenced_cells_ := if x = this then setInsert ref c.referenced_cells_ else c.referenced_cells_ }) := by
  unfold Sheet.link at h
  cases hc : s.heap this with
  | none => simp [hc] at h
  | some c =>
    simp only [hc] at h
    by_cases hrt : ref = this
    · subst hrt
      simp only [store_heap, if_true, Option.some.injEq] at h
      subst h
      refine ⟨rfl, rfl, ?_⟩
      intro x
      simp only [store_heap]
      by_cases hx : x = ref
      · subst hx
        simp [hc]
      · simp only [hx, if_false]
        cases s.heap x <;> simp
    · simp only [store_heap, hrt, if_false] at h
      cases hr : s.heap ref with
      | none => simp [hr] at h
      | some r =>
        simp only [hr, Option.some.injEq] at h
        subst h
        refine ⟨rfl, rfl, ?_⟩
        intro x
        simp only [store_heap]
        by_cases hx : x = ref
        · subst hx
          simp [hr, hrt]
        · simp only [hx, if_false]
          by_cases hx2 : x = this
          · subst hx2
            simp [hc]
          · simp only [hx2, if_false]
            cases s.heap x <;> simp

theorem link_some (s : Sheet) (this ref : Nat) (h1 : (s.heap this).isSome = true)
    (h2 : (s.heap ref).isSome = true) : ∃ t, s.link this ref = some t := by
  unfold Sheet.link
  cases hc : s.heap this with
  | none => rw [hc] at h1; cases h1
  | some c =>
    simp only [store_heap]
    by_cases hrt : ref = this
    · simp [hrt]
    · simp only [hrt, if_false]
      cases hr : s.heap ref with
      | none => rw [hr] at h2; cases h2
      | some r => simp

theorem link_none (s : Sheet) (this ref : Nat) (h : s.link this ref = none) :
    s.heap this = none ∨ s.heap ref = none := by
  by_contra hcon
  push_neg at hcon
  have h1 : (s.heap this).isSome = true := by
    cases hc : s.heap this with
    | none => exact absurd hc hcon.1
    | some c => rfl
  have h2 : (s.heap ref).isSome = true := by
    cases hc : s.heap ref with
    | none => exact absurd hc hcon.2
    | some c => rfl
  obtain ⟨t, ht⟩ := link_some s this ref h1 h2
  rw [ht] at h
  cases h

/-! ## Steps that keep the other cells -/

theorem uncache_eq_empty (i : Impl) (h : i.InvalidateCache = .EmptyImpl) : i = .EmptyImpl := by
  cases i <;> simp_all [Impl.InvalidateCache]

theorem extends_refl (s : Sheet) (w : s.WF) : Extends s s := by
  refine ⟨fun _ _ h => h, fun a c h => ⟨c, h, rfl⟩, ?_, w⟩
  intro q a h1 h2
  rw [h1] at h2
  cases h2

theorem extends_trans {s t u : Sheet} (h1 : Extends s t) (h2 : Extends t u) : Extends s u := by
  refine ⟨fun q a h => h2.find_mono q a (h1.find_mono q a h), ?_, ?_, h2.wf⟩
  · intro a c h
    obtain ⟨d, hd, hd2⟩ := h1.impl_same a c h
    obtain ⟨e, he, he2⟩ := h2.impl_same a d hd
    exact ⟨e, he, he2.trans hd2⟩
  · intro q a hs hu
    cases ht : t.find q with
    | none => exact h2.new_empty q a ht hu
    | some b =>
      have hb := h2.find_mono q b ht
      rw [hb] at hu
      simp only [Option.some.injEq] at hu
      subst hu
      obtain ⟨d, hd, hd2⟩ := h1.new_empty q b hs ht
      obtain ⟨e, he, he2⟩ := h2.impl_same b d hd
      refine ⟨e, he, ?_⟩
      rw [hd2] at he2
      exact uncache_eq_empty _ he2

theorem extends_of_pointwise (s t : Sheet) (w : s.WF) (h1 : t.cells_ = s.cells_)
    (h2 : t.brk = s.brk)
    (h3 : ∀ x c, s.heap x = some c →
      ∃ d, t.heap x = some d ∧ d.impl_.InvalidateCache = c.impl_.InvalidateCache)
    (h4 : ∀ x, s.heap x = none → t.heap x = none) : Extends s t := by
  refine ⟨?_, h3, ?_, ?_⟩
  · intro q a h
    rw [find_congr s t h1]; exact h
  · intro q a hs ht
    rw [find_congr s t h1, hs] at ht
    cases ht
  · apply wf_of_shape s t h1 h2 _ w
    intro a
    cases hc : s.heap a with
    | none => rw [h4 a hc]
    | some c =>
      obtain ⟨d, hd, _⟩ := h3 a c hc
      rw [hd]; rfl

theorem extends_of_same (s t : Sheet) (w : s.WF) (h : SameUpToCache s t) : Extends s t := by
  apply extends_of_pointwise s t w h.1 h.2.1
  · intro x c hc
    obtain ⟨d, hd, _, _, h3⟩ := h.heap_some x c hc
    exact ⟨d, hd, h3⟩
  · intro x hx
    exact h.heap_none x hx

theorem extends_link (s t : Sheet) (w : s.WF) (this ref : Nat) (h : s.link this ref = some t) :
    Extends s t := by
  obtain ⟨h1, h2, h3⟩ := link_spec s t this ref h
  apply extends_of_pointwise s t w h1 h2
  · intro x c hc
    rw [h3 x, hc]
    exact ⟨_, rfl, rfl⟩
  · intro x hx
    rw [h3 x, hx]; rfl

theorem extends_eraseDependent (s t : Sheet) (w : s.WF) (this : Nat) (l : List Nat)
    (h : eraseDependent this l s = some t) : Extends s t := by
  obtain ⟨h1, h2, h3⟩ := eraseDependent_spec this l s t h
  apply extends_of_pointwise s t w h1 h2
  · intro x c hc
    rw [h3 x, hc]
    exact ⟨_, rfl, rfl⟩
  · intro x hx
    rw [h3 x, hx]; rfl

theorem extends_clearReferenced (s : Sheet) (w : s.WF) (this : Nat) :
    Extends s (s.clearReferenced this) := by
  apply extends_of_pointwise s _ w (by simp) (by simp)
  · intro x c hc
    rw [clearReferenced_heap]
    by_cases hx : x = this
    · subst hx
      simp [hc]
    · simp [hx, hc]
  · intro x hx
    rw [clearReferenced_heap]
    by_cases hx2 : x = this
    · subst hx2
      simp [hx]
    · simp [hx2, hx]

theorem extends_alloc (s : Sheet) (w : s.WF) (p : Position) (hv : p.IsValid = true)
    (hp : s.find p = none) : Extends s (s.alloc p) := by
  refine ⟨fun q a h => find_alloc_of_some s p q a h, ?_, ?_, alloc_wf s p w hv hp⟩
  · intro a c hc
    have hlt := wf_live_lt s w a c hc
    refine ⟨c, ?_, rfl⟩
    rw [alloc_heap]
    simp [Nat.ne_of_lt hlt, hc]
  · intro q a hq ha
    by_cases hqp : q = p
    · subst hqp
      rw [find_alloc_self s q hq] at ha
      simp only [Option.some.injEq] at ha
      subst ha
      exact ⟨⟨.EmptyImpl, [], []⟩, by simp, rfl⟩
    · rw [find_alloc_of_ne s p q hqp, hq] at ha
      cases ha

end Spreadsheet


namespace Spreadsheet

/-! ## The rewiring loop -/

theorem rewire_extends (inner : Position → Sheet → Res Unit) (this : Nat)
    (hinner : ∀ p s, p.IsValid = true → s.find p = none →
      inner p s = .timeout ∨ inner p s = .ok () (s.alloc p)) :
    ∀ (l : List Position) (s : Sheet) (u : Unit) (t : Sheet), s.WF →
      rewire inner this l s = .ok u t →
      Extends s t ∧ (∀ q ∈ l, (t.find q).isSome = true) ∧ (∀ q ∈ l, q.IsValid = true) := by
  intro l
  induction l with
  | nil =>
    intro s u t w h
    simp only [rewire, Res.ok.injEq] at h
    rw [← h.2]
    exact ⟨extends_refl s w, by simp, by simp⟩
  | cons pos rest ih =>
    intro s u t w h
    unfold rewire at h
    by_cases hv : pos.IsValid = true
    · simp only [hv, if_true] at h
      cases hf : s.find pos with
      | some ref =>
        simp only [hf] at h
        cases hl : s.link this ref with
        | none => simp [hl] at h
        | some s1 =>
          simp only [hl] at h
          have e1 := extends_link s s1 w this ref hl
          obtain ⟨e2, p2, v2⟩ := ih s1 u t e1.wf h
          refine ⟨extends_trans e1 e2, ?_, ?_⟩
          · intro q hq
            rcases List.mem_cons.1 hq with rfl | hq
            · rw [(extends_trans e1 e2).find_mono _ _ hf]; rfl
            · exact p2 q hq
          · intro q hq
            rcases List.mem_cons.1 hq with rfl | hq
            · exact hv
            · exact v2 q hq
      | none =>
        simp only [hf] at h
        rcases hinner pos s hv hf with hi | hi
        · rw [hi] at h; cases h
        · rw [hi] at h
          simp only [find_alloc_self s pos hf] at h
          cases hl : (s.alloc pos).link this s.brk with
          | none => simp [hl] at h
          | some s2 =>
            simp only [hl] at h
            have e0 := extends_alloc s w pos hv hf
            have e1 := extends_link _ s2 e0.wf this s.brk hl
            obtain ⟨e2, p2, v2⟩ := ih s2 u t e1.wf h
            have e := extends_trans (extends_trans e0 e1) e2
            refine ⟨e, ?_, ?_⟩
            · intro q hq
              rcases List.mem_cons.1 hq with rfl | hq
              · rw [(extends_trans e1 e2).find_mono _ _ (find_alloc_self s _ hf)]; rfl
              · exact p2 q hq
            · intro q hq
              rcases List.mem_cons.1 hq with rfl | hq
              · exact hv
              · exact v2 q hq
    · simp only [hv] at h
      simp at h

theorem rewire_throws (inner : Position → Sheet → Res Unit) (this : Nat)
    (hinner : ∀ p s, p.IsValid = true → s.find p = none →
      inner p s = .timeout ∨ inner p s = .ok () (s.alloc p)) :
    ∀ (l : List Position) (s : Sheet) (e : Exception) (t : Sheet),
      rewire inner this l s = .throws e t → ∃ q ∈ l, q.IsValid = false := by
  intro l
  induction l with
  | nil =>
    intro s e t h
    simp [rewire] at h
  | cons pos rest ih =>
    intro s e t h
    unfold rewire at h
    by_cases hv : pos.IsValid = true
    · simp only [hv, if_true] at h
      have key : ∀ s1, rewire inner this rest s1 = .throws e t →
          ∃ q ∈ pos :: rest, q.IsValid = false := by
        intro s1 h1
        obtain ⟨q, hq, hq2⟩ := ih s1 e t h1
        exact ⟨q, List.mem_cons_of_mem _ hq, hq2⟩
      cases hf : s.find pos with
      | some ref =>
        simp only [hf] at h
        cases hl : s.link this ref with
        | none => simp [hl] at h
        | some s1 =>
          simp only [hl] at h
          exact key s1 h
      | none =>
        simp only [hf] at h
        rcases hinner pos s hv hf with hi | hi
        · rw [hi] at h; cases h
        · rw [hi] at h
          simp only [find_alloc_self s pos hf] at h
          cases hl : (s.alloc pos).link this s.brk with
          | none => simp [hl] at h
          | some s2 =>
            simp only [hl] at h
            exact key s2 h
    · exact ⟨pos, List.mem_cons_self _ _, by simpa using hv⟩

/-! ## The check only succeeds on valid references -/

theorem collectReferenced_some (s : Sheet) :
    ∀ (l : List Position) (acc r : List Nat), collectReferenced s l acc = some r →
      (∀ q ∈ l, q.IsValid = true) ∧
      ∀ b, b ∈ r ↔ b ∈ acc ∨ ∃ q ∈ l, s.find q = some b := by
  intro l
  induction l with
  | nil =>
    intro acc r h
    simp only [collectReferenced, Option.some.injEq] at h
    subst h
    simp
  | cons pos rest ih =>
    intro acc r h
    unfold collectReferenced at h
    by_cases hv : pos.IsValid = true
    · simp only [hv, if_true] at h
      cases hf : s.find pos with
      | some a =>
        simp only [hf] at h
        obtain ⟨h1, h2⟩ := ih _ r h
        refine ⟨?_, ?_⟩
        · intro q hq
          rcases List.mem_cons.1 hq with rfl | hq
          · exact hv
          · exact h1 q hq
        · intro b
          rw [h2 b, mem_setInsert]
          constructor
          · rintro ((rfl | hb) | ⟨q, hq, hb⟩)
            · exact Or.inr ⟨pos, List.mem_cons_self _ _, hf⟩
            · exact Or.inl hb
            · exact Or.inr ⟨q, List.mem_cons_of_mem _ hq, hb⟩
          · rintro (hb | ⟨q, hq, hb⟩)
            · exact Or.inl (Or.inr hb)
            · rcases List.mem_cons.1 hq with rfl | hq
              · rw [hf] at hb
                simp only [Option.some.injEq] at hb
                exact Or.inl (Or.inl hb.symm)
              · exact Or.inr ⟨q, hq, hb⟩
      | none =>
        simp only [hf] at h
        obtain ⟨h1, h2⟩ := ih _ r h
        refine ⟨?_, ?_⟩
        · intro q hq
          rcases List.mem_cons.1 hq with rfl | hq
          · exact hv
          · exact h1 q hq
        · intro b
          rw [h2 b]
          constructor
          · rintro (hb | ⟨q, hq, hb⟩)
            · exact Or.inl hb
            · exact Or.inr ⟨q, List.mem_cons_of_mem _ hq, hb⟩
          · rintro (hb | ⟨q, hq, hb⟩)
            · exact Or.inl hb
            · rcases List.mem_cons.1 hq with rfl | hq
              · rw [hf] at hb; cases hb
              · exact Or.inr ⟨q, hq, hb⟩
    · simp only [hv] at h
      simp at h

theorem collectReferenced_of_valid (s : Sheet) :
    ∀ (l : List Position) (acc : List Nat), (∀ q ∈ l, q.IsValid = true) →
      ∃ r, collectReferenced s l acc = some r := by
  intro l
  induction l with
  | nil => intro acc _; exact ⟨acc, rfl⟩
  | cons pos rest ih =>
    intro acc h
    unfold collectReferenced
    simp only [h pos (List.mem_cons_self _ _), if_true]
    have hr : ∀ q ∈ rest, q.IsValid = true := fun q hq => h q (List.mem_cons_of_mem _ hq)
    cases s.find pos with
    | some a => exact ih _ hr
    | none => exact ih _ hr

theorem searchLoop_not_throws (s : Sheet) (referenced : List Nat) :
    ∀ (fuel : Nat) (st vis : List Nat) (e : Exception),
      searchLoop s referenced fuel st vis ≠ .throws e := by
  intro fuel
  induction fuel with
  | zero => intro st vis e h; simp [searchLoop] at h
  | succ fuel ih =>
    intro st vis e h
    cases st with
    | nil => simp [searchLoop] at h
    | cons cur rest =>
      unfold searchLoop at h
      by_cases hc : cur ∈ referenced
      · simp [hc] at h
      · simp only [hc, if_false] at h
        cases hh : s.heap cur with
        | none => simp [hh] at h
        | some c =>
          simp only [hh] at h
          exact ih _ _ e h

theorem check_ok_valid (s : Sheet) (fuel this : Nat) (impl : Impl) (b : Bool)
    (h : Cell.HasCircularDependency s fuel this impl = .ok b) :
    ∀ q ∈ impl.GetReferencedCells, q.IsValid = true := by
  unfold Cell.HasCircularDependency at h
  by_cases he : impl.GetReferencedCells = []
  · rw [he]; simp
  · simp only [he, if_false] at h
    cases hc : collectReferenced s impl.GetReferencedCells [] with
    | none => simp [hc] at h
    | some r => exact (collectReferenced_some s _ _ r hc).1

theorem check_throws (s : Sheet) (fuel this : Nat) (impl : Impl) (e : Exception)
    (h : Cell.HasCircularDependency s fuel this impl = .throws e) :
    e = .InvalidPositionException ∧ ∃ q ∈ impl.GetReferencedCells, q.IsValid = false := by
  unfold Cell.HasCircularDependency at h
  by_cases he : impl.GetReferencedCells = []
  · simp [he] at h
  · simp only [he, if_false] at h
    cases hc : collectReferenced s impl.GetReferencedCells [] with
    | none =>
      simp only [hc, Query.throws.injEq] at h
      refine ⟨h.symm, ?_⟩
      by_contra hcon
      push_neg at hcon
      have hv : ∀ q ∈ impl.GetReferencedCells, q.IsValid = true := by
        intro q hq
        have := hcon q hq
        simpa using this
      obtain ⟨r, hr⟩ := collectReferenced_of_valid s _ [] hv
      rw [hr] at hc
      cases hc
    | some r =>
      simp only [hc] at h
      exact absurd h (searchLoop_not_throws s r fuel _ _ e)

end Spreadsheet


namespace Spreadsheet

/-! ## Taking Cell::Set and Sheet::SetCell apart -/

theorem Set_ok (parse : String → Option FormulaInterface) (inner : Position → Sheet → Res Unit)
    (fuel this : Nat) (text : String) (s : Sheet) (u : Unit) (t : Sheet)
    (h : Cell.Set parse inner fuel this text s = .ok u t) :
    ∃ impl c s1 s2, Impl.build parse text = some impl ∧
      Cell.HasCircularDependency s fuel this impl = .ok false ∧
      s.heap this = some c ∧
      eraseDependent this c.referenced_cells_ (s.setImpl this impl) = some s1 ∧
      rewire inner this impl.GetReferencedCells (s1.clearReferenced this) = .ok () s2 ∧
      Cell.InvalidateAllCache fuel this true s2 = .ok u t := by
  unfold Cell.Set at h
  cases hb : Impl.build parse text with
  | none => simp [hb] at h
  | some impl =>
    simp only [hb] at h
    cases hc : Cell.HasCircularDependency s fuel this impl with
    | throws e => simp [hc] at h
    | dangling => simp [hc] at h
    | timeout => simp [hc] at h
    | ok b =>
      cases b with
      | true => simp [hc] at h
      | false =>
        simp only [hc] at h
        cases hh : s.heap this with
        | none => simp [hh] at h
        | some c =>
          simp only [hh] at h
          cases he : eraseDependent this c.referenced_cells_ (s.setImpl this impl) with
          | none => simp [he] at h
          | some s1 =>
            simp only [he] at h
            cases hr : rewire inner this impl.GetReferencedCells (s1.clearReferenced this) with
            | ok u2 s2 =>
              simp only [hr] at h
              exact ⟨impl, c, s1, s2, rfl, hc, rfl, he, hr, h⟩
            | throws e s2 => simp [hr] at h
            | dangling => simp [hr] at h
            | timeout => simp [hr] at h

theorem Set_throws (parse : String → Option FormulaInterface) (inner : Position → Sheet → Res Unit)
    (hinner : ∀ p s, p.IsValid = true → s.find p = none →
      inner p s = .timeout ∨ inner p s = .ok () (s.alloc p))
    (fuel this : Nat) (text : String) (s : Sheet) (e : Exception) (t : Sheet)
    (h : Cell.Set parse inner fuel this text s = .throws e t) :
    t = s ∧
    ((e = .FormulaException ∧ Impl.build parse text = none) ∨
     (e = .InvalidPositionException ∧ ∃ impl, Impl.build parse text = some impl ∧
        ∃ q ∈ impl.GetReferencedCells, q.IsValid = false) ∨
     (e = .CircularDependencyException ∧ ∃ impl, Impl.build parse text = some impl ∧
        Cell.HasCircularDependency s fuel this impl = .ok true)) := by
  unfold Cell.Set at h
  cases hb : Impl.build parse text with
  | none =>
    simp only [hb, Res.throws.injEq] at h
    exact ⟨h.2.symm, Or.inl ⟨h.1.symm, rfl⟩⟩
  | some impl =>
    simp only [hb] at h
    cases hc : Cell.HasCircularDependency s fuel this impl with
    | throws e1 =>
      simp only [hc, Res.throws.injEq] at h
      obtain ⟨h1, h2⟩ := check_throws s fuel this impl e1 hc
      refine ⟨h.2.symm, Or.inr (Or.inl ⟨?_, impl, rfl, h2⟩)⟩
      rw [← h.1, h1]
    | dangling => simp [hc] at h
    | timeout => simp [hc] at h
    | ok b =>
      cases b with
      | true =>
        simp only [hc, Res.throws.injEq] at h
        exact ⟨h.2.symm, Or.inr (Or.inr ⟨h.1.symm, impl, rfl, hc⟩)⟩
      | false =>
        exfalso
        simp only [hc] at h
        cases hh : s.heap this with
        | none => simp [hh] at h
        | some c =>
          simp only [hh] at h
          cases he : eraseDependent this c.referenced_cells_ (s.setImpl this impl) with
          | none => simp [he] at h
          | some s1 =>
            simp only [he] at h
            cases hr : rewire inner this impl.GetReferencedCells (s1.clearReferenced this) with
            | ok u2 s2 =>
              simp only [hr] at h
              exact InvalidateAllCache_not_throws _ _ _ _ _ _ h
            | throws e2 s2 =>
              obtain ⟨q, hq, hq2⟩ := rewire_throws inner this hinner _ _ e2 s2 hr
              have := check_ok_valid s fuel this impl false hc q hq
              rw [this] at hq2
              cases hq2
            | dangling => simp [hr] at h
            | timeout => simp [hr] at h

theorem ensure_find (s : Sheet) (pos : Position) : ∃ a, (s.ensure pos).find pos = some a := by
  unfold Sheet.ensure
  cases h : s.find pos with
  | some a => exact ⟨a, by simpa using h⟩
  | none => exact ⟨s.brk, by simpa using find_alloc_self s pos h⟩

theorem ensure_of_some (s : Sheet) (pos : Position) (a : Nat) (h : s.find pos = some a) :
    s.ensure pos = s := by
  simp [Sheet.ensure, h]

theorem ensure_of_none (s : Sheet) (pos : Position) (h : s.find pos = none) :
    s.ensure pos = s.alloc pos := by
  simp [Sheet.ensure, h]

theorem ensure_wf (s : Sheet) (pos : Position) (w : s.WF) (hv : pos.IsValid = true) :
    (s.ensure pos).WF := by
  cases h : s.find pos with
  | some a => rw [ensure_of_some s pos a h]; exact w
  | none => rw [ensure_of_none s pos h]; exact alloc_wf s pos w hv h

theorem ensure_extends (s : Sheet) (pos : Position) (w : s.WF) (hv : pos.IsValid = true) :
    Extends s (s.ensure pos) := by
  cases h : s.find pos with
  | some a => rw [ensure_of_some s pos a h]; exact extends_refl s w
  | none => rw [ensure_of_none s pos h]; exact extends_alloc s w pos hv h

theorem SetCell_succ (parse : String → Option FormulaInterface) (fuel : Nat) (pos : Position)
    (text : String) (s : Sheet) (hv : pos.IsValid = true) :
    ∃ this, (s.ensure pos).find pos = some this ∧
      Sheet.SetCell parse (fuel + 1) pos text s =
        Cell.Set parse (fun p s1 => Sheet.SetCell parse fuel p "" s1) fuel this text
          (s.ensure pos) := by
  obtain ⟨a, ha⟩ := ensure_find s pos
  refine ⟨a, ha, ?_⟩
  rw [Sheet.SetCell]
  simp only [hv, if_true, ha]

theorem SetCell_invalid (parse : String → Option FormulaInterface) (fuel : Nat) (pos : Position)
    (text : String) (s : Sheet) (hv : pos.IsValid = false) :
    Sheet.SetCell parse (fuel + 1) pos text s = .throws .InvalidPositionException s := by
  rw [Sheet.SetCell]
  simp [hv]

theorem SetCell_throws (parse : String → Option FormulaInterface) (fuel : Nat) (pos : Position)
    (text : String) (s : Sheet) (e : Exception) (t : Sheet)
    (h : Sheet.SetCell parse fuel pos text s = .throws e t) :
    (pos.IsValid = false ∧ e = .InvalidPositionException ∧ t = s) ∨
    (pos.IsValid = true ∧ t = s.ensure pos ∧
      ((e = .FormulaException ∧ Impl.build parse text = none) ∨
       (e = .InvalidPositionException ∧ ∃ impl, Impl.build parse text = some impl ∧
          ∃ q ∈ impl.GetReferencedCells, q.IsValid = false) ∨
       (e = .CircularDependencyException ∧ ∃ impl this, Impl.build parse text = some impl ∧
          (s.ensure pos).find pos = some this ∧ 0 < fuel ∧
          Cell.HasCircularDependency (s.ensure pos) (fuel - 1) this impl = .ok true))) := by
  cases fuel with
  | zero => simp [Sheet.SetCell] at h
  | succ fuel =>
    by_cases hv : pos.IsValid = true
    · right
      obtain ⟨this, hthis, heq⟩ := SetCell_succ parse fuel pos text s hv
      rw [heq] at h
      obtain ⟨h1, h2⟩ := Set_throws parse _
        (fun p s1 hp hs => SetCell_empty_absent_cases parse fuel p s1 hp hs) fuel this text _ e t h
      refine ⟨hv, h1, ?_⟩
      rcases h2 with h2 | h2 | ⟨h2, impl, h3, h4⟩
      · exact Or.inl h2
      · exact Or.inr (Or.inl h2)
      · exact Or.inr (Or.inr ⟨h2, impl, this, h3, hthis, Nat.succ_pos _, by simpa using h4⟩)
    · left
      have hv2 : pos.IsValid = false := by simpa using hv
      rw [SetCell_invalid parse fuel pos text s hv2] at h
      simp only [Res.throws.injEq] at h
      exact ⟨hv2, h.1.symm, h.2.symm⟩

/-! ## Ownership is kept by every call -/

theorem setImpl_wf (s : Sheet) (w : s.WF) (a : Nat) (i : Impl) : (s.setImpl a i).WF := by
  apply wf_of_shape s _ (by simp) (by simp) _ w
  intro x
  rw [setImpl_heap]
  by_cases hx : x = a
  · subst hx
    cases s.heap x <;> simp
  · simp [hx]

theorem Set_ok_wf (parse : String → Option FormulaInterface) (inner : Position → Sheet → Res Unit)
    (hinner : ∀ p s, p.IsValid = true → s.find p = none →
      inner p s = .timeout ∨ inner p s = .ok () (s.alloc p))
    (fuel this : Nat) (text : String) (s : Sheet) (u : Unit) (t : Sheet) (w : s.WF)
    (h : Cell.Set parse inner fuel this text s = .ok u t) : t.WF := by
  obtain ⟨impl, c, s1, s2, _, _, _, he, hr, hi⟩ := Set_ok parse inner fuel this text s u t h
  have w0 := setImpl_wf s w this impl
  have w1 := (extends_eraseDependent _ s1 w0 this _ he).wf
  have w2 := (extends_clearReferenced s1 w1 this).wf
  have w3 := (rewire_extends inner this hinner _ _ () s2 w2 hr).1.wf
  exact (InvalidateAllCache_ok fuel this true s2 u t hi).wf w3

theorem SetCell_state_wf (parse : String → Option FormulaInterface) (fuel : Nat) (pos : Position)
    (text : String) (s t : Sheet) (w : s.WF)
    (h : (Sheet.SetCell parse fuel pos text s).state? = some t) : t.WF := by
  cases hr : Sheet.SetCell parse fuel pos text s with
  | ok u t1 =>
    rw [hr] at h
    simp only [Res.state?, Option.some.injEq] at h
    subst h
    cases fuel with
    | zero => simp [Sheet.SetCell] at hr
    | succ fuel =>
      by_cases hv : pos.IsValid = true
      · obtain ⟨this, _, heq⟩ := SetCell_succ parse fuel pos text s hv
        rw [heq] at hr
        exact Set_ok_wf parse _
          (fun p s1 hp hs => SetCell_empty_absent_cases parse fuel p s1 hp hs)
          fuel this text _ u _ (ensure_wf s pos w hv) hr
      · have hv2 : pos.IsValid = false := by simpa using hv
        rw [SetCell_invalid parse fuel pos text s hv2] at hr
        cases hr
  | throws e t1 =>
    rw [hr] at h
    simp only [Res.state?, Option.some.injEq] at h
    subst h
    rcases SetCell_throws parse fuel pos text s e _ hr with ⟨_, _, h3⟩ | ⟨hv, h3, _⟩
    · rw [h3]; exact w
    · rw [h3]; exact ensure_wf s pos w hv
  | dangling => rw [hr] at h; simp [Res.state?] at h
  | timeout => rw [hr] at h; simp [Res.state?] at h

theorem ClearCell_wf (s t : Sheet) (pos : Position) (w : s.WF)
    (h : (s.ClearCell pos).state? = some t) : t.WF := by
  unfold Sheet.ClearCell at h
  by_cases hv : pos.IsValid = true
  · simp only [hv, if_true] at h
    cases hf : s.find pos with
    | none =>
      simp only [hf, Res.state?, Option.some.injEq] at h
      subst h; exact w
    | some a =>
      simp only [hf, Res.state?, Option.some.injEq] at h
      subst h
      have hmem : ∀ q x, (q, x) ∈ s.cells_ → (q ≠ pos ↔ x ≠ a) := by
        intro q x hm
        have hfa := find_some_mem s pos a hf
        constructor
        · intro hq hx
          subst hx
          have := List.inj_on_of_nodup_map w.addrs_nodup hm hfa rfl
          exact hq (congrArg Prod.fst this)
        · intro hx hq
          subst hq
          have := List.inj_on_of_nodup_map w.keys_nodup hm hfa rfl
          exact hx (congrArg Prod.snd this)
      refine ⟨?_, ?_, ?_, ?_, ?_⟩
      · exact (w.keys_nodup.sublist (List.Sublist.map _ (List.filter_sublist _)))
      · intro p hp
        obtain ⟨e, he, rfl⟩ := List.mem_map.1 hp
        exact w.keys_valid _ (List.mem_map.2 ⟨e, (List.mem_filter.1 he).1, rfl⟩)
      · exact (w.addrs_nodup.sublist (List.Sublist.map _ (List.filter_sublist _)))
      · intro x hx
        obtain ⟨e, he, rfl⟩ := List.mem_map.1 hx
        exact w.addrs_lt _ (List.mem_map.2 ⟨e, (List.mem_filter.1 he).1, rfl⟩)
      · intro x
        simp only [Sheet.addrs, List.mem_map, List.mem_filter, decide_eq_true_eq]
        by_cases hx : x = a
        · subst hx
          simp only [if_true, Option.isSome_none, Bool.false_eq_true, false_iff]
          rintro ⟨⟨q, y⟩, ⟨hm, hq⟩, rfl⟩
          exact ((hmem q y hm).1 hq) rfl
        · simp only [hx, if_false]
          rw [w.live_iff x]
          constructor
          · intro hxa
            obtain ⟨⟨q, y⟩, hm, rfl⟩ := List.mem_map.1 hxa
            exact ⟨(q, y), ⟨hm, (hmem q y hm).2 hx⟩, rfl⟩
          · rintro ⟨⟨q, y⟩, ⟨hm, _⟩, rfl⟩
            exact List.mem_map.2 ⟨(q, y), hm, rfl⟩
  · simp only [hv] at h
    simp only [Bool.false_eq_true, if_false, Res.state?, Option.some.injEq] at h
    subst h; exact w

theorem run_wf (parse : String → Option FormulaInterface) (fuel : Nat) (op : Op) (s t : Sheet)
    (w : s.WF) (h : op.run parse fuel s = some t) : t.WF := by
  cases op with
  | SetCell pos text => exact SetCell_state_wf parse fuel pos text s t w h
  | ClearCell pos => exact ClearCell_wf s t pos w h
  | GetValue pos => exact (GetValue_state fuel pos s t h).wf w

theorem reach_wf {parse : String → Option FormulaInterface} {allow : Op → Prop} {s : Sheet}
    (h : Reach parse allow s) : s.WF := by
  induction h with
  | init => exact empty_wf
  | step s t fuel op _ _ hrun ih => exact run_wf parse fuel op s t ih hrun

theorem reach_mono {parse : String → Option FormulaInterface} {allow allow2 : Op → Prop}
    (hsub : ∀ op, allow op → allow2 op) {s : Sheet} (h : Reach parse allow s) :
    Reach parse allow2 s := by
  induction h with
  | init => exact Reach.init
  | step s t fuel op _ ha hrun ih => exact Reach.step s t fuel op ih (hsub op ha) hrun

end Spreadsheet


namespace Spreadsheet

/-! ## Relations: adding edges into one node -/

theorem reach_of_added_into {α : Type} (E E' : α → α → Prop) (x : α)
    (h : ∀ a b, E' a b → E a b ∨ b = x) :
    ∀ y, Relation.ReflTransGen E' x y → Relation.ReflTransGen E x y := by
  intro y hy
  induction hy with
  | refl => exact Relation.ReflTransGen.refl
  | tail _ hbc ih =>
    rcases h _ _ hbc with h1 | h1
    · exact Relation.ReflTransGen.tail ih h1
    · rw [h1]

theorem transGen_added_into {α : Type} (E E' : α → α → Prop) (x : α) (P : α → Prop)
    (h : ∀ a b, E' a b → E a b ∨ (b = x ∧ P a)) :
    ∀ a b, Relation.TransGen E' a b →
      Relation.TransGen E a b ∨
        ∃ u, P u ∧ Relation.ReflTransGen E' a u ∧ Relation.ReflTransGen E' x b := by
  intro a b hab
  induction hab with
  | single hab =>
    rcases h _ _ hab with h1 | ⟨h1, h2⟩
    · exact Or.inl (Relation.TransGen.single h1)
    · right
      refine ⟨a, h2, Relation.ReflTransGen.refl, ?_⟩
      rw [h1]
  | tail hac hcb ih =>
    rename_i c b
    rcases ih with ih | ⟨u, hu, h1, h2⟩
    · rcases h _ _ hcb with h1 | ⟨h1, h2⟩
      · exact Or.inl (Relation.TransGen.tail ih h1)
      · right
        refine ⟨c, h2, hac.to_reflTransGen, ?_⟩
        rw [h1]
    · right
      exact ⟨u, hu, h1, Relation.ReflTransGen.tail h2 hcb⟩

theorem acyclic_of_added_into {α : Type} (E E' : α → α → Prop) (x : α) (P : α → Prop)
    (h : ∀ a b, E' a b → E a b ∨ (b = x ∧ P a))
    (hac : ∀ a, ¬ Relation.TransGen E a a)
    (hP : ∀ a, P a → ¬ Relation.ReflTransGen E x a) :
    ∀ a, ¬ Relation.TransGen E' a a := by
  intro a haa
  rcases transGen_added_into E E' x P h a a haa with h1 | ⟨u, hu, h1, h2⟩
  · exact hac a h1
  · have h3 : Relation.ReflTransGen E' x u := h2.trans h1
    have h4 := reach_of_added_into E E' x
      (fun a b hab => (h a b hab).imp id (fun h => h.1)) u h3
    exact hP u hu h4

open Classical in
theorem ancestors_card_lt {α : Type} (R : α → α → Prop) (nodes : Finset α)
    (hnodes : ∀ a b, R a b → a ∈ nodes) (hac : ∀ a, ¬ Relation.TransGen R a a) (a b : α)
    (h : R a b) :
    (nodes.filter (fun c => Relation.TransGen R c a)).card <
      (nodes.filter (fun c => Relation.TransGen R c b)).card := by
  have hsub : insert a (nodes.filter (fun c => Relation.TransGen R c a)) ⊆
      nodes.filter (fun c => Relation.TransGen R c b) := by
    intro c hc
    rw [Finset.mem_insert] at hc
    rw [Finset.mem_filter]
    rcases hc with rfl | hc
    · exact ⟨hnodes _ _ h, Relation.TransGen.single h⟩
    · rw [Finset.mem_filter] at hc
      exact ⟨hc.1, Relation.TransGen.tail hc.2 h⟩
  have hnot : a ∉ nodes.filter (fun c => Relation.TransGen R c a) := by
    intro ha
    rw [Finset.mem_filter] at ha
    exact hac a ha.2
  have := Finset.card_le_card hsub
  rw [Finset.card_insert_of_not_mem hnot] at this
  omega

/-! ## The search of HasCircularDependency -/

theorem pushUnvisited_eq (vis : List Nat) :
    ∀ (l st : List Nat),
      pushUnvisited vis l st = (l.filter (fun d => decide (d ∉ vis))).reverse ++ st := by
  intro l
  induction l with
  | nil => intro st; rfl
  | cons d rest ih =>
    intro st
    unfold pushUnvisited
    by_cases hd : d ∈ vis
    · simp only [hd, if_true]
      rw [ih]
      simp [List.filter_cons, hd]
    · simp only [hd, if_false]
      rw [ih]
      simp [List.filter_cons, hd]

theorem mem_pushUnvisited (vis l st : List Nat) (x : Nat) :
    x ∈ pushUnvisited vis l st ↔ (x ∈ l ∧ x ∉ vis) ∨ x ∈ st := by
  rw [pushUnvisited_eq]
  simp [List.mem_filter]

theorem length_pushUnvisited_le (vis l st : List Nat) :
    (pushUnvisited vis l st).length ≤ l.length + st.length := by
  rw [pushUnvisited_eq]
  simp only [List.length_append, List.length_reverse]
  have := List.length_filter_le (fun d => decide (d ∉ vis)) l
  omega

theorem pushUnvisited_all_visited (vis l st : List Nat) (h : ∀ d ∈ l, d ∈ vis) :
    pushUnvisited vis l st = st := by
  rw [pushUnvisited_eq]
  have : l.filter (fun d => decide (d ∉ vis)) = [] := by
    apply List.filter_eq_nil_iff.2
    intro d hd
    simp [h d hd]
  rw [this]
  rfl

theorem setInsert_of_mem (a : Nat) (l : List Nat) (h : a ∈ l) : setInsert a l = l := by
  simp [setInsert, h]

theorem setInsert_of_not_mem (a : Nat) (l : List Nat) (h : a ∉ l) : setInsert a l = a :: l := by
  simp [setInsert, h]

theorem potential_visit_aux (f : Nat → Nat) (vis : List Nat) (cur : Nat) (hcur : cur ∉ vis) :
    ∀ (l : List Nat), l.Nodup → cur ∈ l →
      ((l.filter (fun a => decide (a ∉ cur :: vis))).map f).sum + f cur =
        ((l.filter (fun a => decide (a ∉ vis))).map f).sum := by
  intro l
  induction l with
  | nil => intro _ h; cases h
  | cons a rest ih =>
    intro hnd hmem
    have hnd' := List.nodup_cons.1 hnd
    by_cases hac : a = cur
    · subst hac
      have hrest : rest.filter (fun x => decide (x ∉ a :: vis)) =
          rest.filter (fun x => decide (x ∉ vis)) := by
        apply List.filter_congr
        intro x hx
        have : x ≠ a := fun h => hnd'.1 (h ▸ hx)
        simp [this]
      have h1 : decide (a ∉ a :: vis) = false := by simp
      have h2 : decide (a ∉ vis) = true := by simp [hcur]
      simp only [List.filter_cons, h1, h2, if_true, Bool.false_eq_true, if_false, hrest,
        List.map_cons, List.sum_cons]
      omega
    · have hmem' : cur ∈ rest := by
        rcases List.mem_cons.1 hmem with h | h
        · exact absurd h.symm hac
        · exact h
      have := ih hnd'.2 hmem'
      by_cases hav : a ∈ vis
      · have h1 : decide (a ∉ cur :: vis) = false := by simp [hav]
        have h2 : decide (a ∉ vis) = false := by simp [hav]
        simp only [List.filter_cons, h1, h2, Bool.false_eq_true, if_false]
        exact this
      · have h1 : decide (a ∉ cur :: vis) = true := by simp [hav, hac]
        have h2 : decide (a ∉ vis) = true := by simp [hav]
        simp only [List.filter_cons, h1, h2, if_true, List.map_cons, List.sum_cons]
        omega

theorem potential_visit (s : Sheet) (w : s.WF) (vis : List Nat) (cur : Nat) (hcur : cur ∉ vis)
    (hlive : (s.heap cur).isSome = true) :
    searchPotential s (cur :: vis) + (s.deps cur).length = searchPotential s vis := by
  unfold searchPotential
  exact potential_visit_aux (fun a => (s.deps a).length) vis cur hcur s.addrs w.addrs_nodup
    ((w.live_iff cur).1 hlive)

theorem stackOrdered_step (s : Sheet) (vis vis' : List Nat) :
    ∀ (st above above' : List Nat),
      (∀ x ∈ st, x ∈ vis' → x ∈ vis ∨ ∀ d ∈ s.deps x, d ∈ vis' ∨ d ∈ above') →
      (∀ d, d ∈ vis ∨ d ∈ above → d ∈ vis' ∨ d ∈ above') →
      stackOrdered s vis above st → stackOrdered s vis' above' st := by
  intro st
  induction st with
  | nil => intro _ _ _ _ _; trivial
  | cons x below ih =>
    intro above above' h1 h2 h3
    obtain ⟨h3a, h3b⟩ := h3
    refine ⟨?_, ?_⟩
    · intro hx d hd
      rcases h1 x (List.mem_cons_self _ _) hx with h | h
      · exact h2 d (h3a h d hd)
      · exact h d hd
    · apply ih (x :: above) (x :: above') _ _ h3b
      · intro y hy hy'
        rcases h1 y (List.mem_cons_of_mem _ hy) hy' with h | h
        · exact Or.inl h
        · right
          intro d hd
          rcases h d hd with h | h
          · exact Or.inl h
          · exact Or.inr (List.mem_cons_of_mem _ h)
      · intro d hd
        rcases hd with hd | hd
        · rcases h2 d (Or.inl hd) with h | h
          · exact Or.inl h
          · exact Or.inr (List.mem_cons_of_mem _ h)
        · rcases List.mem_cons.1 hd with rfl | hd
          · exact Or.inr (List.mem_cons_self _ _)
          · rcases h2 d (Or.inr hd) with h | h
            · exact Or.inl h
            · exact Or.inr (List.mem_cons_of_mem _ h)

theorem stackOrdered_append (s : Sheet) (vis : List Nat) :
    ∀ (pushed above st : List Nat), (∀ x ∈ pushed, x ∉ vis) →
      stackOrdered s vis (pushed.reverse ++ above) st →
      stackOrdered s vis above (pushed ++ st) := by
  intro pushed
  induction pushed with
  | nil => intro above st _ h; simpa using h
  | cons x rest ih =>
    intro above st hp h
    refine ⟨fun hx => absurd hx (hp x (List.mem_cons_self _ _)), ?_⟩
    apply ih (x :: above) st (fun y hy => hp y (List.mem_cons_of_mem _ hy))
    simpa using h

end Spreadsheet


namespace Spreadsheet

theorem deps_of_heap (s : Sheet) (a : Nat) (c : Cell) (h : s.heap a = some c) :
    s.deps a = c.dependent_cells_ := by
  simp [Sheet.deps, h]

theorem refd_of_heap (s : Sheet) (a : Nat) (c : Cell) (h : s.heap a = some c) :
    s.refd a = c.referenced_cells_ := by
  simp [Sheet.refd, h]

theorem prefs_of_heap (s : Sheet) (a : Nat) (c : Cell) (h : s.heap a = some c) :
    s.prefs a = c.impl_.GetReferencedCells := by
  simp [Sheet.prefs, h]

theorem heap_of_isSome (s : Sheet) (a : Nat) (h : (s.heap a).isSome = true) :
    ∃ c, s.heap a = some c := by
  cases hc : s.heap a with
  | none => rw [hc] at h; cases h
  | some c => exact ⟨c, rfl⟩

theorem searchLoop_correct_aux (s : Sheet) (w : s.WF)
    (hl : ∀ a b, b ∈ s.deps a → (s.heap b).isSome = true) (referenced : List Nat) (this : Nat) :
    ∀ (fuel : Nat) (st vis : List Nat),
      (∀ x ∈ st, (s.heap x).isSome = true) →
      (∀ x, x ∈ st ∨ x ∈ vis → Relation.ReflTransGen (DepEdge s) this x) →
      (∀ v ∈ vis, v ∉ referenced) →
      (∀ v ∈ vis, ∀ d ∈ s.deps v, d ∈ vis ∨ d ∈ st) →
      (this ∈ vis ∨ this ∈ st) →
      stackOrdered s vis [] st →
      st.length + searchPotential s vis + 1 ≤ fuel →
      ∃ b, searchLoop s referenced fuel st vis = .ok b ∧
        (b = true ↔ ∃ r ∈ referenced, Relation.ReflTransGen (DepEdge s) this r) := by
  intro fuel
  induction fuel with
  | zero => intro st vis _ _ _ _ _ _ hf; omega
  | succ fuel ih =>
    intro st vis i5 i1 i2 i3 i4 i6 hf
    cases st with
    | nil =>
      refine ⟨false, by simp [searchLoop], ?_⟩
      simp only [Bool.false_eq_true, false_iff, not_exists, not_and]
      intro r hr hreach
      have hclosed : ∀ y, Relation.ReflTransGen (DepEdge s) this y → y ∈ vis := by
        intro y hy
        induction hy with
        | refl =>
          rcases i4 with h | h
          · exact h
          · cases h
        | tail _ hbc ihy =>
          rcases i3 _ ihy _ hbc with h | h
          · exact h
          · cases h
      exact i2 r (hclosed r hreach) hr
    | cons cur rest =>
      unfold searchLoop
      by_cases hc : cur ∈ referenced
      · refine ⟨true, by simp [hc], ?_⟩
        simp only [true_iff]
        exact ⟨cur, hc, i1 cur (Or.inl (List.mem_cons_self _ _))⟩
      · simp only [hc, if_false]
        obtain ⟨c, hcell⟩ := heap_of_isSome s cur (i5 cur (List.mem_cons_self _ _))
        simp only [hcell]
        have hdeps := deps_of_heap s cur c hcell
        rw [← hdeps]
        have hcur_reach := i1 cur (Or.inl (List.mem_cons_self _ _))
        have hvis' : ∀ x, x ∈ setInsert cur vis ↔ x = cur ∨ x ∈ vis := fun x => mem_setInsert cur x vis
        apply ih
        · intro x hx
          rcases (mem_pushUnvisited _ _ _ x).1 hx with ⟨h, _⟩ | h
          · exact hl cur x h
          · exact i5 x (List.mem_cons_of_mem _ h)
        · intro x hx
          rcases hx with hx | hx
          · rcases (mem_pushUnvisited _ _ _ x).1 hx with ⟨h, _⟩ | h
            · exact Relation.ReflTransGen.tail hcur_reach h
            · exact i1 x (Or.inl (List.mem_cons_of_mem _ h))
          · rcases (hvis' x).1 hx with rfl | h
            · exact hcur_reach
            · exact i1 x (Or.inr h)
        · intro v hv
          rcases (hvis' v).1 hv with rfl | h
          · exact hc
          · exact i2 v h
        · intro v hv d hd
          rcases (hvis' v).1 hv with rfl | h
          · by_cases hdv : d ∈ setInsert v vis
            · exact Or.inl hdv
            · exact Or.inr ((mem_pushUnvisited _ _ _ d).2 (Or.inl ⟨hd, hdv⟩))
          · rcases i3 v h d hd with h1 | h1
            · exact Or.inl ((hvis' d).2 (Or.inr h1))
            · rcases List.mem_cons.1 h1 with rfl | h2
              · exact Or.inl ((hvis' d).2 (Or.inl rfl))
              · exact Or.inr ((mem_pushUnvisited _ _ _ d).2 (Or.inr h2))
        · rcases i4 with h | h
          · exact Or.inl ((hvis' this).2 (Or.inr h))
          · rcases List.mem_cons.1 h with rfl | h2
            · exact Or.inl ((hvis' this).2 (Or.inl rfl))
            · exact Or.inr ((mem_pushUnvisited _ _ _ this).2 (Or.inr h2))
        · rw [pushUnvisited_eq]
          apply stackOrdered_append
          · intro x hx
            have := (List.mem_reverse.1 hx)
            simpa using (List.mem_filter.1 this).2
          · apply stackOrdered_step s vis (setInsert cur vis) rest [cur] _ _ _ i6.2
            · intro x _ hx
              rcases (hvis' x).1 hx with rfl | h
              · right
                intro d hd
                by_cases hdv : d ∈ setInsert x vis
                · exact Or.inl hdv
                · right
                  simp only [List.reverse_reverse, List.append_nil]
                  exact List.mem_filter.2 ⟨hd, by simpa using hdv⟩
              · exact Or.inl h
            · intro d hd
              left
              rcases hd with hd | hd
              · exact (hvis' d).2 (Or.inr hd)
              · simp only [List.mem_singleton] at hd
                exact (hvis' d).2 (Or.inl hd)
        · simp only [List.length_cons] at hf
          by_cases hcv : cur ∈ vis
          · rw [setInsert_of_mem cur vis hcv]
            have hall : ∀ d ∈ s.deps cur, d ∈ vis := by
              intro d hd
              rcases i6.1 hcv d hd with h | h
              · exact h
              · cases h
            rw [pushUnvisited_all_visited vis _ rest hall]
            omega
          · rw [setInsert_of_not_mem cur vis hcv]
            have h1 := length_pushUnvisited_le (cur :: vis) (s.deps cur) rest
            have h2 := potential_visit s w vis cur hcv (i5 cur (List.mem_cons_self _ _))
            omega

theorem searchLoop_correct (s : Sheet) (w : s.WF)
    (hl : ∀ a b, b ∈ s.deps a → (s.heap b).isSome = true) (referenced : List Nat) (this : Nat)
    (hthis : (s.heap this).isSome = true) (fuel : Nat)
    (hf : searchPotential s [] + 2 ≤ fuel) :
    ∃ b, searchLoop s referenced fuel [this] [] = .ok b ∧
      (b = true ↔ ∃ r ∈ referenced, Relation.ReflTransGen (DepEdge s) this r) := by
  apply searchLoop_correct_aux s w hl referenced this fuel [this] []
  · intro x hx
    simp only [List.mem_singleton] at hx
    rw [hx]; exact hthis
  · intro x hx
    rcases hx with hx | hx
    · simp only [List.mem_singleton] at hx
      rw [hx]
    · cases hx
  · intro v hv; cases hv
  · intro v hv; cases hv
  · exact Or.inr (List.mem_singleton.2 rfl)
  · simp [stackOrdered]
  · simp only [List.length_singleton]
    omega

theorem check_correct (s : Sheet) (w : s.WF)
    (hl : ∀ a b, b ∈ s.deps a → (s.heap b).isSome = true) (this : Nat)
    (hthis : (s.heap this).isSome = true) (impl : Impl)
    (hvalid : ∀ q ∈ impl.GetReferencedCells, q.IsValid = true) (fuel : Nat)
    (hf : searchPotential s [] + 2 ≤ fuel) :
    ∃ b, Cell.HasCircularDependency s fuel this impl = .ok b ∧
      (b = true ↔ ∃ q ∈ impl.GetReferencedCells, ∃ r, s.find q = some r ∧
        Relation.ReflTransGen (DepEdge s) this r) := by
  unfold Cell.HasCircularDependency
  by_cases he : impl.GetReferencedCells = []
  · refine ⟨false, by simp [he], ?_⟩
    simp [he]
  · simp only [he, if_false]
    obtain ⟨r, hr⟩ := collectReferenced_of_valid s impl.GetReferencedCells [] hvalid
    simp only [hr]
    obtain ⟨b, hb, hiff⟩ := searchLoop_correct s w hl r this hthis fuel hf
    refine ⟨b, hb, ?_⟩
    rw [hiff]
    have hmem := (collectReferenced_some s _ _ r hr).2
    constructor
    · rintro ⟨x, hx, hreach⟩
      rcases (hmem x).1 hx with h | ⟨q, hq, hqx⟩
      · cases h
      · exact ⟨q, hq, x, hqx, hreach⟩
    · rintro ⟨q, hq, x, hqx, hreach⟩
      exact ⟨x, (hmem x).2 (Or.inr ⟨q, hq, hqx⟩), hreach⟩

theorem searchLoop_mono (s : Sheet) (referenced : List Nat) :
    ∀ (fuel fuel' : Nat) (st vis : List Nat) (b : Bool), fuel ≤ fuel' →
      searchLoop s referenced fuel st vis = .ok b →
      searchLoop s referenced fuel' st vis = .ok b := by
  intro fuel
  induction fuel with
  | zero => intro fuel' st vis b _ h; simp [searchLoop] at h
  | succ fuel ih =>
    intro fuel' st vis b hle h
    obtain ⟨n, rfl⟩ : ∃ n, fuel' = n + 1 := ⟨fuel' - 1, by omega⟩
    cases st with
    | nil =>
      simp only [searchLoop] at h ⊢
      exact h
    | cons cur rest =>
      unfold searchLoop at h ⊢
      by_cases hc : cur ∈ referenced
      · simp only [hc, if_true] at h ⊢
        exact h
      · simp only [hc, if_false] at h ⊢
        cases hh : s.heap cur with
        | none => simp [hh] at h
        | some c =>
          simp only [hh] at h ⊢
          exact ih n _ _ b (by omega) h

theorem check_sound (s : Sheet) (fuel this : Nat) (impl : Impl)
    (w : s.WF) (hl : ∀ a b, b ∈ s.deps a → (s.heap b).isSome = true)
    (hthis : (s.heap this).isSome = true)
    (h : Cell.HasCircularDependency s fuel this impl = .ok false) :
    ∀ q ∈ impl.GetReferencedCells, ∀ r, s.find q = some r →
      ¬ Relation.ReflTransGen (DepEdge s) this r := by
  intro q hq r hr hreach
  have hvalid := check_ok_valid s fuel this impl false h
  obtain ⟨b, hb, hiff⟩ := check_correct s w hl this hthis impl hvalid
    (max fuel (searchPotential s [] + 2)) (le_max_right _ _)
  have hb2 : Cell.HasCircularDependency s (max fuel (searchPotential s [] + 2)) this impl =
      .ok false := by
    unfold Cell.HasCircularDependency at h ⊢
    have hne : impl.GetReferencedCells ≠ [] := List.ne_nil_of_mem hq
    simp only [hne, if_false] at h ⊢
    cases hc : collectReferenced s impl.GetReferencedCells [] with
    | none => simp [hc] at h
    | some l =>
      simp only [hc] at h ⊢
      exact searchLoop_mono s l fuel _ _ _ false (le_max_left _ _) h
  rw [hb2] at hb
  simp only [Query.ok.injEq] at hb
  subst hb
  have := hiff.2 ⟨q, hq, r, hr, hreach⟩
  cases this

end Spreadsheet


namespace Spreadsheet

/-! ## How the steps of Cell::Set change the neighbour sets -/

theorem link_live (s t : Sheet) (this ref : Nat) (h : s.link this ref = some t) :
    (s.heap this).isSome = true ∧ (s.heap ref).isSome = true := by
  unfold Sheet.link at h
  cases hc : s.heap this with
  | none => simp [hc] at h
  | some c =>
    simp only [hc, store_heap] at h
    refine ⟨rfl, ?_⟩
    by_cases hrt : ref = this
    · rw [hrt, hc]; rfl
    · simp only [hrt, if_false] at h
      cases hr : s.heap ref with
      | none => simp [hr] at h
      | some r => rfl

theorem link_deps (s t : Sheet) (this ref : Nat) (h : s.link this ref = some t) (x d : Nat) :
    d ∈ t.deps x ↔ d ∈ s.deps x ∨ (x = ref ∧ d = this) := by
  obtain ⟨_, _, h3⟩ := link_spec s t this ref h
  obtain ⟨c, hc⟩ := heap_of_isSome s ref (link_live s t this ref h).2
  unfold Sheet.deps
  rw [h3 x]
  cases hx : s.heap x with
  | none =>
    simp only [Option.map_none', List.not_mem_nil, false_or, false_iff, not_and]
    intro hxr
    rw [hxr, hc] at hx
    cases hx
  | some cx =>
    simp only [Option.map_some']
    by_cases hxr : x = ref
    · simp only [hxr, if_true, mem_setInsert, true_and]
      tauto
    · simp [hxr]

theorem link_refd (s t : Sheet) (this ref : Nat) (h : s.link this ref = some t) (x d : Nat) :
    d ∈ t.refd x ↔ d ∈ s.refd x ∨ (x = this ∧ d = ref) := by
  obtain ⟨_, _, h3⟩ := link_spec s t this ref h
  obtain ⟨c, hc⟩ := heap_of_isSome s this (link_live s t this ref h).1
  unfold Sheet.refd
  rw [h3 x]
  cases hx : s.heap x with
  | none =>
    simp only [Option.map_none', List.not_mem_nil, false_or, false_iff, not_and]
    intro hxr
    rw [hxr, hc] at hx
    cases hx
  | some cx =>
    simp only [Option.map_some']
    by_cases hxr : x = this
    · simp only [hxr, if_true, mem_setInsert, true_and]
      tauto
    · simp [hxr]

theorem link_prefs (s t : Sheet) (this ref : Nat) (h : s.link this ref = some t) (x : Nat) :
    t.prefs x = s.prefs x := by
  obtain ⟨_, _, h3⟩ := link_spec s t this ref h
  unfold Sheet.prefs
  rw [h3 x]
  cases s.heap x <;> rfl

theorem link_isSome (s t : Sheet) (this ref : Nat) (h : s.link this ref = some t) (x : Nat) :
    (t.heap x).isSome = (s.heap x).isSome := by
  obtain ⟨_, _, h3⟩ := link_spec s t this ref h
  rw [h3 x]
  cases s.heap x <;> rfl

theorem link_find (s t : Sheet) (this ref : Nat) (h : s.link this ref = some t) (q : Position) :
    t.find q = s.find q :=
  find_congr s t (link_spec s t this ref h).1 q

theorem alloc_deps (s : Sheet) (w : s.WF) (p : Position) (x : Nat) :
    (s.alloc p).deps x = s.deps x := by
  unfold Sheet.deps
  rw [alloc_heap]
  by_cases hx : x = s.brk
  · subst hx
    simp [wf_heap_brk s w]
  · simp [hx]

theorem alloc_refd (s : Sheet) (w : s.WF) (p : Position) (x : Nat) :
    (s.alloc p).refd x = s.refd x := by
  unfold Sheet.refd
  rw [alloc_heap]
  by_cases hx : x = s.brk
  · subst hx
    simp [wf_heap_brk s w]
  · simp [hx]

theorem alloc_prefs (s : Sheet) (w : s.WF) (p : Position) (x : Nat) :
    (s.alloc p).prefs x = s.prefs x := by
  unfold Sheet.prefs
  rw [alloc_heap]
  by_cases hx : x = s.brk
  · subst hx
    simp [wf_heap_brk s w, Impl.GetReferencedCells]
  · simp [hx]

theorem alloc_depEdge (s : Sheet) (w : s.WF) (p : Position) : DepEdge (s.alloc p) = DepEdge s := by
  funext a b
  unfold DepEdge
  rw [alloc_deps s w]

theorem alloc_isSome_of_isSome (s : Sheet) (p : Position) (x : Nat)
    (h : (s.heap x).isSome = true) : ((s.alloc p).heap x).isSome = true := by
  rw [alloc_heap]
  by_cases hx : x = s.brk
  · simp [hx]
  · simp [hx, h]

theorem find_alloc_cases (s : Sheet) (p q : Position) (r : Nat) (hp : s.find p = none)
    (h : (s.alloc p).find q = some r) : s.find q = some r ∨ (q = p ∧ r = s.brk) := by
  by_cases hqp : q = p
  · subst hqp
    rw [find_alloc_self s q hp] at h
    simp only [Option.some.injEq] at h
    exact Or.inr ⟨rfl, h.symm⟩
  · rw [find_alloc_of_ne s p q hqp] at h
    exact Or.inl h

theorem find_alloc_of_isSome (s : Sheet) (p q : Position) (h : (s.find q).isSome = true) :
    (s.alloc p).find q = s.find q := by
  cases hq : s.find q with
  | none => rw [hq] at h; cases h
  | some a => exact find_alloc_of_some s p q a hq

/-! ## The invariant through the rewiring loop -/

theorem pinv_alloc (s : Sheet) (this : Nat) (R done : List Position) (i : s.PInv this R done)
    (pos : Position) (hv : pos.IsValid = true) (hp : s.find pos = none) :
    (s.alloc pos).PInv this R done := by
  have w := i.wf
  have hex : ∀ (l : List Position), (∀ q ∈ l, (s.find q).isSome = true) → ∀ b,
      (∃ q ∈ l, (s.alloc pos).find q = some b) ↔ ∃ q ∈ l, s.find q = some b := by
    intro l hl b
    constructor
    · rintro ⟨q, hq, hb⟩
      rw [find_alloc_of_isSome s pos q (hl q hq)] at hb
      exact ⟨q, hq, hb⟩
    · rintro ⟨q, hq, hb⟩
      exact ⟨q, hq, find_alloc_of_some s pos q b hb⟩
  refine ⟨alloc_wf s pos w hv hp, alloc_isSome_of_isSome s pos this i.this_live, ?_, ?_, ?_, ?_,
    ?_, ?_, ?_, ?_, ?_⟩
  · rw [alloc_prefs s w]; exact i.prefs_this
  · intro a b hb
    rw [alloc_deps s w] at hb
    exact alloc_isSome_of_isSome s pos b (i.deps_live a b hb)
  · intro a b
    rw [alloc_refd s w, alloc_deps s w]
    exact i.symm a b
  · intro a b ha
    rw [alloc_refd s w, alloc_prefs s w, hex _ (i.prefs_present a ha)]
    exact i.refd_iff a b ha
  · intro b
    rw [alloc_refd s w, hex _ i.done_present]
    exact i.refd_this b
  · intro a ha q hq
    rw [alloc_prefs s w] at hq
    rw [find_alloc_of_isSome s pos q (i.prefs_present a ha q hq)]
    exact i.prefs_present a ha q hq
  · intro q hq
    rw [find_alloc_of_isSome s pos q (i.done_present q hq)]
    exact i.done_present q hq
  · intro a
    rw [alloc_depEdge s w]
    exact i.acyclic a
  · intro q hq r hr
    rw [alloc_depEdge s w]
    rcases find_alloc_cases s pos q r hp hr with h | ⟨_, rfl⟩
    · exact i.no_reach q hq r h
    · intro hreach
      have hb := wf_heap_brk s w
      rcases Relation.ReflTransGen.cases_tail hreach with h | ⟨a, _, h⟩
      · have := i.this_live
        rw [← h, hb] at this
        cases this
      · have := i.deps_live a _ h
        rw [hb] at this
        cases this

theorem pinv_link (s t : Sheet) (this ref : Nat) (R done : List Position)
    (i : s.PInv this R done) (pos : Position) (hpos : pos ∈ R) (hf : s.find pos = some ref)
    (h : s.link this ref = some t) : t.PInv this R (pos :: done) := by
  have hfind := link_find s t this ref h
  have hE : ∀ a b, DepEdge t a b → DepEdge s a b ∨ (b = this ∧ a = ref) := by
    intro a b hab
    unfold DepEdge at hab ⊢
    rcases (link_deps s t this ref h a b).1 hab with h1 | ⟨h1, h2⟩
    · exact Or.inl h1
    · exact Or.inr ⟨h2, h1⟩
  have hnr : ¬ Relation.ReflTransGen (DepEdge s) this ref := i.no_reach pos hpos ref hf
  refine ⟨(extends_link s t i.wf this ref h).wf, ?_, ?_, ?_, ?_, ?_, ?_, ?_, ?_, ?_, ?_⟩
  · rw [link_isSome s t this ref h]; exact i.this_live
  · rw [link_prefs s t this ref h]; exact i.prefs_this
  · intro a b hb
    rw [link_isSome s t this ref h]
    rcases (link_deps s t this ref h a b).1 hb with h1 | ⟨_, h2⟩
    · exact i.deps_live a b h1
    · rw [h2]; exact i.this_live
  · intro a b
    rw [link_refd s t this ref h, link_deps s t this ref h, i.symm a b]
    tauto
  · intro a b ha
    rw [link_refd s t this ref h, link_prefs s t this ref h]
    simp only [hfind, ha, false_and, or_false]
    exact i.refd_iff a b ha
  · intro b
    rw [link_refd s t this ref h, i.refd_this b]
    simp only [hfind, true_and, List.mem_cons, exists_eq_or_imp, hf, Option.some.injEq]
    constructor
    · rintro (h1 | h1)
      · exact Or.inr h1
      · exact Or.inl h1.symm
    · rintro (h1 | h1)
      · exact Or.inr h1.symm
      · exact Or.inl h1
  · intro a ha q hq
    rw [link_prefs s t this ref h] at hq
    rw [hfind]
    exact i.prefs_present a ha q hq
  · intro q hq
    rw [hfind]
    rcases List.mem_cons.1 hq with rfl | hq
    · rw [hf]; rfl
    · exact i.done_present q hq
  · exact acyclic_of_added_into (DepEdge s) (DepEdge t) this (fun a => a = ref) hE i.acyclic
      (fun a ha => by rw [ha]; exact hnr)
  · intro q hq r hr hreach
    rw [hfind] at hr
    exact i.no_reach q hq r hr
      (reach_of_added_into (DepEdge s) (DepEdge t) this
        (fun a b hab => (hE a b hab).imp id (fun h => h.1)) r hreach)

theorem rewire_pinv (inner : Position → Sheet → Res Unit) (this : Nat) (R : List Position)
    (hinner : ∀ p s, p.IsValid = true → s.find p = none →
      inner p s = .timeout ∨ inner p s = .ok () (s.alloc p)) :
    ∀ (l : List Position) (s : Sheet) (done : List Position) (u : Unit) (t : Sheet),
      s.PInv this R done → (∀ q ∈ l, q ∈ R) → rewire inner this l s = .ok u t →
      ∃ done', t.PInv this R done' ∧ ∀ q, q ∈ done' ↔ q ∈ l ∨ q ∈ done := by
  intro l
  induction l with
  | nil =>
    intro s done u t i _ h
    simp only [rewire, Res.ok.injEq] at h
    rw [← h.2]
    exact ⟨done, i, by simp⟩
  | cons pos rest ih =>
    intro s done u t i hl h
    have hposR := hl pos (List.mem_cons_self _ _)
    have hrest : ∀ q ∈ rest, q ∈ R := fun q hq => hl q (List.mem_cons_of_mem _ hq)
    unfold rewire at h
    by_cases hv : pos.IsValid = true
    · simp only [hv, if_true] at h
      cases hf : s.find pos with
      | some ref =>
        simp only [hf] at h
        cases hlk : s.link this ref with
        | none => simp [hlk] at h
        | some s1 =>
          simp only [hlk] at h
          obtain ⟨done', i', hd⟩ := ih s1 (pos :: done) u t
            (pinv_link s s1 this ref R done i pos hposR hf hlk) hrest h
          refine ⟨done', i', ?_⟩
          intro q
          rw [hd q]
          simp only [List.mem_cons]
          tauto
      | none =>
        simp only [hf] at h
        rcases hinner pos s hv hf with hi | hi
        · rw [hi] at h; cases h
        · rw [hi] at h
          have hfa := find_alloc_self s pos hf
          simp only [hfa] at h
          cases hlk : (s.alloc pos).link this s.brk with
          | none => simp [hlk] at h
          | some s2 =>
            simp only [hlk] at h
            have i1 := pinv_alloc s this R done i pos hv hf
            obtain ⟨done', i', hd⟩ := ih s2 (pos :: done) u t
              (pinv_link _ s2 this s.brk R done i1 pos hposR hfa hlk) hrest h
            refine ⟨done', i', ?_⟩
            intro q
            rw [hd q]
            simp only [List.mem_cons]
            tauto
    · simp only [hv] at h
      simp at h

end Spreadsheet


namespace Spreadsheet

/-! ## The graph invariant is kept by SetCell and GetValue -/

theorem empty_inv : Sheet.empty.Inv := by
  refine ⟨empty_wf, ?_, ?_, ?_, ?_, ?_⟩
  · intro a b h; simp [Sheet.deps, Sheet.empty] at h
  · intro a b; simp [Sheet.deps, Sheet.refd, Sheet.empty]
  · intro a b; simp [Sheet.prefs, Sheet.refd, Sheet.empty]
  · intro a q h; simp [Sheet.prefs, Sheet.empty] at h
  · intro a h
    rcases Relation.TransGen.head'_iff.1 h with ⟨c, h1, _⟩
    simp [DepEdge, Sheet.deps, Sheet.empty] at h1

theorem alloc_inv (s : Sheet) (i : s.Inv) (pos : Position) (hv : pos.IsValid = true)
    (hp : s.find pos = none) : (s.alloc pos).Inv := by
  have w := i.wf
  refine ⟨alloc_wf s pos w hv hp, ?_, ?_, ?_, ?_, ?_⟩
  · intro a b hb
    rw [alloc_deps s w] at hb
    exact alloc_isSome_of_isSome s pos b (i.deps_live a b hb)
  · intro a b
    rw [alloc_refd s w, alloc_deps s w]
    exact i.symm a b
  · intro a b
    rw [alloc_refd s w, alloc_prefs s w, i.refd_iff a b]
    constructor
    · rintro ⟨q, hq, hb⟩
      exact ⟨q, hq, find_alloc_of_some s pos q b hb⟩
    · rintro ⟨q, hq, hb⟩
      rw [find_alloc_of_isSome s pos q (i.prefs_present a q hq)] at hb
      exact ⟨q, hq, hb⟩
  · intro a q hq
    rw [alloc_prefs s w] at hq
    rw [find_alloc_of_isSome s pos q (i.prefs_present a q hq)]
    exact i.prefs_present a q hq
  · intro a
    rw [alloc_depEdge s w]
    exact i.acyclic a

theorem ensure_inv (s : Sheet) (i : s.Inv) (pos : Position) (hv : pos.IsValid = true) :
    (s.ensure pos).Inv := by
  cases h : s.find pos with
  | some a => rw [ensure_of_some s pos a h]; exact i
  | none => rw [ensure_of_none s pos h]; exact alloc_inv s i pos hv h

theorem commit_heap (s s1 : Sheet) (this : Nat) (impl : Impl) (c : Cell)
    (hc : s.heap this = some c)
    (he : eraseDependent this c.referenced_cells_ (s.setImpl this impl) = some s1) (x : Nat) :
    (s1.clearReferenced this).heap x = (s.heap x).map (fun cx =>
      { impl_ := if x = this then impl else cx.impl_,
        dependent_cells_ :=
          if x ∈ c.referenced_cells_ then setErase this cx.dependent_cells_
          else cx.dependent_cells_,
        referenced_cells_ := if x = this then [] else cx.referenced_cells_ }) := by
  obtain ⟨_, _, h3⟩ := eraseDependent_spec this _ _ s1 he
  rw [clearReferenced_heap]
  by_cases hx : x = this
  · subst hx
    simp only [if_true]
    rw [h3 x, setImpl_heap]
    simp [hc]
  · simp only [hx, if_false]
    rw [h3 x, setImpl_heap]
    simp only [hx, if_false]

theorem commit_cells (s s1 : Sheet) (this : Nat) (impl : Impl) (l : List Nat)
    (he : eraseDependent this l (s.setImpl this impl) = some s1) :
    (s1.clearReferenced this).cells_ = s.cells_ := by
  obtain ⟨h1, _, _⟩ := eraseDependent_spec this _ _ s1 he
  simp [h1]

theorem commit_pinv (s s1 : Sheet) (this : Nat) (impl : Impl) (c : Cell) (i : s.Inv)
    (hc : s.heap this = some c)
    (he : eraseDependent this c.referenced_cells_ (s.setImpl this impl) = some s1)
    (hno : ∀ q ∈ impl.GetReferencedCells, ∀ r, s.find q = some r →
      ¬ Relation.ReflTransGen (DepEdge s) this r) :
    (s1.clearReferenced this).PInv this impl.GetReferencedCells [] := by
  have hheap := commit_heap s s1 this impl c hc he
  have hcells := commit_cells s s1 this impl _ he
  have hfind : ∀ q, (s1.clearReferenced this).find q = s.find q := find_congr s _ hcells
  have hsome : ∀ x, ((s1.clearReferenced this).heap x).isSome = (s.heap x).isSome := by
    intro x
    rw [hheap x]
    cases s.heap x <;> rfl
  have hrefd0 : s.refd this = c.referenced_cells_ := refd_of_heap s this c hc
  have hdeps : ∀ x d, d ∈ (s1.clearReferenced this).deps x ↔ d ∈ s.deps x ∧ d ≠ this := by
    intro x d
    unfold Sheet.deps
    rw [hheap x]
    cases hx : s.heap x with
    | none => simp
    | some cx =>
      simp only [Option.map_some']
      have hsym : x ∈ c.referenced_cells_ ↔ this ∈ cx.dependent_cells_ := by
        rw [← hrefd0, i.symm this x, deps_of_heap s x cx hx]
      by_cases hm : x ∈ c.referenced_cells_
      · simp only [hm, if_true, mem_setErase]
      · simp only [hm, if_false]
        constructor
        · intro hd
          refine ⟨hd, ?_⟩
          rintro rfl
          exact hm (hsym.2 hd)
        · intro hd; exact hd.1
  have hrefd : ∀ x, (s1.clearReferenced this).refd x = if x = this then [] else s.refd x := by
    intro x
    unfold Sheet.refd
    rw [hheap x]
    cases hx : s.heap x with
    | none => simp
    | some cx => simp
  have hprefs : ∀ x, (s1.clearReferenced this).prefs x =
      if x = this then impl.GetReferencedCells else s.prefs x := by
    intro x
    unfold Sheet.prefs
    rw [hheap x]
    by_cases hxt : x = this
    · subst hxt
      simp [hc]
    · cases hx : s.heap x with
      | none => simp [hxt]
      | some cx => simp [hxt]
  have hE : ∀ a b, DepEdge (s1.clearReferenced this) a b → DepEdge s a b := by
    intro a b hab
    exact ((hdeps a b).1 hab).1
  have hshape : (s1.clearReferenced this).WF := by
    apply wf_of_shape s _ hcells _ hsome i.wf
    obtain ⟨_, h2, _⟩ := eraseDependent_spec this _ _ s1 he
    simp [h2]
  refine ⟨hshape, ?_, ?_, ?_, ?_, ?_, ?_, ?_, ?_, ?_, ?_⟩
  · rw [hsome, hc]; rfl
  · rw [hprefs]; simp
  · intro a b hb
    rw [hsome]
    exact i.deps_live a b ((hdeps a b).1 hb).1
  · intro a b
    rw [hrefd a, hdeps b a]
    by_cases ha : a = this
    · simp [ha]
    · simp only [ha, if_false, ne_eq, not_false_eq_true, and_true]
      exact i.symm a b
  · intro a b ha
    rw [hrefd a, hprefs a]
    simp only [ha, if_false, hfind]
    exact i.refd_iff a b
  · intro b
    rw [hrefd this]
    simp
  · intro a ha q hq
    rw [hprefs a] at hq
    simp only [ha, if_false] at hq
    rw [hfind]
    exact i.prefs_present a q hq
  · intro q hq; cases hq
  · intro a haa
    exact i.acyclic a (Relation.TransGen.mono hE haa)
  · intro q hq r hr hreach
    rw [hfind] at hr
    exact hno q hq r hr (Relation.ReflTransGen.mono hE hreach)

theorem inv_of_pinv (t : Sheet) (this : Nat) (R done : List Position) (i : t.PInv this R done)
    (hd : ∀ q, q ∈ done ↔ q ∈ R) : t.Inv := by
  refine ⟨i.wf, i.deps_live, i.symm, ?_, ?_, i.acyclic⟩
  · intro a b
    by_cases ha : a = this
    · subst ha
      rw [i.refd_this b, i.prefs_this]
      constructor
      · rintro ⟨q, hq, hb⟩; exact ⟨q, (hd q).1 hq, hb⟩
      · rintro ⟨q, hq, hb⟩; exact ⟨q, (hd q).2 hq, hb⟩
    · exact i.refd_iff a b ha
  · intro a q hq
    by_cases ha : a = this
    · subst ha
      rw [i.prefs_this] at hq
      exact i.done_present q ((hd q).2 hq)
    · exact i.prefs_present a ha q hq

theorem Set_ok_inv (parse : String → Option FormulaInterface) (inner : Position → Sheet → Res Unit)
    (hinner : ∀ p s, p.IsValid = true → s.find p = none →
      inner p s = .timeout ∨ inner p s = .ok () (s.alloc p))
    (fuel this : Nat) (text : String) (s : Sheet) (u : Unit) (t : Sheet) (i : s.Inv)
    (h : Cell.Set parse inner fuel this text s = .ok u t) : t.Inv := by
  obtain ⟨impl, c, s1, s2, _, hchk, hc, he, hr, hi⟩ := Set_ok parse inner fuel this text s u t h
  have hlive : (s.heap this).isSome = true := by rw [hc]; rfl
  have hno := check_sound s fuel this impl i.wf i.deps_live hlive hchk
  have p0 := commit_pinv s s1 this impl c i hc he hno
  obtain ⟨done', p1, hd⟩ := rewire_pinv inner this impl.GetReferencedCells hinner
    impl.GetReferencedCells _ [] () s2 p0 (fun q hq => hq) hr
  have i2 := inv_of_pinv s2 this _ done' p1 (fun q => by rw [hd q]; simp)
  exact (InvalidateAllCache_ok fuel this true s2 u t hi).inv i2

theorem SetCell_state_inv (parse : String → Option FormulaInterface) (fuel : Nat) (pos : Position)
    (text : String) (s t : Sheet) (i : s.Inv)
    (h : (Sheet.SetCell parse fuel pos text s).state? = some t) : t.Inv := by
  cases hr : Sheet.SetCell parse fuel pos text s with
  | ok u t1 =>
    rw [hr] at h
    simp only [Res.state?, Option.some.injEq] at h
    subst h
    cases fuel with
    | zero => simp [Sheet.SetCell] at hr
    | succ fuel =>
      by_cases hv : pos.IsValid = true
      · obtain ⟨this, _, heq⟩ := SetCell_succ parse fuel pos text s hv
        rw [heq] at hr
        exact Set_ok_inv parse _
          (fun p s1 hp hs => SetCell_empty_absent_cases parse fuel p s1 hp hs)
          fuel this text _ u _ (ensure_inv s i pos hv) hr
      · have hv2 : pos.IsValid = false := by simpa using hv
        rw [SetCell_invalid parse fuel pos text s hv2] at hr
        cases hr
  | throws e t1 =>
    rw [hr] at h
    simp only [Res.state?, Option.some.injEq] at h
    subst h
    rcases SetCell_throws parse fuel pos text s e _ hr with ⟨_, _, h3⟩ | ⟨hv, h3, _⟩
    · rw [h3]; exact i
    · rw [h3]; exact ensure_inv s i pos hv
  | dangling => rw [hr] at h; simp [Res.state?] at h
  | timeout => rw [hr] at h; simp [Res.state?] at h

theorem reach_inv {parse : String → Option FormulaInterface} {s : Sheet}
    (h : Reach parse Op.isSetOrGet s) : s.Inv := by
  induction h with
  | init => exact empty_inv
  | step s t fuel op _ ha hrun ih =>
    cases op with
    | SetCell pos text => exact SetCell_state_inv parse fuel pos text s t ih hrun
    | ClearCell pos => cases ha
    | GetValue pos => exact (GetValue_state fuel pos s t hrun).inv ih

theorem reach_set_inv {parse : String → Option FormulaInterface} {s : Sheet}
    (h : Reach parse Op.isSet s) : s.Inv :=
  reach_inv (reach_mono (fun op hop => by cases op <;> trivial) h)

end Spreadsheet


namespace Spreadsheet

/-! ## References between positions and dependents between cells -/

theorem live_find (s : Sheet) (w : s.WF) (a : Nat) (h : (s.heap a).isSome = true) :
    ∃ p, s.find p = some a := by
  have ha := (w.live_iff a).1 h
  obtain ⟨e, he, rfl⟩ := List.mem_map.1 ha
  exact ⟨e.1, (find_eq_some_iff_of_nodup s w.keys_nodup e.1 e.2).2 he⟩

theorem deps_nonempty_live (s : Sheet) (a b : Nat) (h : b ∈ s.deps a) :
    (s.heap a).isSome = true := by
  unfold Sheet.deps at h
  cases hc : s.heap a with
  | none => simp [hc] at h
  | some c => rfl

theorem refersTo_depEdge (s : Sheet) (i : s.Inv) (p q : Position) (h : RefersTo s p q) :
    ∃ a b, s.find p = some a ∧ s.find q = some b ∧ DepEdge s b a := by
  obtain ⟨a, ha, hq⟩ := h
  obtain ⟨b, hb⟩ := Option.isSome_iff_exists.1 (i.prefs_present a q hq)
  refine ⟨a, b, ha, hb, ?_⟩
  unfold DepEdge
  rw [← i.symm a b, i.refd_iff a b]
  exact ⟨q, hq, hb⟩

theorem depEdge_refersTo (s : Sheet) (i : s.Inv) (a b : Nat) (h : DepEdge s a b) :
    ∃ pa pb, s.find pa = some a ∧ s.find pb = some b ∧ RefersTo s pb pa := by
  have hb := i.deps_live a b h
  obtain ⟨pb, hpb⟩ := live_find s i.wf b hb
  unfold DepEdge at h
  rw [← i.symm b a, i.refd_iff b a] at h
  obtain ⟨q, hq, hqa⟩ := h
  exact ⟨q, pb, hqa, hpb, b, hpb, hq⟩

theorem transGen_refersTo_depEdge (s : Sheet) (i : s.Inv) (p q : Position)
    (h : Relation.TransGen (RefersTo s) p q) :
    ∃ a b, s.find p = some a ∧ s.find q = some b ∧ Relation.TransGen (DepEdge s) b a := by
  induction h with
  | single h =>
    obtain ⟨a, b, ha, hb, he⟩ := refersTo_depEdge s i _ _ h
    exact ⟨a, b, ha, hb, Relation.TransGen.single he⟩
  | tail _ hcq ih =>
    obtain ⟨a, c, ha, hc, hca⟩ := ih
    obtain ⟨c', b, hc', hb, he⟩ := refersTo_depEdge s i _ _ hcq
    rw [hc] at hc'
    simp only [Option.some.injEq] at hc'
    subst hc'
    exact ⟨a, b, ha, hb, Relation.TransGen.head he hca⟩

theorem transGen_depEdge_refersTo (s : Sheet) (i : s.Inv) (a b : Nat)
    (h : Relation.TransGen (DepEdge s) a b) :
    ∃ pa pb, s.find pa = some a ∧ s.find pb = some b ∧ Relation.TransGen (RefersTo s) pb pa := by
  induction h with
  | single h =>
    obtain ⟨pa, pb, ha, hb, hr⟩ := depEdge_refersTo s i _ _ h
    exact ⟨pa, pb, ha, hb, Relation.TransGen.single hr⟩
  | tail _ hcb ih =>
    obtain ⟨pa, pc, ha, hc, hca⟩ := ih
    obtain ⟨pc', pb, hc', hb, hr⟩ := depEdge_refersTo s i _ _ hcb
    have : pc' = pc := addr_unique s i.wf.addrs_nodup pc' pc _ hc' hc
    subst this
    exact ⟨pa, pb, ha, hb, Relation.TransGen.head hr hca⟩

theorem refersTo_acyclic (s : Sheet) (i : s.Inv) (p : Position) :
    ¬ Relation.TransGen (RefersTo s) p p := by
  intro h
  obtain ⟨a, b, ha, hb, hab⟩ := transGen_refersTo_depEdge s i p p h
  rw [ha] at hb
  simp only [Option.some.injEq] at hb
  subst hb
  exact i.acyclic a hab

theorem refersTo_alloc (s : Sheet) (w : s.WF) (p : Position) (hp : s.find p = none) :
    RefersTo (s.alloc p) = RefersTo s := by
  funext x y
  apply propext
  unfold RefersTo
  constructor
  · rintro ⟨a, ha, hy⟩
    rw [alloc_prefs s w] at hy
    rcases find_alloc_cases s p x a hp ha with h | ⟨_, rfl⟩
    · exact ⟨a, h, hy⟩
    · exfalso
      simp [Sheet.prefs, wf_heap_brk s w] at hy
  · rintro ⟨a, ha, hy⟩
    refine ⟨a, find_alloc_of_some s p x a ha, ?_⟩
    rw [alloc_prefs s w]
    exact hy

theorem refersTo_ensure (s : Sheet) (w : s.WF) (p : Position) :
    RefersTo (s.ensure p) = RefersTo s := by
  cases h : s.find p with
  | some a => rw [ensure_of_some s p a h]
  | none => rw [ensure_of_none s p h]; exact refersTo_alloc s w p h

theorem potential_nil (s : Sheet) :
    searchPotential s [] = (s.addrs.map (fun a => (s.deps a).length)).sum := by
  unfold searchPotential
  congr 2
  apply List.filter_eq_self.2
  intro a _
  simp

theorem potential_ensure (s : Sheet) (w : s.WF) (p : Position) :
    searchPotential (s.ensure p) [] = searchPotential s [] := by
  cases h : s.find p with
  | some a => rw [ensure_of_some s p a h]
  | none =>
    rw [ensure_of_none s p h, potential_nil, potential_nil, alloc_addrs]
    simp only [List.map_append, List.sum_append, List.map_cons, List.map_nil, List.sum_cons,
      List.sum_nil, alloc_deps s w]
    simp [Sheet.deps, wf_heap_brk s w]

/-- What the search of Cell::Set decides, in terms of references between
positions: this reaches the cell of q along dependents exactly when q is the
position of this or refers, directly or not, to it. -/
theorem reach_iff_refers (s : Sheet) (i : s.Inv) (p q : Position) (this r : Nat)
    (hp : s.find p = some this) (hq : s.find q = some r) :
    Relation.ReflTransGen (DepEdge s) this r ↔ (q = p ∨ Relation.TransGen (RefersTo s) q p) := by
  constructor
  · intro h
    rcases Relation.reflTransGen_iff_eq_or_transGen.1 h with h1 | h1
    · left
      rw [h1] at hq
      exact addr_unique s i.wf.addrs_nodup q p _ hq hp
    · right
      obtain ⟨pa, pb, ha, hb, hr⟩ := transGen_depEdge_refersTo s i this r h1
      have e1 : pa = p := addr_unique s i.wf.addrs_nodup pa p _ ha hp
      have e2 : pb = q := addr_unique s i.wf.addrs_nodup pb q _ hb hq
      rw [← e1, ← e2]
      exact hr
  · rintro (h | h)
    · subst h
      rw [hp] at hq
      simp only [Option.some.injEq] at hq
      rw [hq]
    · obtain ⟨a, b, ha, hb, hab⟩ := transGen_refersTo_depEdge s i q p h
      rw [hq] at ha
      rw [hp] at hb
      simp only [Option.some.injEq] at ha hb
      subst ha hb
      exact hab.to_reflTransGen

end Spreadsheet


namespace Spreadsheet

/-! ## The implementation built from a text -/

theorem mkText_refs (text : String) : (Impl.mkText text).GetReferencedCells = [] := by
  unfold Impl.mkText
  cases text.data with
  | nil => rfl
  | cons c rest =>
    simp only
    split_ifs <;> rfl

theorem build_cases (parse : String → Option FormulaInterface) (text : String) (impl : Impl)
    (h : Impl.build parse text = some impl) :
    (text.data = [] ∧ impl = .EmptyImpl) ∨
    (∃ rest f, text.data = FORMULA_SIGN :: rest ∧ rest ≠ [] ∧ parse (String.mk rest) = some f ∧
      impl = .FormulaImpl none f) ∨
    (text.data ≠ [] ∧ (∀ rest, text.data = FORMULA_SIGN :: rest → rest = []) ∧
      impl = Impl.mkText text) := by
  unfold Impl.build at h
  cases hd : text.data with
  | nil =>
    simp only [hd, Option.some.injEq] at h
    exact Or.inl ⟨rfl, h.symm⟩
  | cons c rest =>
    simp only [hd] at h
    by_cases hc : rest ≠ [] ∧ c = FORMULA_SIGN
    · simp only [hc, ne_eq, not_false_eq_true, and_self, if_true] at h
      cases hp : parse (String.mk rest) with
      | none => simp [hp] at h
      | some f =>
        simp only [hp, Option.some.injEq] at h
        right; left
        exact ⟨rest, f, by rw [hc.2], hc.1, hp, h.symm⟩
    · simp only [hc, if_false, Option.some.injEq] at h
      right; right
      refine ⟨by simp, ?_, h.symm⟩
      intro r hr
      simp only [List.cons.injEq] at hr
      by_contra hne
      exact hc ⟨by rw [hr.2]; exact hne, hr.1⟩

theorem build_refs_valid (parse : String → Option FormulaInterface) (hc : ParserContract parse)
    (text : String) (impl : Impl) (h : Impl.build parse text = some impl) :
    ∀ q ∈ impl.GetReferencedCells, q.IsValid = true := by
  rcases build_cases parse text impl h with ⟨_, rfl⟩ | ⟨rest, f, _, _, hp, rfl⟩ | ⟨_, _, rfl⟩
  · simp [Impl.GetReferencedCells]
  · exact (hc _ f hp).refs_valid
  · rw [mkText_refs]; simp

/-! ## Cache invalidation terminates on an acyclic graph -/

open Classical in
theorem InvalidateAllCache_terminates_aux (s : Sheet) (i : s.Inv) :
    ∀ (fuel a : Nat) (flag : Bool) (s1 : Sheet), SameUpToCache s s1 →
      (s.heap a).isSome = true →
      s.addrs.toFinset.card + 1 ≤
        fuel + (s.addrs.toFinset.filter (fun c => Relation.TransGen (DepEdge s) c a)).card →
      ∃ t, Cell.InvalidateAllCache fuel a flag s1 = .ok () t := by
  intro fuel
  induction fuel with
  | zero =>
    intro a flag s1 _ _ hf
    have := Finset.card_filter_le s.addrs.toFinset (fun c => Relation.TransGen (DepEdge s) c a)
    omega
  | succ fuel ih =>
    intro a flag s1 hs ha hf
    unfold Cell.InvalidateAllCache
    obtain ⟨c, hc⟩ := heap_of_isSome s a ha
    obtain ⟨c1, hc1, hd1, _, _⟩ := hs.heap_some a c hc
    simp only [hc1]
    by_cases hcond : (c1.impl_.HasCache || flag) = true
    · simp only [hcond, if_true]
      have hs2 : SameUpToCache s (s1.setImpl a c1.impl_.InvalidateCache) :=
        hs.trans ⟨setImpl_cells _ _ _, setImpl_brk _ _ _, setImpl_uncache_heap s1 a c1 hc1⟩
      have hall : ∀ d ∈ c1.dependent_cells_, DepEdge s a d := by
        intro d hd
        unfold DepEdge
        rw [deps_of_heap s a c hc, ← hd1]
        exact hd
      have key : ∀ (l : List Nat) (s2 : Sheet), SameUpToCache s s2 → (∀ d ∈ l, DepEdge s a d) →
          ∃ t, forEach (fun dep s3 => Cell.InvalidateAllCache fuel dep false s3) l s2 =
            .ok () t := by
        intro l
        induction l with
        | nil => intro s2 _ _; exact ⟨s2, rfl⟩
        | cons d rest ihl =>
          intro s2 hs2 hl
          have hd := hl d (List.mem_cons_self _ _)
          have hlt := ancestors_card_lt (DepEdge s) s.addrs.toFinset
            (fun x y hxy => List.mem_toFinset.2
              ((i.wf.live_iff x).1 (deps_nonempty_live s x y hxy)))
            i.acyclic a d hd
          obtain ⟨t1, ht1⟩ := ih d false s2 hs2 (i.deps_live a d hd) (by omega)
          have hs3 := hs2.trans (InvalidateAllCache_ok fuel d false s2 () t1 ht1)
          obtain ⟨t, ht⟩ := ihl t1 hs3 (fun x hx => hl x (List.mem_cons_of_mem _ hx))
          refine ⟨t, ?_⟩
          unfold forEach
          simp only [ht1]
          exact ht
      exact key _ _ hs2 hall
    · simp only [hcond]
      exact ⟨s1, rfl⟩

theorem InvalidateAllCache_terminates (s : Sheet) (i : s.Inv) (fuel a : Nat) (flag : Bool)
    (ha : (s.heap a).isSome = true) (hf : s.cells_.length + 1 ≤ fuel) :
    ∃ t, Cell.InvalidateAllCache fuel a flag s = .ok () t := by
  apply InvalidateAllCache_terminates_aux s i fuel a flag s (SameUpToCache.refl s) ha
  have h1 : s.addrs.toFinset.card ≤ s.cells_.length := by
    have := List.toFinset_card_le s.addrs
    simp only [Sheet.addrs, List.length_map] at this
    exact this
  omega

/-! ## The implementations after Cell::Set -/

theorem Set_ok_impls (parse : String → Option FormulaInterface)
    (inner : Position → Sheet → Res Unit)
    (hinner : ∀ p s, p.IsValid = true → s.find p = none →
      inner p s = .timeout ∨ inner p s = .ok () (s.alloc p))
    (fuel this : Nat) (text : String) (s : Sheet) (u : Unit) (t : Sheet) (w : s.WF)
    (h : Cell.Set parse inner fuel this text s = .ok u t) :
    ∃ impl, Impl.build parse text = some impl ∧
      (∃ d, t.heap this = some d ∧ d.impl_.InvalidateCache = impl.InvalidateCache) ∧
      (∀ q a, s.find q = some a → t.find q = some a) ∧
      (∀ a d, t.heap a = some d → a ≠ this →
        d.impl_ = .EmptyImpl ∨
          ∃ c, s.heap a = some c ∧ d.impl_.InvalidateCache = c.impl_.InvalidateCache) := by
  obtain ⟨impl, c, s1, s2, hb, _, hc, he, hr, hi⟩ := Set_ok parse inner fuel this text s u t h
  refine ⟨impl, hb, ?_⟩
  have w0 := setImpl_wf s w this impl
  have e1 := extends_eraseDependent _ s1 w0 this _ he
  have e2 := extends_clearReferenced s1 e1.wf this
  have e3 := (rewire_extends inner this hinner _ _ () s2 e2.wf hr).1
  have e4 := extends_of_same s2 t e3.wf (InvalidateAllCache_ok fuel this true s2 u t hi)
  have e := extends_trans (extends_trans (extends_trans e1 e2) e3) e4
  have hfind0 : ∀ q, (s.setImpl this impl).find q = s.find q := find_congr s _ (by simp)
  refine ⟨?_, ?_, ?_⟩
  · have h0 : (s.setImpl this impl).heap this = some { c with impl_ := impl } := by
      rw [setImpl_heap]; simp [hc]
    obtain ⟨d, hd, hd2⟩ := e.impl_same this _ h0
    exact ⟨d, hd, hd2⟩
  · intro q a hq
    exact e.find_mono q a (by rw [hfind0]; exact hq)
  · intro a d hd hne
    have hlive : (t.heap a).isSome = true := by rw [hd]; rfl
    obtain ⟨q, hq⟩ := live_find t e.wf a hlive
    cases hq0 : (s.setImpl this impl).find q with
    | none =>
      left
      obtain ⟨d', hd', hd2⟩ := e.new_empty q a hq0 hq
      rw [hd] at hd'
      simp only [Option.some.injEq] at hd'
      rw [hd']; exact hd2
    | some a0 =>
      right
      have := e.find_mono q a0 hq0
      rw [hq] at this
      simp only [Option.some.injEq] at this
      subst this
      obtain ⟨c0, hc0⟩ := wf_find_live _ w0 q a hq0
      obtain ⟨d', hd', hd2⟩ := e.impl_same a c0 hc0
      rw [hd] at hd'
      simp only [Option.some.injEq] at hd'
      subst hd'
      rw [setImpl_heap] at hc0
      simp only [hne, if_false] at hc0
      exact ⟨c0, hc0, hd2⟩

theorem empty_formulasWF : Sheet.empty.FormulasWF := by
  intro a c cache_ f h
  simp [Sheet.empty] at h

theorem alloc_formulasWF (s : Sheet) (h : s.FormulasWF) (p : Position) :
    (s.alloc p).FormulasWF := by
  intro a c cache_ f hc hi
  rw [alloc_heap] at hc
  by_cases ha : a = s.brk
  · simp only [ha, if_true, Option.some.injEq] at hc
    subst hc
    cases hi
  · simp only [ha, if_false] at hc
    exact h a c cache_ f hc hi

theorem ensure_formulasWF (s : Sheet) (h : s.FormulasWF) (p : Position) :
    (s.ensure p).FormulasWF := by
  unfold Sheet.ensure
  split_ifs
  · exact h
  · exact alloc_formulasWF s h p

theorem formula_of_uncache_eq {i j : Impl} (h : i.InvalidateCache = j.InvalidateCache)
    (cache_ : Option FValue) (f : FormulaInterface) (hi : i = .FormulaImpl cache_ f) :
    ∃ cache2, j = .FormulaImpl cache2 f := by
  subst hi
  cases j with
  | EmptyImpl => simp [Impl.InvalidateCache] at h
  | TextImpl _ _ => simp [Impl.InvalidateCache] at h
  | FormulaImpl c2 f2 =>
    simp only [Impl.InvalidateCache, Impl.FormulaImpl.injEq, true_and] at h
    exact ⟨c2, by rw [h]⟩

theorem SameUpToCache.formulasWF {s t : Sheet} (h : SameUpToCache s t) (hw : s.FormulasWF) :
    t.FormulasWF := by
  intro a d cache_ f hd hi
  obtain ⟨c, hc, _, _, h3⟩ := h.symm.heap_some a d hd
  obtain ⟨cache2, h4⟩ := formula_of_uncache_eq h3.symm cache_ f hi
  exact hw a c cache2 f hc h4

theorem build_formula_wf (parse : String → Option FormulaInterface) (hc : ParserContract parse)
    (text : String) (impl : Impl) (h : Impl.build parse text = some impl)
    (cache_ : Option FValue) (f : FormulaInterface) (hi : impl = .FormulaImpl cache_ f) :
    f.WellFormed := by
  rcases build_cases parse text impl h with ⟨_, h1⟩ | ⟨rest, f2, _, _, hp, h2⟩ | ⟨_, _, h1⟩
  · rw [hi] at h1; cases h1
  · rw [hi] at h2
    simp only [Impl.FormulaImpl.injEq] at h2
    rw [h2.2]
    exact hc _ f2 hp
  · exfalso
    rw [hi] at h1
    unfold Impl.mkText at h1
    cases hd : text.data with
    | nil => simp [hd] at h1
    | cons c rest =>
      simp only [hd] at h1
      split_ifs at h1

end Spreadsheet


namespace Spreadsheet

/-! ## Parsed formulas stay well formed -/

theorem Set_ok_formulasWF (parse : String → Option FormulaInterface) (hc : ParserContract parse)
    (inner : Position → Sheet → Res Unit)
    (hinner : ∀ p s, p.IsValid = true → s.find p = none →
      inner p s = .timeout ∨ inner p s = .ok () (s.alloc p))
    (fuel this : Nat) (text : String) (s : Sheet) (u : Unit) (t : Sheet) (w : s.WF)
    (hw : s.FormulasWF) (h : Cell.Set parse inner fuel this text s = .ok u t) :
    t.FormulasWF := by
  obtain ⟨impl, hb, ⟨d0, hd0, hd0'⟩, _, hother⟩ :=
    Set_ok_impls parse inner hinner fuel this text s u t w h
  intro a d cache_ f hd hi
  by_cases ha : a = this
  · subst ha
    rw [hd0] at hd
    simp only [Option.some.injEq] at hd
    subst hd
    obtain ⟨cache2, h2⟩ := formula_of_uncache_eq hd0' cache_ f hi
    exact build_formula_wf parse hc text impl hb cache2 f h2
  · rcases hother a d hd ha with h1 | ⟨c, hc0, h1⟩
    · rw [hi] at h1; cases h1
    · obtain ⟨cache2, h2⟩ := formula_of_uncache_eq h1 cache_ f hi
      exact hw a c cache2 f hc0 h2

theorem SetCell_state_formulasWF (parse : String → Option FormulaInterface)
    (hc : ParserContract parse) (fuel : Nat) (pos : Position) (text : String) (s t : Sheet)
    (w : s.WF) (hw : s.FormulasWF)
    (h : (Sheet.SetCell parse fuel pos text s).state? = some t) : t.FormulasWF := by
  cases hr : Sheet.SetCell parse fuel pos text s with
  | ok u t1 =>
    rw [hr] at h
    simp only [Res.state?, Option.some.injEq] at h
    subst h
    cases fuel with
    | zero => simp [Sheet.SetCell] at hr
    | succ fuel =>
      by_cases hv : pos.IsValid = true
      · obtain ⟨this, _, heq⟩ := SetCell_succ parse fuel pos text s hv
        rw [heq] at hr
        exact Set_ok_formulasWF parse hc _
          (fun p s1 hp hs => SetCell_empty_absent_cases parse fuel p s1 hp hs)
          fuel this text _ u _ (ensure_wf s pos w hv) (ensure_formulasWF s hw pos) hr
      · have hv2 : pos.IsValid = false := by simpa using hv
        rw [SetCell_invalid parse fuel pos text s hv2] at hr
        cases hr
  | throws e t1 =>
    rw [hr] at h
    simp only [Res.state?, Option.some.injEq] at h
    subst h
    rcases SetCell_throws parse fuel pos text s e _ hr with ⟨_, _, h3⟩ | ⟨hv, h3, _⟩
    · rw [h3]; exact hw
    · rw [h3]; exact ensure_formulasWF s hw pos
  | dangling => rw [hr] at h; simp [Res.state?] at h
  | timeout => rw [hr] at h; simp [Res.state?] at h

theorem reach_formulasWF {parse : String → Option FormulaInterface} (hc : ParserContract parse)
    {s : Sheet} (h : Reach parse Op.isSetOrGet s) : s.FormulasWF := by
  induction h with
  | init => exact empty_formulasWF
  | step s t fuel op hs ha hrun ih =>
    cases op with
    | SetCell pos text =>
      exact SetCell_state_formulasWF parse hc fuel pos text s t (reach_wf hs) ih hrun
    | ClearCell pos => cases ha
    | GetValue pos => exact (GetValue_state fuel pos s t hrun).formulasWF ih

/-! ## Evaluation against a sheet -/

theorem evaluates_of_shows (s : Sheet) (p : Position) (ov : Option Value)
    (k : Option Value → Eval) (v : FValue) (h1 : Shows s p ov) (h2 : Evaluates s (k ov) v) :
    Evaluates s (.ask p k) v := by
  cases h1 with
  | null hv hf => exact Evaluates.askNull p k v hv hf h2
  | empty a c hv hf hc hi => exact Evaluates.askEmpty p k v a c hv hf hc hi h2
  | text a c value_ text_ hv hf hc hi => exact Evaluates.askText p k v a c value_ text_ hv hf hc hi h2
  | formula a c cache_ f w hv hf hc hi he =>
    exact Evaluates.askFormula p k v w a c cache_ f hv hf hc hi he h2

theorem evaluates_det (s : Sheet) (ev : Eval) (v : FValue) (h : Evaluates s ev v) :
    ∀ v', Evaluates s ev v' → v = v' := by
  induction h with
  | ret v =>
    intro v' h'
    cases h'
    rfl
  | askNull p k v hv hf _ ih =>
    intro v' h'
    cases h' with
    | askNull _ _ _ _ _ h2 => exact ih _ h2
    | askEmpty _ _ _ a c _ hf2 _ _ _ => rw [hf] at hf2; cases hf2
    | askText _ _ _ a c _ _ _ hf2 _ _ _ => rw [hf] at hf2; cases hf2
    | askFormula _ _ _ _ a c _ _ _ hf2 _ _ _ _ => rw [hf] at hf2; cases hf2
  | askEmpty p k v a c hv hf hc hi _ ih =>
    intro v' h'
    cases h' with
    | askNull _ _ _ _ hf2 _ => rw [hf] at hf2; cases hf2
    | askEmpty _ _ _ a2 c2 _ hf2 hc2 hi2 h2 => exact ih _ h2
    | askText _ _ _ a2 c2 _ _ _ hf2 hc2 hi2 _ =>
      rw [hf] at hf2; cases hf2
      rw [hc] at hc2; cases hc2
      rw [hi] at hi2; cases hi2
    | askFormula _ _ _ _ a2 c2 _ _ _ hf2 hc2 hi2 _ _ =>
      rw [hf] at hf2; cases hf2
      rw [hc] at hc2; cases hc2
      rw [hi] at hi2; cases hi2
  | askText p k v a c value_ text_ hv hf hc hi _ ih =>
    intro v' h'
    cases h' with
    | askNull _ _ _ _ hf2 _ => rw [hf] at hf2; cases hf2
    | askEmpty _ _ _ a2 c2 _ hf2 hc2 hi2 h2 =>
      rw [hf] at hf2; cases hf2
      rw [hc] at hc2; cases hc2
      rw [hi] at hi2; cases hi2
    | askText _ _ _ a2 c2 _ _ _ hf2 hc2 hi2 h2 =>
      rw [hf] at hf2; cases hf2
      rw [hc] at hc2; cases hc2
      rw [hi] at hi2; cases hi2
      exact ih _ h2
    | askFormula _ _ _ _ a2 c2 _ _ _ hf2 hc2 hi2 _ _ =>
      rw [hf] at hf2; cases hf2
      rw [hc] at hc2; cases hc2
      rw [hi] at hi2; cases hi2
  | askFormula p k v w a c cache_ f hv hf hc hi _ _ ih1 ih2 =>
    intro v' h'
    cases h' with
    | askNull _ _ _ _ hf2 _ => rw [hf] at hf2; cases hf2
    | askEmpty _ _ _ a2 c2 _ hf2 hc2 hi2 h2 =>
      rw [hf] at hf2; cases hf2
      rw [hc] at hc2; cases hc2
      rw [hi] at hi2; cases hi2
    | askText _ _ _ a2 c2 _ _ _ hf2 hc2 hi2 h2 =>
      rw [hf] at hf2; cases hf2
      rw [hc] at hc2; cases hc2
      rw [hi] at hi2; cases hi2
    | askFormula _ _ _ w2 a2 c2 _ _ _ hf2 hc2 hi2 he2 h2 =>
      rw [hf] at hf2; cases hf2
      rw [hc] at hc2; cases hc2
      rw [hi] at hi2; cases hi2
      have := ih1 _ he2
      subst this
      exact ih2 _ h2

theorem uncache_eq_text (i : Impl) (v : Value) (t : String)
    (h : i.InvalidateCache = (Impl.TextImpl v t).InvalidateCache) : i = .TextImpl v t := by
  cases i <;> simp_all [Impl.InvalidateCache]

theorem uncache_eq_uncache_empty (i : Impl) (h : i.InvalidateCache = Impl.EmptyImpl.InvalidateCache) :
    i = .EmptyImpl := by
  cases i <;> simp_all [Impl.InvalidateCache]

/-! ## GetValue returns the result of the evaluation -/

open Classical in
theorem GetValue_spec_aux (s : Sheet) (i : s.Inv) (hw : s.FormulasWF) :
    ∀ (fuel : Nat) (p : Position) (s1 : Sheet), SameUpToCache s s1 → p.IsValid = true →
      s.keys.toFinset.card + 1 ≤
        fuel + (s.keys.toFinset.filter (fun c => Relation.TransGen (RefersTo s) c p)).card →
      ∃ ov t, Sheet.GetValue fuel p s1 = .ok ov t ∧ SameUpToCache s t ∧ Shows s p ov := by
  intro fuel
  induction fuel with
  | zero =>
    intro p s1 _ _ hf
    have := Finset.card_filter_le s.keys.toFinset (fun c => Relation.TransGen (RefersTo s) c p)
    omega
  | succ fuel ih =>
    intro p s1 hs hv hf
    unfold Sheet.GetValue
    simp only [hv, if_true]
    rw [hs.find]
    cases hfp : s.find p with
    | none => exact ⟨none, s1, rfl, hs, Shows.null p hv hfp⟩
    | some a =>
      simp only
      obtain ⟨c, hc⟩ := wf_find_live s i.wf p a hfp
      obtain ⟨c1, hc1, _, _, himpl⟩ := hs.heap_some a c hc
      simp only [hc1]
      cases hi1 : c1.impl_ with
      | EmptyImpl =>
        simp only
        have : c.impl_ = .EmptyImpl := uncache_eq_uncache_empty _ (by rw [← himpl, hi1])
        exact ⟨_, s1, rfl, hs, Shows.empty p a c hv hfp hc this⟩
      | TextImpl value_ text_ =>
        simp only
        have : c.impl_ = .TextImpl value_ text_ := uncache_eq_text _ _ _ (by rw [← himpl, hi1])
        exact ⟨_, s1, rfl, hs, Shows.text p a c value_ text_ hv hfp hc this⟩
      | FormulaImpl cache1 f =>
        simp only
        obtain ⟨cache0, hi0⟩ := formula_of_uncache_eq himpl cache1 f hi1
        have hwf := hw a c cache0 f hc hi0
        have hprefs : s.prefs a = f.GetReferencedCells := by
          rw [prefs_of_heap s a c hc, hi0]; rfl
        have hrun : ∀ (ev : Eval) (s2 : Sheet), SameUpToCache s s2 →
            (∀ q, ev.Asks q → q ∈ f.GetReferencedCells) →
            ∃ v t, runEval (fun p s1 => Sheet.GetValue fuel p s1) ev s2 = .ok v t ∧
              SameUpToCache s t ∧ Evaluates s ev v := by
          intro ev
          induction ev with
          | ret v => intro s2 hs2 _; exact ⟨v, s2, rfl, hs2, Evaluates.ret v⟩
          | ask q k ihk =>
            intro s2 hs2 hasks
            have hq := hasks q (Eval.Asks.here q k)
            have hrel : RefersTo s p q := ⟨a, hfp, by rw [hprefs]; exact hq⟩
            have hlt := ancestors_card_lt (RefersTo s) s.keys.toFinset
              (fun x y hxy => by
                obtain ⟨b, hb, _⟩ := hxy
                exact List.mem_toFinset.2 (find_some_key s x b hb))
              (refersTo_acyclic s i) p q hrel
            obtain ⟨ov, s3, hg, hs3, hshow⟩ := ih q s2 hs2 (hwf.refs_valid q hq) (by omega)
            obtain ⟨v, t, hr, hst, hev⟩ := ihk ov s3 hs3
              (fun x hx => hasks x (Eval.Asks.later q x k ov hx))
            refine ⟨v, t, ?_, hst, evaluates_of_shows s q ov k v hshow hev⟩
            unfold runEval
            simp only [hg]
            exact hr
        cases cache1 with
        | some w1 =>
          simp only
          obtain ⟨v, t, hr, hst, hev⟩ := hrun f.Evaluate s1 hs hwf.asks_refs
          rw [hr]
          exact ⟨_, t, rfl, hst, Shows.formula p a c cache0 f v hv hfp hc hi0 hev⟩
        | none =>
          simp only
          obtain ⟨v0, t0, hr0, hst0, _⟩ := hrun f.Evaluate s1 hs hwf.asks_refs
          rw [hr0]
          simp only
          obtain ⟨v, t, hr, hst, hev⟩ := hrun f.Evaluate (t0.setCache a v0)
            (hst0.trans (SameUpToCache.setCache t0 a v0)) hwf.asks_refs
          rw [hr]
          exact ⟨_, t, rfl, hst, Shows.formula p a c cache0 f v hv hfp hc hi0 hev⟩

theorem GetValue_spec (s : Sheet) (i : s.Inv) (hw : s.FormulasWF) (fuel : Nat) (p : Position)
    (hv : p.IsValid = true) (hf : s.cells_.length + 1 ≤ fuel) :
    ∃ ov t, Sheet.GetValue fuel p s = .ok ov t ∧ SameUpToCache s t ∧ Shows s p ov := by
  apply GetValue_spec_aux s i hw fuel p s (SameUpToCache.refl s) hv
  have h1 : s.keys.toFinset.card ≤ s.cells_.length := by
    have := List.toFinset_card_le s.keys
    simp only [Sheet.keys, List.length_map] at this
    exact this
  omega

end Spreadsheet


namespace Spreadsheet

/-! ## The scripted parser keeps the contract -/

theorem asks_ret (v : FValue) (q : Position) : ¬ Eval.Asks (.ret v) q := by
  intro h
  cases h

theorem asks_evalCell (op : Int → Int) (p q : Position) (h : Eval.Asks (evalCell op p) q) :
    q = p := by
  unfold evalCell at h
  cases h with
  | here => rfl
  | later _ _ _ ov h1 =>
    exfalso
    cases hc : cellNumber ov with
    | error e => simp only [hc] at h1; exact asks_ret _ _ h1
    | ok x => simp only [hc] at h1; exact asks_ret _ _ h1

theorem asks_evalCells (op : Int → Int → Int) (p r q : Position)
    (h : Eval.Asks (evalCells op p r) q) : q = p ∨ q = r := by
  unfold evalCells at h
  cases h with
  | here => exact Or.inl rfl
  | later _ _ _ ov h1 =>
    cases hc : cellNumber ov with
    | error e => simp only [hc] at h1; exact absurd h1 (asks_ret _ _)
    | ok x =>
      simp only [hc] at h1
      cases h1 with
      | here => exact Or.inr rfl
      | later _ _ _ ov2 h2 =>
        exfalso
        cases hc2 : cellNumber ov2 with
        | error e => simp only [hc2] at h2; exact asks_ret _ _ h2
        | ok y => simp only [hc2] at h2; exact asks_ret _ _ h2

theorem scripted_contract : ParserContract scripted := by
  intro e f h
  unfold scripted at h
  split_ifs at h <;> simp only [Option.some.injEq] at h <;> subst h
  · exact ⟨by simp, fun q hq => absurd hq (asks_ret _ _)⟩
  · exact ⟨by simp; decide, fun q hq => by simp [asks_evalCell _ _ _ hq]⟩
  · exact ⟨by simp; decide, fun q hq => by simp [asks_evalCell _ _ _ hq]⟩
  · exact ⟨by simp; decide, fun q hq => by simp [asks_evalCell _ _ _ hq]⟩
  · exact ⟨by simp; decide, fun q hq => by simp [asks_evalCell _ _ _ hq]⟩
  · exact ⟨by simp; decide, fun q hq => by simp [asks_evalCell _ _ _ hq]⟩
  · exact ⟨by simp; decide, fun q hq => by
      rcases asks_evalCells _ _ _ _ hq with h1 | h1 <;> simp [h1]⟩
  · exact ⟨by simp; decide, fun q hq => by
      rcases asks_evalCells _ _ _ _ hq with h1 | h1 <;> simp [h1]⟩

/-! ## The printable size -/

theorem printable_congr (f g : Nat → String) :
    ∀ (l : List (Position × Nat)) (acc : Size), (∀ e ∈ l, f e.2 = g e.2) →
      l.foldl (fun acc e =>
        if f e.2 ≠ "" then (⟨max acc.rows (e.1.row + 1), max acc.cols (e.1.col + 1)⟩ : Size)
        else acc) acc =
      l.foldl (fun acc e =>
        if g e.2 ≠ "" then (⟨max acc.rows (e.1.row + 1), max acc.cols (e.1.col + 1)⟩ : Size)
        else acc) acc := by
  intro l
  induction l with
  | nil => intro acc _; rfl
  | cons e rest ih =>
    intro acc h
    simp only [List.foldl_cons]
    rw [h e (List.mem_cons_self _ _)]
    exact ih _ (fun x hx => h x (List.mem_cons_of_mem _ hx))

theorem textAt_alloc_old (s : Sheet) (w : s.WF) (p : Position) (a : Nat) (ha : a ∈ s.addrs) :
    (s.alloc p).textAt a = s.textAt a := by
  have hlt := w.addrs_lt a ha
  unfold Sheet.textAt
  rw [alloc_heap]
  simp [Nat.ne_of_lt hlt]

theorem textAt_alloc_new (s : Sheet) (p : Position) : (s.alloc p).textAt s.brk = "" := by
  unfold Sheet.textAt
  rw [alloc_heap]
  simp [Impl.GetText]

theorem printable_alloc (s : Sheet) (w : s.WF) (p : Position) :
    (s.alloc p).GetPrintableSize = s.GetPrintableSize := by
  unfold Sheet.GetPrintableSize
  rw [alloc_cells, List.foldl_append]
  simp only [List.foldl_cons, List.foldl_nil, textAt_alloc_new, ne_eq, not_true_eq_false,
    if_false]
  apply printable_congr
  intro e he
  exact textAt_alloc_old s w p e.2 (List.mem_map.2 ⟨e, he, rfl⟩)

theorem printable_ensure (s : Sheet) (w : s.WF) (p : Position) :
    (s.ensure p).GetPrintableSize = s.GetPrintableSize := by
  unfold Sheet.ensure
  split_ifs
  · rfl
  · exact printable_alloc s w p

/-- The fold of GetPrintableSize over a list of map entries with non-negative
rows and columns, started from a size with non-negative sides. -/
theorem printable_fold_spec (f : Nat → String) :
    ∀ (l : List (Position × Nat)) (acc : Size),
      (∀ e ∈ l, 0 ≤ e.1.row ∧ 0 ≤ e.1.col) →
      let r := l.foldl (fun acc e =>
        if f e.2 ≠ "" then (⟨max acc.rows (e.1.row + 1), max acc.cols (e.1.col + 1)⟩ : Size)
        else acc) acc
      (acc.rows ≤ r.rows ∧ acc.cols ≤ r.cols) ∧
      (∀ e ∈ l, f e.2 ≠ "" → e.1.row + 1 ≤ r.rows ∧ e.1.col + 1 ≤ r.cols) ∧
      (r.rows = acc.rows ∨ ∃ e ∈ l, f e.2 ≠ "" ∧ r.rows = e.1.row + 1) ∧
      (r.cols = acc.cols ∨ ∃ e ∈ l, f e.2 ≠ "" ∧ r.cols = e.1.col + 1) ∧
      ((∀ e ∈ l, f e.2 = "") → r = acc) := by
  intro l
  induction l with
  | nil =>
    intro acc _
    simp
  | cons e rest ih =>
    intro acc h
    have hrest : ∀ x ∈ rest, 0 ≤ x.1.row ∧ 0 ≤ x.1.col :=
      fun x hx => h x (List.mem_cons_of_mem _ hx)
    simp only [List.foldl_cons]
    by_cases he : f e.2 = ""
    · simp only [he, ne_eq, not_true_eq_false, if_false]
      obtain ⟨h1, h2, h3, h4, h5⟩ := ih acc hrest
      refine ⟨h1, ?_, ?_, ?_, ?_⟩
      · intro x hx hxf
        rcases List.mem_cons.1 hx with rfl | hx
        · exact absurd he hxf
        · exact h2 x hx hxf
      · rcases h3 with h3 | ⟨x, hx, hxf, hxr⟩
        · exact Or.inl h3
        · exact Or.inr ⟨x, List.mem_cons_of_mem _ hx, hxf, hxr⟩
      · rcases h4 with h4 | ⟨x, hx, hxf, hxr⟩
        · exact Or.inl h4
        · exact Or.inr ⟨x, List.mem_cons_of_mem _ hx, hxf, hxr⟩
      · intro hall
        exact h5 (fun x hx => hall x (List.mem_cons_of_mem _ hx))
    · simp only [ne_eq, he, not_false_eq_true, if_true]
      obtain ⟨h1, h2, h3, h4, _⟩ :=
        ih ⟨max acc.rows (e.1.row + 1), max acc.cols (e.1.col + 1)⟩ hrest
      simp only at h1 h3 h4
      refine ⟨⟨le_trans (le_max_left _ _) h1.1, le_trans (le_max_left _ _) h1.2⟩, ?_, ?_, ?_, ?_⟩
      · intro x hx hxf
        rcases List.mem_cons.1 hx with rfl | hx
        · exact ⟨le_trans (le_max_right _ _) h1.1, le_trans (le_max_right _ _) h1.2⟩
        · exact h2 x hx hxf
      · rcases h3 with h3 | ⟨x, hx, hxf, hxr⟩
        · rcases max_choice acc.rows (e.1.row + 1) with hm | hm
          · left; rw [h3, hm]
          · right; exact ⟨e, List.mem_cons_self _ _, he, by rw [h3, hm]⟩
        · exact Or.inr ⟨x, List.mem_cons_of_mem _ hx, hxf, hxr⟩
      · rcases h4 with h4 | ⟨x, hx, hxf, hxr⟩
        · rcases max_choice acc.cols (e.1.col + 1) with hm | hm
          · left; rw [h4, hm]
          · right; exact ⟨e, List.mem_cons_self _ _, he, by rw [h4, hm]⟩
        · exact Or.inr ⟨x, List.mem_cons_of_mem _ hx, hxf, hxr⟩
      · intro hall
        exact absurd (hall e (List.mem_cons_self _ _)) he

theorem valid_nonneg (p : Position) (h : p.IsValid = true) : 0 ≤ p.row ∧ 0 ≤ p.col := by
  unfold Position.IsValid at h
  simp only [Bool.and_eq_true, decide_eq_true_eq] at h
  exact ⟨h.1.1.1, h.1.1.2⟩

end Spreadsheet


namespace Spreadsheet

theorem reach_runAll (parse : String → Option FormulaInterface) (allow : Op → Prop) (fuel : Nat) :
    ∀ (ops : List Op) (s t : Sheet), Reach parse allow s → (∀ op ∈ ops, allow op) →
      Op.runAll parse fuel ops s = some t → Reach parse allow t := by
  intro ops
  induction ops with
  | nil =>
    intro s t hs _ h
    simp only [Op.runAll, Option.some.injEq] at h
    subst h; exact hs
  | cons op rest ih =>
    intro s t hs ha h
    unfold Op.runAll at h
    cases hr : op.run parse fuel s with
    | none => simp [hr] at h
    | some s1 =>
      simp only [hr] at h
      exact ih s1 t (Reach.step s s1 fuel op hs (ha op (List.mem_cons_self _ _)) hr)
        (fun o ho => ha o (List.mem_cons_of_mem _ ho)) h

theorem reach_scenario (allow : Op → Prop) (ops : List Op) (ha : ∀ op ∈ ops, allow op)
    (h : Op.runAll scripted 20 ops Sheet.empty = some (scenario ops)) :
    Reach scripted allow (scenario ops) :=
  reach_runAll scripted allow 20 ops Sheet.empty (scenario ops) Reach.init ha h

/-! ## Printable size (C7) -/

/-- C7: in every state reached by calls of the interface, GetPrintableSize is
(0,0) when no cell has a non-empty text; otherwise its rows are 1 + the row
and its columns 1 + the column of some cell with non-empty text, and no cell
with non-empty text has a larger row or column. Cells with empty text do not
count. -/
theorem printable_size_is_bounding_box (parse : String → Option FormulaInterface) (s : Sheet)
    (hr : Reach parse Op.any s) :
    ((∀ p t, s.GetText p = some t → t = "") → s.GetPrintableSize = ⟨0, 0⟩) ∧
    ((∃ p t, s.GetText p = some t ∧ t ≠ "") →
      (∃ p t, s.GetText p = some t ∧ t ≠ "" ∧ s.GetPrintableSize.rows = 1 + p.row) ∧
      (∃ p t, s.GetText p = some t ∧ t ≠ "" ∧ s.GetPrintableSize.cols = 1 + p.col)) ∧
    (∀ p t, s.GetText p = some t → t ≠ "" →
      1 + p.row ≤ s.GetPrintableSize.rows ∧ 1 + p.col ≤ s.GetPrintableSize.cols) := by
  have w := reach_wf hr
  have hmem : ∀ e ∈ s.cells_, s.GetText e.1 = some (s.textAt e.2) := by
    intro e he
    have := (find_eq_some_iff_of_nodup s w.keys_nodup e.1 e.2).2 he
    simp [Sheet.GetText, this]
  have hget : ∀ p t, s.GetText p = some t → ∃ e ∈ s.cells_, e.1 = p ∧ s.textAt e.2 = t := by
    intro p t h
    unfold Sheet.GetText at h
    cases hf : s.find p with
    | none => simp [hf] at h
    | some a =>
      simp only [hf, Option.some.injEq] at h
      exact ⟨(p, a), find_some_mem s p a hf, rfl, h⟩
  have hnn : ∀ e ∈ s.cells_, 0 ≤ e.1.row ∧ 0 ≤ e.1.col := by
    intro e he
    exact valid_nonneg _ (w.keys_valid _ (List.mem_map.2 ⟨e, he, rfl⟩))
  obtain ⟨_, h2, h3, h4, h5⟩ := printable_fold_spec s.textAt s.cells_ ⟨0, 0⟩ hnn
  refine ⟨?_, ?_, ?_⟩
  · intro hall
    apply h5
    intro e he
    exact hall e.1 _ (hmem e he)
  · rintro ⟨p, t, hp, ht⟩
    obtain ⟨e, he, rfl, rfl⟩ := hget p t hp
    have hb := h2 e he ht
    have hpos := hnn e he
    constructor
    · rcases h3 with h3 | ⟨x, hx, hxf, hxr⟩
      · exfalso
        have : e.1.row + 1 ≤ 0 := by
          have := hb.1
          rw [h3] at this
          exact this
        omega
      · exact ⟨x.1, _, hmem x hx, hxf, by
          unfold Sheet.GetPrintableSize; rw [hxr]; ring⟩
    · rcases h4 with h4 | ⟨x, hx, hxf, hxr⟩
      · exfalso
        have : e.1.col + 1 ≤ 0 := by
          have := hb.2
          rw [h4] at this
          exact this
        omega
      · exact ⟨x.1, _, hmem x hx, hxf, by
          unfold Sheet.GetPrintableSize; rw [hxr]; ring⟩
  · intro p t hp ht
    obtain ⟨e, he, rfl, rfl⟩ := hget p t hp
    have hb := h2 e he ht
    unfold Sheet.GetPrintableSize
    constructor
    · rw [add_comm]; exact hb.1
    · rw [add_comm]; exact hb.2

/-- Witness for C7: after SetCell(B3, "x") on the empty sheet the printable
size is (3,2). -/
theorem printable_size_is_bounding_box_witness :
    Reach scripted Op.any (scenario [.SetCell B3 "x"]) ∧
    (scenario [.SetCell B3 "x"]).GetPrintableSize = ⟨3, 2⟩ ∧
    (∀ p t, (scenario [.SetCell B3 "x"]).GetText p = some t → t ≠ "" →
      1 + p.row ≤ (scenario [.SetCell B3 "x"]).GetPrintableSize.rows ∧
      1 + p.col ≤ (scenario [.SetCell B3 "x"]).GetPrintableSize.cols) :=
  ⟨reach_scenario Op.any [.SetCell B3 "x"] (fun _ _ => trivial) rfl, by decide,
   (printable_size_is_bounding_box scripted (scenario [.SetCell B3 "x"])
      (reach_scenario Op.any [.SetCell B3 "x"] (fun _ _ => trivial) rfl)).2.2⟩

end Spreadsheet


namespace Spreadsheet

/-! ## Failures of SetCell (C3, C9, C10) -/

/-- C3 (as amended): when SetCell(p, t) fails with CircularDependency in a
state reached by calls of the interface, the sheet after the call is the sheet
before it if a cell existed at p; if none existed, it is the sheet before it
with one new cell at p that has EmptyImpl and empty neighbour sets, every
other position and every cell that existed are unchanged. GetPrintableSize is
unchanged in both cases. -/
theorem circular_failure_state (parse : String → Option FormulaInterface) (fuel : Nat)
    (p : Position) (text : String) (s t : Sheet) (hr : Reach parse Op.any s)
    (h : Sheet.SetCell parse fuel p text s = .throws .CircularDependencyException t) :
    ((s.find p).isSome = true → t = s) ∧
    (s.find p = none →
      t = s.alloc p ∧ (∀ q, q ≠ p → t.find q = s.find q) ∧
      (∀ a c, s.heap a = some c → t.heap a = some c)) ∧
    t.GetPrintableSize = s.GetPrintableSize := by
  have w := reach_wf hr
  have ht : t = s.ensure p := by
    rcases SetCell_throws parse fuel p text s _ t h with ⟨_, h2, _⟩ | ⟨_, h2, _⟩
    · cases h2
    · exact h2
  subst ht
  refine ⟨?_, ?_, printable_ensure s w p⟩
  · intro hp
    cases hf : s.find p with
    | none => rw [hf] at hp; cases hp
    | some a => exact ensure_of_some s p a hf
  · intro hp
    rw [ensure_of_none s p hp]
    refine ⟨rfl, fun q hq => find_alloc_of_ne s p q hq, ?_⟩
    intro a c hc
    rw [alloc_heap]
    simp [Nat.ne_of_lt (wf_live_lt s w a c hc), hc]

/-- Witness for C3 as amended: SetCell(A1, "=A1") on the empty sheet. -/
theorem circular_failure_state_witness :
    Reach scripted Op.any Sheet.empty ∧
    Sheet.SetCell scripted 2 A1 "=A1" Sheet.empty =
      .throws .CircularDependencyException (Sheet.empty.alloc A1) ∧
    (Sheet.empty.alloc A1).GetPrintableSize = Sheet.empty.GetPrintableSize :=
  ⟨Reach.init, rfl,
   (circular_failure_state scripted 2 A1 "=A1" Sheet.empty (Sheet.empty.alloc A1)
      Reach.init rfl).2.2⟩

/-- Counterexample to C3 as stated: SetCell(A1, "=A1") on the empty sheet
fails with CircularDependency and leaves a cell at A1, where there was none. -/
theorem circular_failure_changes_sheet :
    Sheet.SetCell scripted 2 A1 "=A1" Sheet.empty =
      .throws .CircularDependencyException (Sheet.empty.alloc A1) ∧
    Sheet.empty.find A1 = none ∧ (Sheet.empty.alloc A1).find A1 = some 0 ∧
    Sheet.empty.alloc A1 ≠ Sheet.empty :=
  ⟨rfl, rfl, rfl, fun h => by
    have := congrArg (fun s => s.find A1) h
    simp [Sheet.empty, Sheet.alloc, Sheet.find] at this⟩

/-- C10 (as amended): SetCell(p, t) with p valid and t a formula input whose
remainder the parser rejects fails with FormulaException; the sheet after the
call is the sheet before it if a cell existed at p; if none existed, it is the
sheet before it with one new cell at p that has EmptyImpl and empty neighbour
sets, every other position and every cell that existed are unchanged.
GetPrintableSize is unchanged in both cases. -/
theorem parse_failure_state (parse : String → Option FormulaInterface) (fuel : Nat)
    (p : Position) (text : String) (rest : List Char) (s : Sheet)
    (hr : Reach parse Op.any s) (hv : p.IsValid = true) (hf : 0 < fuel)
    (ht : text.data = FORMULA_SIGN :: rest) (hne : rest ≠ [])
    (hp : parse (String.mk rest) = none) :
    Sheet.SetCell parse fuel p text s = .throws .FormulaException (s.ensure p) ∧
    ((s.find p).isSome = true → s.ensure p = s) ∧
    (s.find p = none →
      s.ensure p = s.alloc p ∧ (∀ q, q ≠ p → (s.ensure p).find q = s.find q) ∧
      (∀ a c, s.heap a = some c → (s.ensure p).heap a = some c)) ∧
    (s.ensure p).GetPrintableSize = s.GetPrintableSize := by
  have w := reach_wf hr
  refine ⟨?_, ?_, ?_, printable_ensure s w p⟩
  · obtain ⟨n, rfl⟩ : ∃ n, fuel = n + 1 := ⟨fuel - 1, by omega⟩
    obtain ⟨this, _, heq⟩ := SetCell_succ parse n p text s hv
    rw [heq]
    have hb : Impl.build parse text = none := by
      unfold Impl.build
      simp [ht, hne, hp]
    unfold Cell.Set
    simp only [hb]
  · intro hq
    cases hfd : s.find p with
    | none => rw [hfd] at hq; cases hq
    | some a => exact ensure_of_some s p a hfd
  · intro hq
    rw [ensure_of_none s p hq]
    refine ⟨rfl, fun q hq => find_alloc_of_ne s p q hq, ?_⟩
    intro a c hc
    rw [alloc_heap]
    simp [Nat.ne_of_lt (wf_live_lt s w a c hc), hc]

/-- Witness for C10 as amended: SetCell(A1, "=zz") on the empty sheet. -/
theorem parse_failure_state_witness :
    Reach scripted Op.any Sheet.empty ∧ A1.IsValid = true ∧ 0 < 1 ∧
    "=zz".data = FORMULA_SIGN :: ['z', 'z'] ∧ ['z', 'z'] ≠ [] ∧
    scripted (String.mk ['z', 'z']) = none ∧
    Sheet.SetCell scripted 1 A1 "=zz" Sheet.empty =
      .throws .FormulaException (Sheet.empty.ensure A1) :=
  ⟨Reach.init, rfl, Nat.one_pos, rfl, by simp, rfl,
   (parse_failure_state scripted 1 A1 "=zz" ['z', 'z'] Sheet.empty Reach.init rfl Nat.one_pos
      rfl (by simp) rfl).1⟩

/-- Counterexample to C10 as stated: SetCell(A1, "=zz") on the empty sheet
fails in the parser and leaves a cell at A1, where there was none. -/
theorem parse_failure_changes_sheet :
    Sheet.SetCell scripted 1 A1 "=zz" Sheet.empty =
      .throws .FormulaException (Sheet.empty.alloc A1) ∧
    Sheet.empty.find A1 = none ∧ (Sheet.empty.alloc A1).find A1 = some 0 ∧
    Sheet.empty.alloc A1 ≠ Sheet.empty :=
  ⟨rfl, rfl, rfl, fun h => by
    have := congrArg (fun s => s.find A1) h
    simp [Sheet.empty, Sheet.alloc, Sheet.find] at this⟩

/-- C9: with a parser that returns valid referenced positions, each of
SetCell(pos, text), GetCell(pos) and ClearCell(pos) fails with InvalidPosition
exactly when pos is not valid, and then leaves the sheet as it was. -/
theorem invalid_position_iff (parse : String → Option FormulaInterface)
    (hc : ParserContract parse) (fuel : Nat) (hf : 0 < fuel) (pos : Position) (text : String)
    (s : Sheet) :
    ((Sheet.SetCell parse fuel pos text s).exception? = some .InvalidPositionException ↔
      pos.IsValid = false) ∧
    (∀ t, Sheet.SetCell parse fuel pos text s = .throws .InvalidPositionException t → t = s) ∧
    (s.GetCell pos = .throws .InvalidPositionException ↔ pos.IsValid = false) ∧
    ((s.ClearCell pos).exception? = some .InvalidPositionException ↔ pos.IsValid = false) ∧
    (∀ t, s.ClearCell pos = .throws .InvalidPositionException t → t = s) := by
  obtain ⟨n, rfl⟩ : ∃ n, fuel = n + 1 := ⟨fuel - 1, by omega⟩
  have key : ∀ t, Sheet.SetCell parse (n + 1) pos text s = .throws .InvalidPositionException t →
      pos.IsValid = false ∧ t = s := by
    intro t h
    rcases SetCell_throws parse _ pos text s _ t h with ⟨h1, _, h3⟩ | ⟨_, _, h3⟩
    · exact ⟨h1, h3⟩
    · exfalso
      rcases h3 with ⟨h3, _⟩ | ⟨_, impl, hb, q, hq, hq2⟩ | ⟨h3, _⟩
      · cases h3
      · rw [build_refs_valid parse hc text impl hb q hq] at hq2
        cases hq2
      · cases h3
  refine ⟨?_, fun t h => (key t h).2, ?_, ?_, ?_⟩
  · constructor
    · intro h
      cases hr : Sheet.SetCell parse (n + 1) pos text s with
      | ok u t => rw [hr] at h; simp [Res.exception?] at h
      | throws e t =>
        rw [hr] at h
        simp only [Res.exception?, Option.some.injEq] at h
        subst h
        exact (key t hr).1
      | dangling => rw [hr] at h; simp [Res.exception?] at h
      | timeout => rw [hr] at h; simp [Res.exception?] at h
    · intro h
      rw [SetCell_invalid parse n pos text s h]
      rfl
  · unfold Sheet.GetCell
    cases pos.IsValid <;> simp
  · unfold Sheet.ClearCell
    cases hv : pos.IsValid
    · simp [Res.exception?]
    · simp only [if_true]
      cases s.find pos <;> simp [Res.exception?]
  · intro t h
    unfold Sheet.ClearCell at h
    cases hv : pos.IsValid
    · simp only [hv, Bool.false_eq_true, if_false, Res.throws.injEq, true_and] at h
      exact h.symm
    · simp only [hv, if_true] at h
      cases hfd : s.find pos <;> simp [hfd] at h

/-- Witness for C9: the invalid position (-1, 0) on the empty sheet. -/
theorem invalid_position_iff_witness :
    ParserContract scripted ∧ 0 < 1 ∧
    ((Sheet.SetCell scripted 1 ⟨-1, 0⟩ "x" Sheet.empty).exception? =
        some .InvalidPositionException ↔ (⟨-1, 0⟩ : Position).IsValid = false) :=
  ⟨scripted_contract, Nat.one_pos,
   (invalid_position_iff scripted scripted_contract 1 Nat.one_pos ⟨-1, 0⟩ "x" Sheet.empty).1⟩

end Spreadsheet


namespace Spreadsheet

/-! ## Auto-materialization (C8) -/

theorem check_self (s : Sheet) (fuel this : Nat) (impl : Impl) (b : Bool)
    (h : Cell.HasCircularDependency s fuel this impl = .ok b)
    (hq : ∃ q ∈ impl.GetReferencedCells, s.find q = some this) : b = true := by
  obtain ⟨q, hq1, hq2⟩ := hq
  unfold Cell.HasCircularDependency at h
  have hne : impl.GetReferencedCells ≠ [] := List.ne_nil_of_mem hq1
  simp only [hne, if_false] at h
  cases hc : collectReferenced s impl.GetReferencedCells [] with
  | none => simp [hc] at h
  | some r =>
    simp only [hc] at h
    have hm : this ∈ r := ((collectReferenced_some s _ _ r hc).2 this).2 (Or.inr ⟨q, hq1, hq2⟩)
    cases fuel with
    | zero => simp [searchLoop] at h
    | succ n =>
      simp only [searchLoop, hm, if_true, Query.ok.injEq] at h
      exact h.symm

/-- C8: in every state reached by calls of the interface, after a successful
SetCell(p, t) where t is a formula that references a position q without a
cell, GetCell(q) is non-null and the text of that cell is empty. -/
theorem referenced_cell_is_materialized (parse : String → Option FormulaInterface) (fuel : Nat)
    (p q : Position) (text : String) (cache_ : Option FValue) (f : FormulaInterface)
    (s t : Sheet) (hr : Reach parse Op.any s)
    (hok : Sheet.SetCell parse fuel p text s = .ok () t)
    (hb : Impl.build parse text = some (.FormulaImpl cache_ f))
    (hq : q ∈ f.GetReferencedCells) (hnone : s.find q = none) :
    (∃ a, t.GetCell q = .ok (some a)) ∧ t.GetText q = some "" := by
  have w := reach_wf hr
  cases fuel with
  | zero => simp [Sheet.SetCell] at hok
  | succ n =>
    by_cases hv : p.IsValid = true
    · obtain ⟨this, hthis, heq⟩ := SetCell_succ parse n p text s hv
      rw [heq] at hok
      have hinner := fun p s1 hp hs => SetCell_empty_absent_cases parse n p s1 hp hs
      obtain ⟨impl, c, s1, s2, hb2, hchk, hh, he, hrw, hi⟩ := Set_ok parse _ n this text _ () t hok
      rw [hb] at hb2
      simp only [Option.some.injEq] at hb2
      subst hb2
      have hqp : q ≠ p := by
        rintro rfl
        have := check_self _ n this _ false hchk ⟨q, hq, hthis⟩
        cases this
      have w0 := ensure_wf s p w hv
      have hf0 : (s.ensure p).find q = none := by
        unfold Sheet.ensure
        split_ifs
        · exact hnone
        · rw [find_alloc_of_ne s p q hqp]; exact hnone
      have w1 := setImpl_wf _ w0 this (.FormulaImpl cache_ f)
      have e1 := extends_eraseDependent _ s1 w1 this _ he
      have e2 := extends_clearReferenced s1 e1.wf this
      have hf2 : (s1.clearReferenced this).find q = none := by
        rw [find_congr s1 _ (by simp), find_congr _ s1 (eraseDependent_spec this _ _ s1 he).1,
          find_congr (s.ensure p) _ (by simp)]
        exact hf0
      obtain ⟨e3, hpres, hval⟩ := rewire_extends _ this hinner _ _ () s2 e2.wf hrw
      have hsome := hpres q hq
      cases hfq : s2.find q with
      | none => rw [hfq] at hsome; cases hsome
      | some a =>
        obtain ⟨d, hd, hd2⟩ := e3.new_empty q a hf2 hfq
        have hsame := InvalidateAllCache_ok n this true s2 () t hi
        have hft : t.find q = some a := by rw [hsame.find]; exact hfq
        obtain ⟨d', hd', _, _, hd3⟩ := hsame.heap_some a d hd
        constructor
        · refine ⟨a, ?_⟩
          unfold Sheet.GetCell
          simp [hval q hq, hft]
        · unfold Sheet.GetText Sheet.textAt
          simp only [hft, hd']
          rw [text_of_uncache_eq hd3, hd2]
          rfl
    · have hv2 : p.IsValid = false := by simpa using hv
      rw [SetCell_invalid parse n p text s hv2] at hok
      cases hok

/-- Witness for C8: SetCell(C1, "=D1+D2") on the empty sheet creates D1. -/
theorem referenced_cell_is_materialized_witness :
    Reach scripted Op.any Sheet.empty ∧
    Sheet.SetCell scripted 20 C1 "=D1+D2" Sheet.empty = .ok () (scenario [.SetCell C1 "=D1+D2"]) ∧
    Sheet.empty.find D1 = none ∧
    (scenario [.SetCell C1 "=D1+D2"]).GetText D1 = some "" :=
  ⟨Reach.init, rfl, rfl,
   (referenced_cell_is_materialized scripted 20 C1 D1 "=D1+D2" none
      ⟨"D1+D2", [D1, D2], evalCells (fun x y => x + y) D1 D2⟩ Sheet.empty
      (scenario [.SetCell C1 "=D1+D2"]) Reach.init rfl rfl (by simp) rfl).2⟩

/-! ## Edge symmetry and ClearCell (C4) -/

/-- C4 at the failing input SetCell(A2, "=A1"), ClearCell(A1): the only cell
left is the one at A2 (address 0); it still has the destroyed cell of A1
(address 1) in its referenced_cells_, no cell exists at that address and no
cell has the cell at A2 among its dependents; a later SetCell(A2, "x") goes
through the stale pointer. -/
theorem clear_cell_leaves_stale_edges :
    (scenario [.SetCell A2 "=A1", .ClearCell A1]).cells_ = [(A2, 0)] ∧
    (scenario [.SetCell A2 "=A1", .ClearCell A1]).refd 0 = [1] ∧
    (scenario [.SetCell A2 "=A1", .ClearCell A1]).deps 0 = [] ∧
    ((scenario [.SetCell A2 "=A1", .ClearCell A1]).heap 1).isSome = false ∧
    Sheet.SetCell scripted 20 A2 "x" (scenario [.SetCell A2 "=A1", .ClearCell A1]) =
      .dangling :=
  ⟨by decide, by decide, by decide, by decide, rfl⟩

end Spreadsheet


namespace Spreadsheet

/-! ## Acyclicity (C1) -/

/-- C1: in every state reached from the empty sheet by SetCell calls, failed
calls included, the relation "the cell at p lists q in GetReferencedCells" has
no cycle. -/
theorem references_acyclic (parse : String → Option FormulaInterface) (s : Sheet)
    (hr : Reach parse Op.isSet s) (p : Position) :
    ¬ Relation.TransGen (RefersTo s) p p :=
  refersTo_acyclic s (reach_set_inv hr) p

/-- Witness for C1: the chain A1 = "2", A2 = "=A1+3", A3 = "=A2*2" followed
by the rejected SetCell(A1, "=A3"). -/
theorem references_acyclic_witness :
    Reach scripted Op.isSet
      (scenario [.SetCell A1 "2", .SetCell A2 "=A1+3", .SetCell A3 "=A2*2", .SetCell A1 "=A3"]) ∧
    ¬ Relation.TransGen
      (RefersTo (scenario [.SetCell A1 "2", .SetCell A2 "=A1+3", .SetCell A3 "=A2*2",
        .SetCell A1 "=A3"])) A3 A3 :=
  ⟨reach_scenario Op.isSet
      [.SetCell A1 "2", .SetCell A2 "=A1+3", .SetCell A3 "=A2*2", .SetCell A1 "=A3"]
      (by intro op hop; simp at hop; rcases hop with h | h | h | h <;> subst h <;> trivial) rfl,
   references_acyclic scripted _
     (reach_scenario Op.isSet
        [.SetCell A1 "2", .SetCell A2 "=A1+3", .SetCell A3 "=A2*2", .SetCell A1 "=A3"]
        (by intro op hop; simp at hop; rcases hop with h | h | h | h <;> subst h <;> trivial) rfl)
     A3⟩

/-! ## Cycle rejection (C2) -/

theorem Set_circular_iff (parse : String → Option FormulaInterface)
    (inner : Position → Sheet → Res Unit)
    (hinner : ∀ p s, p.IsValid = true → s.find p = none →
      inner p s = .timeout ∨ inner p s = .ok () (s.alloc p))
    (fuel this : Nat) (text : String) (s : Sheet) (impl : Impl) (b : Bool)
    (hb : Impl.build parse text = some impl)
    (hc : Cell.HasCircularDependency s fuel this impl = .ok b) :
    (Cell.Set parse inner fuel this text s).exception? = some .CircularDependencyException ↔
      b = true := by
  constructor
  · intro h
    cases hr : Cell.Set parse inner fuel this text s with
    | ok u t => rw [hr] at h; simp [Res.exception?] at h
    | throws e t =>
      rw [hr] at h
      simp only [Res.exception?, Option.some.injEq] at h
      subst h
      obtain ⟨_, h2⟩ := Set_throws parse inner hinner fuel this text s _ t hr
      rcases h2 with ⟨h2, _⟩ | ⟨h2, _⟩ | ⟨_, impl', hb', hc'⟩
      · cases h2
      · cases h2
      · rw [hb] at hb'
        simp only [Option.some.injEq] at hb'
        subst hb'
        rw [hc] at hc'
        simpa using hc'
    | dangling => rw [hr] at h; simp [Res.exception?] at h
    | timeout => rw [hr] at h; simp [Res.exception?] at h
  · intro h
    subst h
    unfold Cell.Set
    simp only [hb, hc]
    rfl

/-- C2: in every state reached from the empty sheet by SetCell calls, with a
parser that keeps its contract and enough fuel for the search, SetCell(p, t)
with p valid and t a formula fails with CircularDependency if and only if some
position q referenced by t is p itself or refers to p through a path of
references; equivalently, if and only if the cell at some referenced position
is reached from the cell at p along dependents. A formula without referenced
positions never fails this way. -/
theorem circular_dependency_iff (parse : String → Option FormulaInterface)
    (hc : ParserContract parse) (s : Sheet) (hr : Reach parse Op.isSet s) (p : Position)
    (hv : p.IsValid = true) (text : String) (f : FormulaInterface)
    (hb : Impl.build parse text = some (.FormulaImpl none f)) (fuel : Nat)
    (hf : s.searchFuel ≤ fuel) :
    ((Sheet.SetCell parse fuel p text s).exception? = some .CircularDependencyException ↔
      ∃ q ∈ f.GetReferencedCells, q = p ∨ Relation.TransGen (RefersTo s) q p) ∧
    ((Sheet.SetCell parse fuel p text s).exception? = some .CircularDependencyException ↔
      ∃ q ∈ f.GetReferencedCells, ∃ this r, (s.ensure p).find p = some this ∧
        (s.ensure p).find q = some r ∧ Relation.ReflTransGen (DepEdge (s.ensure p)) this r) ∧
    (f.GetReferencedCells = [] →
      (Sheet.SetCell parse fuel p text s).exception? ≠ some .CircularDependencyException) := by
  have i := reach_set_inv hr
  have i0 := ensure_inv s i p hv
  obtain ⟨n, rfl⟩ : ∃ n, fuel = n + 1 := ⟨fuel - 1, by unfold Sheet.searchFuel at hf; omega⟩
  obtain ⟨this, hthis, heq⟩ := SetCell_succ parse n p text s hv
  have hlive : ((s.ensure p).heap this).isSome = true := by
    obtain ⟨c, hcell⟩ := wf_find_live _ i0.wf p this hthis
    rw [hcell]; rfl
  have hvalid : ∀ q ∈ (Impl.FormulaImpl none f).GetReferencedCells, q.IsValid = true :=
    build_refs_valid parse hc text _ hb
  have hfuel : searchPotential (s.ensure p) [] + 2 ≤ n := by
    rw [potential_ensure s i.wf p, potential_nil]
    unfold Sheet.searchFuel at hf
    omega
  obtain ⟨b, hchk, hiff⟩ := check_correct (s.ensure p) i0.wf i0.deps_live this hlive
    (.FormulaImpl none f) hvalid n hfuel
  have hA := Set_circular_iff parse _
    (fun p s1 hp hs => SetCell_empty_absent_cases parse n p s1 hp hs) n this text _ _ b hb hchk
  rw [heq, hA, hiff]
  have hsearch : (∃ q ∈ (Impl.FormulaImpl none f).GetReferencedCells, ∃ r,
      (s.ensure p).find q = some r ∧ Relation.ReflTransGen (DepEdge (s.ensure p)) this r) ↔
      ∃ q ∈ f.GetReferencedCells, q = p ∨ Relation.TransGen (RefersTo s) q p := by
    rw [← refersTo_ensure s i.wf p]
    constructor
    · rintro ⟨q, hq, r, hqr, hreach⟩
      exact ⟨q, hq, (reach_iff_refers _ i0 p q this r hthis hqr).1 hreach⟩
    · rintro ⟨q, hq, h⟩
      have hqr : ∃ r, (s.ensure p).find q = some r := by
        rcases h with h | h
        · rw [h]; exact ⟨this, hthis⟩
        · rcases Relation.TransGen.head'_iff.1 h with ⟨_, ⟨a, ha, _⟩, _⟩
          exact ⟨a, ha⟩
      obtain ⟨r, hqr⟩ := hqr
      exact ⟨q, hq, r, hqr, (reach_iff_refers _ i0 p q this r hthis hqr).2 h⟩
  refine ⟨hsearch, ?_, ?_⟩
  · constructor
    · rintro ⟨q, hq, r, hqr, hreach⟩
      exact ⟨q, hq, this, r, hthis, hqr, hreach⟩
    · rintro ⟨q, hq, this', r, hthis', hqr, hreach⟩
      rw [hthis] at hthis'
      simp only [Option.some.injEq] at hthis'
      subst hthis'
      exact ⟨q, hq, r, hqr, hreach⟩
  · intro hnil hex
    obtain ⟨q, hq, _⟩ := hiff.1 (hA.1 hex)
    simp [Impl.GetReferencedCells, hnil] at hq

/-- Witness for C2: after A1 = "2", A2 = "=A1+3", A3 = "=A2*2" the call
SetCell(A1, "=A3") fails with CircularDependency, A3 refers to A1 through A2. -/
theorem circular_dependency_iff_witness :
    ParserContract scripted ∧
    Reach scripted Op.isSet
      (scenario [.SetCell A1 "2", .SetCell A2 "=A1+3", .SetCell A3 "=A2*2"]) ∧
    A1.IsValid = true ∧
    Impl.build scripted "=A3" = some (.FormulaImpl none ⟨"A3", [A3], evalCell id A3⟩) ∧
    (scenario [.SetCell A1 "2", .SetCell A2 "=A1+3", .SetCell A3 "=A2*2"]).searchFuel ≤ 20 ∧
    (Sheet.SetCell scripted 20 A1 "=A3"
      (scenario [.SetCell A1 "2", .SetCell A2 "=A1+3", .SetCell A3 "=A2*2"])).exception? =
        some .CircularDependencyException ∧
    ∃ q ∈ [A3], q = A1 ∨ Relation.TransGen
      (RefersTo (scenario [.SetCell A1 "2", .SetCell A2 "=A1+3", .SetCell A3 "=A2*2"])) q A1 :=
  ⟨scripted_contract,
   reach_scenario Op.isSet [.SetCell A1 "2", .SetCell A2 "=A1+3", .SetCell A3 "=A2*2"]
     (by intro op hop; simp at hop; rcases hop with h | h | h <;> subst h <;> trivial) rfl,
   rfl, rfl, by decide, by decide,
   (circular_dependency_iff scripted scripted_contract
     (scenario [.SetCell A1 "2", .SetCell A2 "=A1+3", .SetCell A3 "=A2*2"])
     (reach_scenario Op.isSet [.SetCell A1 "2", .SetCell A2 "=A1+3", .SetCell A3 "=A2*2"]
       (by intro op hop; simp at hop; rcases hop with h | h | h <;> subst h <;> trivial) rfl)
     A1 rfl "=A3" ⟨"A3", [A3], evalCell id A3⟩ rfl 20 (by decide)).1.1 (by decide)⟩

end Spreadsheet


namespace Spreadsheet

/-! ## Values after SetCell (C5) -/

/-- C5: with a parser that keeps its contract, in every state reached from the
empty sheet by SetCell and GetValue calls, after a successful SetCell(p, t)
GetValue(q) of every formula cell q (in particular of every cell in the
transitive dependents closure of p) returns, given fuel for the depth of the
sheet, the result of evaluating the formula of q against the sheet as it is
after the call, and that result is unique: no value computed before the call
is returned. -/
theorem getValue_after_setCell (parse : String → Option FormulaInterface)
    (hc : ParserContract parse) (s : Sheet) (hr : Reach parse Op.isSetOrGet s) (fuel : Nat)
    (p : Position) (text : String) (t : Sheet)
    (hok : Sheet.SetCell parse fuel p text s = .ok () t)
    (q : Position) (a : Nat) (c : Cell) (cache_ : Option FValue) (f : FormulaInterface)
    (hq : t.find q = some a) (hcell : t.heap a = some c)
    (himpl : c.impl_ = .FormulaImpl cache_ f) (fuel' : Nat)
    (hfuel : t.cells_.length + 1 ≤ fuel') :
    ∃ v t', Sheet.GetValue fuel' q t = .ok (some v.toValue) t' ∧ Evaluates t f.Evaluate v ∧
      ∀ v', Evaluates t f.Evaluate v' → v' = v := by
  have hrt : Reach parse Op.isSetOrGet t :=
    Reach.step s t fuel (.SetCell p text) hr trivial (by simp [Op.run, hok, Res.state?])
  have i := reach_inv hrt
  have hw := reach_formulasWF hc hrt
  have hv : q.IsValid = true := i.wf.keys_valid q (find_some_key t q a hq)
  obtain ⟨ov, t', hg, _, hshow⟩ := GetValue_spec t i hw fuel' q hv hfuel
  cases hshow with
  | null _ hf2 => rw [hq] at hf2; cases hf2
  | empty a2 c2 _ hf2 hc2 hi2 =>
    rw [hq] at hf2; cases hf2
    rw [hcell] at hc2; cases hc2
    rw [himpl] at hi2; cases hi2
  | text a2 c2 _ _ _ hf2 hc2 hi2 =>
    rw [hq] at hf2; cases hf2
    rw [hcell] at hc2; cases hc2
    rw [himpl] at hi2; cases hi2
  | formula a2 c2 _ _ w _ hf2 hc2 hi2 he =>
    rw [hq] at hf2; cases hf2
    rw [hcell] at hc2; cases hc2
    rw [himpl] at hi2; cases hi2
    exact ⟨w, t', hg, he, fun v' hv' => (evaluates_det t _ w he v' hv').symm⟩

theorem toValue_injective (v w : FValue) (h : v.toValue = w.toValue) : v = w := by
  cases v <;> cases w <;> simp_all [FValue.toValue]

/-- Witness for C5: A1 = "2", A2 = "=A1+3", A3 = "=A2*2" gives
GetValue(A3) = 10, which fills the caches; after SetCell(A1, "5"),
GetValue(A3) = 16, the result of evaluating A2*2 against the new sheet. -/
theorem getValue_after_setCell_witness :
    ParserContract scripted ∧
    Reach scripted Op.isSetOrGet
      (scenario [.SetCell A1 "2", .SetCell A2 "=A1+3", .SetCell A3 "=A2*2", .GetValue A3]) ∧
    (Sheet.GetValue 20 A3
      (scenario [.SetCell A1 "2", .SetCell A2 "=A1+3", .SetCell A3 "=A2*2"])).value? =
        some (some (.number 10)) ∧
    Sheet.SetCell scripted 20 A1 "5"
      (scenario [.SetCell A1 "2", .SetCell A2 "=A1+3", .SetCell A3 "=A2*2", .GetValue A3]) =
      .ok () (scenario [.SetCell A1 "2", .SetCell A2 "=A1+3", .SetCell A3 "=A2*2", .GetValue A3,
        .SetCell A1 "5"]) ∧
    (Sheet.GetValue 20 A3
      (scenario [.SetCell A1 "2", .SetCell A2 "=A1+3", .SetCell A3 "=A2*2", .GetValue A3,
        .SetCell A1 "5"])).value? = some (some (.number 16)) ∧
    Evaluates
      (scenario [.SetCell A1 "2", .SetCell A2 "=A1+3", .SetCell A3 "=A2*2", .GetValue A3,
        .SetCell A1 "5"])
      (evalCell (fun x => x * 2) A2) (.number 16) := by
  have hreach : Reach scripted Op.isSetOrGet
      (scenario [.SetCell A1 "2", .SetCell A2 "=A1+3", .SetCell A3 "=A2*2", .GetValue A3]) :=
    reach_scenario Op.isSetOrGet
      [.SetCell A1 "2", .SetCell A2 "=A1+3", .SetCell A3 "=A2*2", .GetValue A3]
      (by intro op hop; simp at hop; rcases hop with h | h | h | h <;> subst h <;> trivial) rfl
  have h16 : (Sheet.GetValue 20 A3
      (scenario [.SetCell A1 "2", .SetCell A2 "=A1+3", .SetCell A3 "=A2*2", .GetValue A3,
        .SetCell A1 "5"])).value? = some (some (.number 16)) := by decide
  have hset : Sheet.SetCell scripted 20 A1 "5"
      (scenario [.SetCell A1 "2", .SetCell A2 "=A1+3", .SetCell A3 "=A2*2", .GetValue A3]) =
      .ok () (scenario [.SetCell A1 "2", .SetCell A2 "=A1+3", .SetCell A3 "=A2*2", .GetValue A3,
        .SetCell A1 "5"]) := rfl
  refine ⟨scripted_contract, hreach, by decide, hset, h16, ?_⟩
  obtain ⟨v, t', hg, hev, _⟩ := getValue_after_setCell scripted scripted_contract
    (scenario [.SetCell A1 "2", .SetCell A2 "=A1+3", .SetCell A3 "=A2*2", .GetValue A3])
    hreach 20 A1 "5"
    (scenario [.SetCell A1 "2", .SetCell A2 "=A1+3", .SetCell A3 "=A2*2", .GetValue A3,
        .SetCell A1 "5"])
    hset A3 2
    ⟨.FormulaImpl none ⟨"A2*2", [A2], evalCell (fun x => x * 2) A2⟩, [], [1]⟩ none
    ⟨"A2*2", [A2], evalCell (fun x => x * 2) A2⟩ rfl rfl rfl 20 (by decide)
  rw [hg] at h16
  simp only [Res.value?, Option.some.injEq] at h16
  have : v = .number 16 := toValue_injective v (.number 16) h16
  rw [this] at hev
  exact hev

/-! ## Text cells (C6) -/

theorem mkText_eq (text : String) :
    Impl.mkText text = .TextImpl (.text (stripApostrophe text)) text := by
  unfold Impl.mkText stripApostrophe
  cases text.data with
  | nil => rfl
  | cons c rest =>
    simp only
    split_ifs <;> rfl

theorem build_text (parse : String → Option FormulaInterface) (text : String)
    (hne : text.data ≠ []) (hnf : ∀ rest, text.data = FORMULA_SIGN :: rest → rest = []) :
    Impl.build parse text = some (Impl.mkText text) := by
  unfold Impl.build
  cases hd : text.data with
  | nil => exact absurd hd hne
  | cons c rest =>
    simp only
    by_cases hcond : rest ≠ [] ∧ c = FORMULA_SIGN
    · exfalso
      exact hcond.1 (hnf rest (by rw [hd, hcond.2]))
    · simp only [hcond, if_false]

theorem SetCell_text_ok (parse : String → Option FormulaInterface) (s : Sheet) (i : s.Inv)
    (p : Position) (hv : p.IsValid = true) (text : String) (hne : text.data ≠ [])
    (hnf : ∀ rest, text.data = FORMULA_SIGN :: rest → rest = []) (fuel : Nat)
    (hf : s.cells_.length + 3 ≤ fuel) :
    ∃ t, Sheet.SetCell parse fuel p text s = .ok () t := by
  obtain ⟨n, rfl⟩ : ∃ n, fuel = n + 1 := ⟨fuel - 1, by omega⟩
  obtain ⟨this, hthis, heq⟩ := SetCell_succ parse n p text s hv
  rw [heq]
  have i0 := ensure_inv s i p hv
  obtain ⟨c, hcell⟩ := wf_find_live _ i0.wf p this hthis
  have hb := build_text parse text hne hnf
  have hrefs := mkText_refs text
  have hlen : (s.ensure p).cells_.length ≤ s.cells_.length + 1 := by
    unfold Sheet.ensure
    split_ifs
    · omega
    · simp
  have hlive : ∀ r ∈ c.referenced_cells_, (((s.ensure p).setImpl this (Impl.mkText text)).heap r).isSome = true := by
    intro r hr
    rw [← refd_of_heap _ this c hcell, i0.symm this r] at hr
    have hl := deps_nonempty_live _ r this hr
    rw [setImpl_heap]
    by_cases hrt : r = this
    · subst hrt
      simp [hcell]
    · simp [hrt, hl]
  obtain ⟨s1, he⟩ := eraseDependent_some this _ _ hlive
  have hno : ∀ q ∈ (Impl.mkText text).GetReferencedCells, ∀ r, (s.ensure p).find q = some r →
      ¬ Relation.ReflTransGen (DepEdge (s.ensure p)) this r := by
    intro q hq
    rw [hrefs] at hq
    cases hq
  have p0 := commit_pinv _ s1 this (Impl.mkText text) c i0 hcell he hno
  have i2 := inv_of_pinv _ this _ [] p0 (fun q => by rw [hrefs])
  have hcells := commit_cells (s.ensure p) s1 this (Impl.mkText text) _ he
  obtain ⟨t, ht⟩ := InvalidateAllCache_terminates _ i2 n this true p0.this_live
    (by rw [hcells]; omega)
  refine ⟨t, ?_⟩
  unfold Cell.Set
  simp only [hb, Cell.HasCircularDependency, hrefs, if_true, hcell, he, rewire]
  exact ht

/-- C6: for a valid position p and a non-empty text t that is not a formula
input. In every state reached by calls of the interface, whenever
SetCell(p, t) returns, GetText(p) is t and GetValue(p) is Text(d), d being t
without one leading apostrophe if it has one. In every state reached without
ClearCell the call does return, given fuel for the size of the sheet. -/
theorem text_cell_text_and_value (parse : String → Option FormulaInterface) (s : Sheet)
    (hr : Reach parse Op.any s) (p : Position) (hv : p.IsValid = true) (text : String)
    (hne : text.data ≠ []) (hnf : ∀ rest, text.data = FORMULA_SIGN :: rest → rest = [])
    (fuel : Nat) :
    (∀ t, Sheet.SetCell parse fuel p text s = .ok () t →
      t.GetText p = some text ∧
      ∀ n, Sheet.GetValue (n + 1) p t = .ok (some (.text (stripApostrophe text))) t) ∧
    (Reach parse Op.isSetOrGet s → s.cells_.length + 3 ≤ fuel →
      ∃ t, Sheet.SetCell parse fuel p text s = .ok () t) := by
  constructor
  · intro t hok
    have w := reach_wf hr
    cases fuel with
    | zero => simp [Sheet.SetCell] at hok
    | succ n =>
      obtain ⟨this, hthis, heq⟩ := SetCell_succ parse n p text s hv
      rw [heq] at hok
      obtain ⟨impl, hb, ⟨d, hd, hd2⟩, hfind, _⟩ := Set_ok_impls parse _
        (fun p s1 hp hs => SetCell_empty_absent_cases parse n p s1 hp hs) n this text _ () t
        (ensure_wf s p w hv) hok
      rw [build_text parse text hne hnf] at hb
      simp only [Option.some.injEq] at hb
      subst hb
      rw [mkText_eq] at hd2
      have hdi := uncache_eq_text _ _ _ hd2
      have hft := hfind p this hthis
      constructor
      · simp [Sheet.GetText, hft, Sheet.textAt, hd, hdi, Impl.GetText]
      · intro n
        unfold Sheet.GetValue
        simp only [hv, if_true, hft, hd, hdi]
  · intro hr2 hf
    exact SetCell_text_ok parse s (reach_inv hr2) p hv text hne hnf fuel hf

/-- Witness for C6: SetCell(B2, "'=1+2") on the empty sheet. -/
theorem text_cell_text_and_value_witness :
    Reach scripted Op.any Sheet.empty ∧ B2.IsValid = true ∧
    Sheet.SetCell scripted 3 B2 (String.mk [ESCAPE_SIGN, '=', '1', '+', '2']) Sheet.empty =
      .ok () (scenario [.SetCell B2 (String.mk [ESCAPE_SIGN, '=', '1', '+', '2'])]) ∧
    (scenario [.SetCell B2 (String.mk [ESCAPE_SIGN, '=', '1', '+', '2'])]).GetText B2 =
      some (String.mk [ESCAPE_SIGN, '=', '1', '+', '2']) ∧
    Sheet.GetValue 1 B2 (scenario [.SetCell B2 (String.mk [ESCAPE_SIGN, '=', '1', '+', '2'])]) =
      .ok (some (.text "=1+2"))
        (scenario [.SetCell B2 (String.mk [ESCAPE_SIGN, '=', '1', '+', '2'])]) :=
  ⟨Reach.init, rfl, rfl,
   ((text_cell_text_and_value scripted Sheet.empty Reach.init B2 rfl
      (String.mk [ESCAPE_SIGN, '=', '1', '+', '2']) (by simp)
      (by intro rest h; simp [ESCAPE_SIGN, FORMULA_SIGN] at h) 3).1 _ rfl).1,
   ((text_cell_text_and_value scripted Sheet.empty Reach.init B2 rfl
      (String.mk [ESCAPE_SIGN, '=', '1', '+', '2']) (by simp)
      (by intro rest h; simp [ESCAPE_SIGN, FORMULA_SIGN] at h) 3).1 _ rfl).2 0⟩

end Spreadsheet


namespace Spreadsheet

/-! ## Sheet::ClearCell -/

theorem find_filter_ne (l : List (Position × Nat)) (p q : Position) (h : q ≠ p) :
    (l.filter (fun e => decide (e.1 ≠ p))).find? (fun e => decide (e.1 = q)) =
      l.find? (fun e => decide (e.1 = q)) := by
  induction l with
  | nil => rfl
  | cons e rest ih =>
    by_cases he : e.1 = p
    · have h1 : decide (e.1 ≠ p) = false := by simp [he]
      have h2 : decide (e.1 = q) = false := by
        simp only [decide_eq_false_iff_not]
        intro h3
        exact h (h3.symm.trans he)
      simp only [List.filter_cons, h1, Bool.false_eq_true, if_false, List.find?_cons, h2]
      exact ih
    · have h1 : decide (e.1 ≠ p) = true := by simp [he]
      simp only [List.filter_cons, h1, if_true, List.find?_cons]
      cases decide (e.1 = q)
      · exact ih
      · rfl

theorem find_filter_self (l : List (Position × Nat)) (p : Position) :
    (l.filter (fun e => decide (e.1 ≠ p))).find? (fun e => decide (e.1 = p)) = none := by
  apply List.find?_eq_none.2
  intro e he
  have := (List.mem_filter.1 he).2
  simpa using this

theorem ClearCell_ok (s : Sheet) (p : Position) (hv : p.IsValid = true) :
    ∃ t, s.ClearCell p = .ok () t ∧ t.find p = none ∧ (∀ q, q ≠ p → t.find q = s.find q) ∧
      (∀ x, t.heap x = s.heap x ∨ s.find p = some x) ∧ (s.find p = none → t = s) := by
  unfold Sheet.ClearCell
  simp only [hv, if_true]
  cases hf : s.find p with
  | none =>
    refine ⟨s, rfl, hf, fun _ _ => rfl, fun _ => Or.inl rfl, fun _ => rfl⟩
  | some a =>
    refine ⟨_, rfl, ?_, ?_, ?_, ?_⟩
    · unfold Sheet.find
      simp only [find_filter_self]
    · intro q hq
      unfold Sheet.find
      simp only [find_filter_ne s.cells_ p q hq]
    · intro x
      by_cases hx : x = a
      · right; rw [hx]
      · left; simp [hx]
    · intro h; cases h

/-! ## Bounds on the printable size -/

theorem printable_le (s : Sheet) (w : s.WF) :
    0 ≤ s.GetPrintableSize.rows ∧ s.GetPrintableSize.rows ≤ MAX_ROWS ∧
    0 ≤ s.GetPrintableSize.cols ∧ s.GetPrintableSize.cols ≤ MAX_COLS := by
  have hnn : ∀ e ∈ s.cells_, 0 ≤ e.1.row ∧ 0 ≤ e.1.col := by
    intro e he
    exact valid_nonneg _ (w.keys_valid _ (List.mem_map.2 ⟨e, he, rfl⟩))
  have hlt : ∀ e ∈ s.cells_, e.1.row < MAX_ROWS ∧ e.1.col < MAX_COLS := by
    intro e he
    have := w.keys_valid _ (List.mem_map.2 ⟨e, he, rfl⟩)
    unfold Position.IsValid at this
    simp only [Bool.and_eq_true, decide_eq_true_eq] at this
    exact ⟨this.1.2, this.2⟩
  obtain ⟨h1, _, h3, h4, _⟩ := printable_fold_spec s.textAt s.cells_ ⟨0, 0⟩ hnn
  simp only at h1 h3 h4
  unfold Sheet.GetPrintableSize
  refine ⟨h1.1, ?_, h1.2, ?_⟩
  · rcases h3 with h3 | ⟨e, he, _, h3⟩
    · rw [h3]; unfold MAX_ROWS; omega
    · rw [h3]; have := (hlt e he).1; omega
  · rcases h4 with h4 | ⟨e, he, _, h4⟩
    · rw [h4]; unfold MAX_COLS; omega
    · rw [h4]; have := (hlt e he).2; omega

end Spreadsheet


namespace Spreadsheet

/-! ## The cache is not read (C11) -/

/-- C11 at the failing input A1 = "2", A2 = "=A1", GetValue(A2), ClearCell(A1),
GetValue(A2): the cell at A2 (address 1) holds the cached value 2, and
GetValue(A2) returns 0, the result of a new evaluation, not the cached value;
the cache still holds 2 afterwards. -/
theorem getValue_ignores_cache :
    (scenario [.SetCell A1 "2", .SetCell A2 "=A1", .GetValue A2, .ClearCell A1]).find A2 =
      some 1 ∧
    (scenario [.SetCell A1 "2", .SetCell A2 "=A1", .GetValue A2, .ClearCell A1]).cacheAt 1 =
      some (.number 2) ∧
    (Sheet.GetValue 20 A2
      (scenario [.SetCell A1 "2", .SetCell A2 "=A1", .GetValue A2, .ClearCell A1])).value? =
      some (some (.number 0)) ∧
    (scenario [.SetCell A1 "2", .SetCell A2 "=A1", .GetValue A2, .ClearCell A1,
      .GetValue A2]).cacheAt 1 = some (.number 2) :=
  ⟨by decide, by decide, by decide, by decide⟩

/-! ## A cycle after ClearCell (C12) -/

/-- C12 at the failing input SetCell(A2, "=A1"), ClearCell(A1),
SetCell(A1, "=A2"): the last call succeeds, the cell at A1 references A2 and
the cell at A2 references A1, so the references have a cycle; GetValue(A1)
does not return within the fuel. -/
theorem cycle_after_clearCell :
    Sheet.SetCell scripted 20 A1 "=A2" (scenario [.SetCell A2 "=A1", .ClearCell A1]) =
      .ok () (scenario [.SetCell A2 "=A1", .ClearCell A1, .SetCell A1 "=A2"]) ∧
    RefersTo (scenario [.SetCell A2 "=A1", .ClearCell A1, .SetCell A1 "=A2"]) A1 A2 ∧
    RefersTo (scenario [.SetCell A2 "=A1", .ClearCell A1, .SetCell A1 "=A2"]) A2 A1 ∧
    Relation.TransGen
      (RefersTo (scenario [.SetCell A2 "=A1", .ClearCell A1, .SetCell A1 "=A2"])) A1 A1 ∧
    Sheet.GetValue 6 A1 (scenario [.SetCell A2 "=A1", .ClearCell A1, .SetCell A1 "=A2"]) =
      .timeout := by
  have h12 : RefersTo (scenario [.SetCell A2 "=A1", .ClearCell A1, .SetCell A1 "=A2"]) A1 A2 :=
    ⟨2, by decide, by decide⟩
  have h21 : RefersTo (scenario [.SetCell A2 "=A1", .ClearCell A1, .SetCell A1 "=A2"]) A2 A1 :=
    ⟨0, by decide, by decide⟩
  exact ⟨rfl, h12, h21, Relation.TransGen.tail (Relation.TransGen.single h12) h21, rfl⟩

/-! ## ClearCell (C13) -/

theorem GetText_congr (s t : Sheet) (q : Position) (hf : t.find q = s.find q)
    (hh : ∀ a, s.find q = some a → t.heap a = s.heap a) : t.GetText q = s.GetText q := by
  unfold Sheet.GetText
  rw [hf]
  cases hq : s.find q with
  | none => rfl
  | some a =>
    simp only [Sheet.textAt, hh a hq]

/-- C13: in every state reached by calls of the interface and for every valid
position p, ClearCell(p) returns; afterwards GetCell(p) is null, at every
other position the same cell is found as before, with the same text; and if
no cell existed at p the sheet is unchanged. -/
theorem clearCell_effect (parse : String → Option FormulaInterface) (s : Sheet)
    (hr : Reach parse Op.any s) (p : Position) (hv : p.IsValid = true) :
    ∃ t, s.ClearCell p = .ok () t ∧ t.GetCell p = .ok none ∧
      (∀ q, q ≠ p → t.GetCell q = s.GetCell q ∧ t.find q = s.find q ∧
        t.GetText q = s.GetText q) ∧
      (s.find p = none → t = s) := by
  have w := reach_wf hr
  obtain ⟨t, hok, hp, hq, hheap, hnone⟩ := ClearCell_ok s p hv
  refine ⟨t, hok, ?_, ?_, hnone⟩
  · simp [Sheet.GetCell, hv, hp]
  · intro q hqp
    refine ⟨?_, hq q hqp, ?_⟩
    · simp [Sheet.GetCell, hq q hqp]
    · apply GetText_congr s t q (hq q hqp)
      intro a ha
      rcases hheap a with h | h
      · exact h
      · exact absurd (addr_unique s w.addrs_nodup q p a ha h) hqp

/-- Witness for C13: ClearCell(A1) after A1 = "2", A2 = "=A1+3". -/
theorem clearCell_effect_witness :
    Reach scripted Op.any (scenario [.SetCell A1 "2", .SetCell A2 "=A1+3"]) ∧
    A1.IsValid = true ∧
    (scenario [.SetCell A1 "2", .SetCell A2 "=A1+3"]).ClearCell A1 =
      .ok () (scenario [.SetCell A1 "2", .SetCell A2 "=A1+3", .ClearCell A1]) ∧
    (scenario [.SetCell A1 "2", .SetCell A2 "=A1+3", .ClearCell A1]).GetText A2 =
      some "=A1+3" ∧
    ∃ t, (scenario [.SetCell A1 "2", .SetCell A2 "=A1+3"]).ClearCell A1 = .ok () t ∧
      t.GetCell A1 = .ok none ∧
      (∀ q, q ≠ A1 → t.GetCell q = (scenario [.SetCell A1 "2", .SetCell A2 "=A1+3"]).GetCell q ∧
        t.find q = (scenario [.SetCell A1 "2", .SetCell A2 "=A1+3"]).find q ∧
        t.GetText q = (scenario [.SetCell A1 "2", .SetCell A2 "=A1+3"]).GetText q) ∧
      ((scenario [.SetCell A1 "2", .SetCell A2 "=A1+3"]).find A1 = none →
        t = scenario [.SetCell A1 "2", .SetCell A2 "=A1+3"]) :=
  ⟨reach_scenario Op.any [.SetCell A1 "2", .SetCell A2 "=A1+3"] (fun _ _ => trivial) rfl,
   rfl, rfl, by decide,
   clearCell_effect scripted (scenario [.SetCell A1 "2", .SetCell A2 "=A1+3"])
     (reach_scenario Op.any [.SetCell A1 "2", .SetCell A2 "=A1+3"] (fun _ _ => trivial) rfl)
     A1 rfl⟩

/-! ## A failed SetCell on an absent position (C18) -/

/-- C18: in every state reached by calls of the interface, for a valid position
p without a cell, a SetCell(p, t) that throws (FormulaException,
CircularDependency or any other exception) leaves the sheet with one new cell
at p: GetCell(p) changes from null to non-null, the new cell has empty text
and empty neighbour sets, every other position finds the same cell with the
same text, every cell that existed is unchanged and GetPrintableSize is
unchanged. -/
theorem failed_setCell_on_absent (parse : String → Option FormulaInterface) (s : Sheet)
    (hr : Reach parse Op.any s) (fuel : Nat) (p : Position) (text : String) (e : Exception)
    (t : Sheet) (hv : p.IsValid = true) (habs : s.find p = none)
    (h : Sheet.SetCell parse fuel p text s = .throws e t) :
    s.GetCell p = .ok none ∧ t.GetCell p = .ok (some s.brk) ∧ t.GetText p = some "" ∧
    t.deps s.brk = [] ∧ t.refd s.brk = [] ∧
    (∀ q, q ≠ p → t.find q = s.find q ∧ t.GetText q = s.GetText q) ∧
    (∀ a c, s.heap a = some c → t.heap a = some c) ∧
    t.GetPrintableSize = s.GetPrintableSize := by
  have w := reach_wf hr
  have ht : t = s.alloc p := by
    rcases SetCell_throws parse fuel p text s e t h with ⟨h1, _, _⟩ | ⟨_, h2, _⟩
    · rw [hv] at h1; cases h1
    · rw [h2, ensure_of_none s p habs]
  subst ht
  have hold : ∀ a c, s.heap a = some c → (s.alloc p).heap a = some c := by
    intro a c hc
    rw [alloc_heap]
    simp [Nat.ne_of_lt (wf_live_lt s w a c hc), hc]
  refine ⟨by simp [Sheet.GetCell, hv, habs], by simp [Sheet.GetCell, hv, find_alloc_self s p habs],
    ?_, ?_, ?_, ?_, hold, printable_alloc s w p⟩
  · simp [Sheet.GetText, find_alloc_self s p habs, textAt_alloc_new]
  · simp [Sheet.deps]
  · simp [Sheet.refd]
  · intro q hq
    refine ⟨find_alloc_of_ne s p q hq, ?_⟩
    apply GetText_congr s _ q (find_alloc_of_ne s p q hq)
    intro a ha
    obtain ⟨c, hc⟩ := wf_find_live s w q a ha
    rw [hold a c hc, hc]

/-- Witness for C18: the self-reference SetCell(A2, "=A2") after A1 = "2". -/
theorem failed_setCell_on_absent_witness :
    Reach scripted Op.any (scenario [.SetCell A1 "2"]) ∧ A2.IsValid = true ∧
    (scenario [.SetCell A1 "2"]).find A2 = none ∧
    Sheet.SetCell scripted 20 A2 "=A2" (scenario [.SetCell A1 "2"]) =
      .throws .CircularDependencyException (scenario [.SetCell A1 "2", .SetCell A2 "=A2"]) ∧
    (scenario [.SetCell A1 "2", .SetCell A2 "=A2"]).GetText A2 = some "" ∧
    (scenario [.SetCell A1 "2", .SetCell A2 "=A2"]).GetPrintableSize =
      (scenario [.SetCell A1 "2"]).GetPrintableSize :=
  ⟨reach_scenario Op.any [.SetCell A1 "2"] (fun _ _ => trivial) rfl, rfl, rfl, rfl,
   (failed_setCell_on_absent scripted (scenario [.SetCell A1 "2"])
      (reach_scenario Op.any [.SetCell A1 "2"] (fun _ _ => trivial) rfl) 20 A2 "=A2"
      .CircularDependencyException (scenario [.SetCell A1 "2", .SetCell A2 "=A2"]) rfl rfl
      rfl).2.2.1,
   (failed_setCell_on_absent scripted (scenario [.SetCell A1 "2"])
      (reach_scenario Op.any [.SetCell A1 "2"] (fun _ _ => trivial) rfl) 20 A2 "=A2"
      .CircularDependencyException (scenario [.SetCell A1 "2", .SetCell A2 "=A2"]) rfl rfl
      rfl).2.2.2.2.2.2.2⟩

/-! ## Termination (C17) -/

theorem check_total (s : Sheet) (w : s.WF)
    (hl : ∀ a b, b ∈ s.deps a → (s.heap b).isSome = true) (this : Nat)
    (hthis : (s.heap this).isSome = true) (impl : Impl) (fuel : Nat)
    (hf : searchPotential s [] + 2 ≤ fuel) :
    (∃ b, Cell.HasCircularDependency s fuel this impl = .ok b) ∨
      Cell.HasCircularDependency s fuel this impl = .throws .InvalidPositionException := by
  by_cases hvalid : ∀ q ∈ impl.GetReferencedCells, q.IsValid = true
  · obtain ⟨b, hb, _⟩ := check_correct s w hl this hthis impl hvalid fuel hf
    exact Or.inl ⟨b, hb⟩
  · right
    have hne : impl.GetReferencedCells ≠ [] := by
      intro h
      apply hvalid
      rw [h]
      intro q hq
      cases hq
    unfold Cell.HasCircularDependency
    simp only [hne, if_false]
    cases hc : collectReferenced s impl.GetReferencedCells [] with
    | none => rfl
    | some r => exact absurd (collectReferenced_some s _ _ r hc).1 hvalid

/-- C17: in every state reached from the empty sheet by SetCell and GetValue
calls, and in every state that differs from it at most in cached values (the
state in which Cell::Set starts the invalidation), InvalidateAllCache on any
cell, with or without the force flag, returns when the fuel exceeds the number
of cells, and the search of HasCircularDependency from any cell returns a
verdict, or throws InvalidPosition for an invalid referenced position, when
the fuel exceeds the number of dependents edges by three. -/
theorem invalidation_and_search_terminate (parse : String → Option FormulaInterface) (s : Sheet)
    (hr : Reach parse Op.isSetOrGet s) (a : Nat) (ha : (s.heap a).isSome = true) :
    (∀ s1 flag fuel, SameUpToCache s s1 → s.cells_.length + 1 ≤ fuel →
      ∃ t, Cell.InvalidateAllCache fuel a flag s1 = .ok () t) ∧
    (∀ impl fuel, s.searchFuel ≤ fuel →
      (∃ b, Cell.HasCircularDependency s fuel a impl = .ok b) ∨
        Cell.HasCircularDependency s fuel a impl = .throws .InvalidPositionException) := by
  have i := reach_inv hr
  constructor
  · intro s1 flag fuel hs hf
    have hs1 : s1.cells_.length = s.cells_.length := by rw [hs.1]
    exact InvalidateAllCache_terminates s1 (hs.inv i) fuel a flag
      (by rw [hs.isSome]; exact ha) (by omega)
  · intro impl fuel hf
    apply check_total s i.wf i.deps_live a ha impl fuel
    rw [potential_nil]
    unfold Sheet.searchFuel at hf
    omega

/-- Witness for C17: the cell of A1 in the chain A1 = "2", A2 = "=A1+3",
A3 = "=A2*2" after GetValue(A3). -/
theorem invalidation_and_search_terminate_witness :
    Reach scripted Op.isSetOrGet
      (scenario [.SetCell A1 "2", .SetCell A2 "=A1+3", .SetCell A3 "=A2*2", .GetValue A3]) ∧
    ((scenario [.SetCell A1 "2", .SetCell A2 "=A1+3", .SetCell A3 "=A2*2",
      .GetValue A3]).heap 0).isSome = true ∧
    ∃ t, Cell.InvalidateAllCache 4 0 true
      (scenario [.SetCell A1 "2", .SetCell A2 "=A1+3", .SetCell A3 "=A2*2", .GetValue A3]) =
        .ok () t :=
  ⟨reach_scenario Op.isSetOrGet
      [.SetCell A1 "2", .SetCell A2 "=A1+3", .SetCell A3 "=A2*2", .GetValue A3]
      (by intro op hop; simp at hop; rcases hop with h | h | h | h <;> subst h <;> trivial) rfl,
   by decide,
   (invalidation_and_search_terminate scripted
      (scenario [.SetCell A1 "2", .SetCell A2 "=A1+3", .SetCell A3 "=A2*2", .GetValue A3])
      (reach_scenario Op.isSetOrGet
        [.SetCell A1 "2", .SetCell A2 "=A1+3", .SetCell A3 "=A2*2", .GetValue A3]
        (by intro op hop; simp at hop; rcases hop with h | h | h | h <;> subst h <;> trivial)
        rfl)
      0 (by decide)).1 _ true 4 (SameUpToCache.refl _) (by decide)⟩

end Spreadsheet


namespace Spreadsheet

/-! ## Sheet::PrintTexts -/

theorem joinWith_concat (sep : Char) (y : List Char) :
    ∀ (xs : List (List Char)), xs ≠ [] →
      joinWith sep (xs ++ [y]) = joinWith sep xs ++ sep :: y := by
  intro xs
  induction xs with
  | nil => intro h; exact absurd rfl h
  | cons x rest ih =>
    intro _
    cases rest with
    | nil => simp [joinWith]
    | cons z rest2 =>
      have h1 := ih (by simp)
      show x ++ sep :: joinWith sep ((z :: rest2) ++ [y]) =
        (x ++ sep :: joinWith sep (z :: rest2)) ++ sep :: y
      rw [h1]
      simp

theorem intRange_succ (n : Nat) : intRange ((n + 1 : Nat) : Int) = intRange (n : Int) ++ [(n : Int)] := by
  simp [intRange, List.range_succ]

theorem mem_intRange {n x : Int} (h : x ∈ intRange n) : 0 ≤ x ∧ x < n := by
  simp only [intRange, List.mem_map, List.mem_range] at h
  obtain ⟨k, hk, rfl⟩ := h
  have : (k : Int) < n := by omega
  exact ⟨Int.ofNat_nonneg k, this⟩

theorem joinWith_range_nat (sep : Char) (f : Int → List Char) :
    ∀ n : Nat, ((intRange (n : Int)).map
        (fun col => (if 0 < col then [sep] else []) ++ f col)).flatten =
      joinWith sep ((intRange (n : Int)).map f) := by
  intro n
  induction n with
  | zero => rfl
  | succ n ih =>
    rw [intRange_succ, List.map_append, List.map_append, List.flatten_append, ih]
    cases n with
    | zero => simp [joinWith, intRange]
    | succ m =>
      have hne : (intRange ((m + 1 : Nat) : Int)).map f ≠ [] := by
        rw [intRange_succ]; simp
      simp only [List.map_cons, List.map_nil]
      rw [joinWith_concat sep _ _ hne]
      have hpos : (0 : Int) < ((m + 1 : Nat) : Int) := by omega
      simp [hpos]

theorem joinWith_range (sep : Char) (f : Int → List Char) (n : Int) :
    ((intRange n).map (fun col => (if 0 < col then [sep] else []) ++ f col)).flatten =
      joinWith sep ((intRange n).map f) := by
  have h : intRange n = intRange ((n.toNat : Nat) : Int) := by
    unfold intRange
    rw [Int.toNat_ofNat]
  rw [h]
  exact joinWith_range_nat sep f n.toNat

theorem printCell_eq (s : Sheet) (row col : Int) (out : List Char)
    (hv : (⟨row, col⟩ : Position).IsValid = true) :
    s.printCell row col out =
      .ok (out ++ ((if 0 < col then [TAB] else []) ++ s.cellText row col)) := by
  unfold Sheet.printCell
  simp only [Sheet.GetCell, hv, if_true]
  cases hf : s.find ⟨row, col⟩ with
  | none =>
    have : s.cellText row col = [] := by simp [Sheet.cellText, Sheet.GetText, hf]
    by_cases hc : 0 < col <;> simp [hc, this]
  | some a =>
    have : s.cellText row col = (s.textAt a).data := by
      simp [Sheet.cellText, Sheet.GetText, hf]
    by_cases hc : 0 < col <;> simp [hc, this]

theorem printCols_eq (s : Sheet) (row : Int) :
    ∀ (l : List Int) (out : List Char),
      (∀ col ∈ l, (⟨row, col⟩ : Position).IsValid = true) →
      s.printCols row l out = .ok (out ++
        (l.map (fun col => (if 0 < col then [TAB] else []) ++ s.cellText row col)).flatten) := by
  intro l
  induction l with
  | nil => intro out _; rw [Sheet.printCols]; simp
  | cons col rest ih =>
    intro out h
    have hv := h col (List.mem_cons_self _ _)
    have hrest : ∀ c ∈ rest, (⟨row, c⟩ : Position).IsValid = true :=
      fun c hc => h c (List.mem_cons_of_mem _ hc)
    rw [Sheet.printCols, printCell_eq s row col out hv]
    simp only
    rw [ih _ hrest]
    simp

theorem printRows_eq (s : Sheet) (cols : Int) :
    ∀ (l : List Int) (out : List Char),
      (∀ row ∈ l, ∀ col ∈ intRange cols, (⟨row, col⟩ : Position).IsValid = true) →
      s.printRows cols l out = .ok (out ++
        (l.map (fun row => s.rowText cols row ++ [NEWLINE])).flatten) := by
  intro l
  induction l with
  | nil => intro out _; rw [Sheet.printRows]; simp
  | cons row rest ih =>
    intro out h
    rw [Sheet.printRows]
    rw [printCols_eq s row _ out (h row (List.mem_cons_self _ _))]
    simp only
    rw [ih _ (fun r hr => h r (List.mem_cons_of_mem _ hr)), joinWith_range]
    simp [Sheet.rowText]

theorem printTexts_eq (s : Sheet) (w : s.WF) : s.PrintTexts = .ok s.textsTerminated := by
  unfold Sheet.PrintTexts Sheet.textsTerminated
  obtain ⟨h1, h2, h3, h4⟩ := printable_le s w
  rw [printRows_eq]
  · simp
  · intro row hrow col hcol
    have hr := mem_intRange hrow
    have hc := mem_intRange hcol
    unfold Position.IsValid
    simp only [Bool.and_eq_true, decide_eq_true_eq]
    refine ⟨⟨⟨by omega, by omega⟩, ?_⟩, ?_⟩ <;> omega

end Spreadsheet


namespace Spreadsheet

/-! ## PrintTexts (C14) -/

/-- C14 (as amended): in every state reached by calls of the interface the
text written by PrintTexts is, for the rows 0..rows-1 of the printable size in
order, the row followed by a newline, where a row is the GetText of the cells
in the columns 0..cols-1 in order with a single tab between neighbours and a
missing cell contributing the empty text; when the printable size has no rows
nothing is written. -/
theorem printTexts_output (parse : String → Option FormulaInterface) (s : Sheet)
    (hr : Reach parse Op.any s) :
    s.PrintTexts = .ok s.textsTerminated ∧
    (s.GetPrintableSize.rows = 0 → s.PrintTexts = .ok []) := by
  have h := printTexts_eq s (reach_wf hr)
  refine ⟨h, ?_⟩
  intro h0
  rw [h]
  have hnil : intRange 0 = [] := rfl
  simp [Sheet.textsTerminated, h0, hnil]

/-- Witness for C14 as amended: A1 = "x", B2 = "yy" prints two rows, each
followed by a newline. -/
theorem printTexts_output_witness :
    Reach scripted Op.any (scenario [.SetCell A1 "x", .SetCell B2 "yy"]) ∧
    (scenario [.SetCell A1 "x", .SetCell B2 "yy"]).PrintTexts =
      .ok ['x', TAB, NEWLINE, TAB, 'y', 'y', NEWLINE] ∧
    (scenario [.SetCell A1 "x", .SetCell B2 "yy"]).PrintTexts =
      .ok (scenario [.SetCell A1 "x", .SetCell B2 "yy"]).textsTerminated :=
  ⟨reach_scenario Op.any [.SetCell A1 "x", .SetCell B2 "yy"] (fun _ _ => trivial) rfl, rfl,
   (printTexts_output scripted (scenario [.SetCell A1 "x", .SetCell B2 "yy"])
      (reach_scenario Op.any [.SetCell A1 "x", .SetCell B2 "yy"] (fun _ _ => trivial) rfl)).1⟩

/-- Counterexample to C14 as stated: after SetCell(A1, "x") PrintTexts writes
"x" and a newline, which is not the single row "x" with newlines between
rows only. -/
theorem printTexts_ends_with_newline :
    (scenario [.SetCell A1 "x"]).PrintTexts = .ok ['x', NEWLINE] ∧
    (scenario [.SetCell A1 "x"]).textsSeparated = ['x'] ∧
    (scenario [.SetCell A1 "x"]).PrintTexts ≠ .ok (scenario [.SetCell A1 "x"]).textsSeparated := by
  have h1 : (scenario [.SetCell A1 "x"]).PrintTexts = .ok ['x', NEWLINE] := rfl
  have h2 : (scenario [.SetCell A1 "x"]).textsSeparated = ['x'] := by decide
  refine ⟨h1, h2, ?_⟩
  rw [h1, h2]
  intro h
  simp at h

end Spreadsheet


namespace Spreadsheet

/-! ## The frame of Cell::Set -/

theorem rewire_keys (inner : Position → Sheet → Res Unit) (this : Nat)
    (hinner : ∀ p s, p.IsValid = true → s.find p = none →
      inner p s = .timeout ∨ inner p s = .ok () (s.alloc p)) :
    ∀ (l : List Position) (s : Sheet) (u : Unit) (t : Sheet),
      rewire inner this l s = .ok u t →
      ∀ q, (t.find q).isSome = true → (s.find q).isSome = true ∨ q ∈ l := by
  intro l
  induction l with
  | nil =>
    intro s u t h q hq
    simp only [rewire, Res.ok.injEq] at h
    rw [h.2]
    exact Or.inl hq
  | cons pos rest ih =>
    intro s u t h q hq
    rw [rewire] at h
    by_cases hv : pos.IsValid = true
    · simp only [hv, if_true] at h
      cases hf : s.find pos with
      | some ref =>
        simp only [hf] at h
        cases hl : s.link this ref with
        | none => simp [hl] at h
        | some s1 =>
          simp only [hl] at h
          rcases ih s1 u t h q hq with h1 | h1
          · rw [link_find s s1 this ref hl] at h1
            exact Or.inl h1
          · exact Or.inr (List.mem_cons_of_mem _ h1)
      | none =>
        simp only [hf] at h
        rcases hinner pos s hv hf with hi | hi
        · simp [hi] at h
        · simp only [hi] at h
          cases hf1 : (s.alloc pos).find pos with
          | none => simp [hf1] at h
          | some ref =>
            simp only [hf1] at h
            cases hl : (s.alloc pos).link this ref with
            | none => simp [hl] at h
            | some s2 =>
              simp only [hl] at h
              rcases ih s2 u t h q hq with h1 | h1
              · rw [link_find _ s2 this ref hl] at h1
                by_cases hqp : q = pos
                · exact Or.inr (hqp ▸ List.mem_cons_self _ _)
                · rw [find_alloc_of_ne s pos q hqp] at h1
                  exact Or.inl h1
              · exact Or.inr (List.mem_cons_of_mem _ h1)
    · simp [hv] at h

theorem rewire_deps (inner : Position → Sheet → Res Unit) (this : Nat)
    (hinner : ∀ p s, p.IsValid = true → s.find p = none →
      inner p s = .timeout ∨ inner p s = .ok () (s.alloc p)) :
    ∀ (l : List Position) (s : Sheet) (u : Unit) (t : Sheet), s.WF →
      rewire inner this l s = .ok u t →
      ∀ x d, (d ∈ s.deps x → d ∈ t.deps x) ∧ (d ∈ t.deps x → d ∈ s.deps x ∨ d = this) := by
  intro l
  induction l with
  | nil =>
    intro s u t _ h x d
    simp only [rewire, Res.ok.injEq] at h
    rw [h.2]
    exact ⟨fun h => h, fun h => Or.inl h⟩
  | cons pos rest ih =>
    intro s u t w h x d
    rw [rewire] at h
    by_cases hv : pos.IsValid = true
    · simp only [hv, if_true] at h
      cases hf : s.find pos with
      | some ref =>
        simp only [hf] at h
        cases hl : s.link this ref with
        | none => simp [hl] at h
        | some s1 =>
          simp only [hl] at h
          have w1 := (extends_link s s1 w this ref hl).wf
          have h1 := ih s1 u t w1 h x d
          have h2 := link_deps s s1 this ref hl x d
          constructor
          · intro hd
            exact h1.1 (h2.2 (Or.inl hd))
          · intro hd
            rcases h1.2 hd with h3 | h3
            · rcases h2.1 h3 with h4 | h4
              · exact Or.inl h4
              · exact Or.inr h4.2
            · exact Or.inr h3
      | none =>
        simp only [hf] at h
        rcases hinner pos s hv hf with hi | hi
        · simp [hi] at h
        · simp only [hi] at h
          cases hf1 : (s.alloc pos).find pos with
          | none => simp [hf1] at h
          | some ref =>
            simp only [hf1] at h
            cases hl : (s.alloc pos).link this ref with
            | none => simp [hl] at h
            | some s2 =>
              simp only [hl] at h
              have w0 := alloc_wf s pos w hv hf
              have w1 := (extends_link _ s2 w0 this ref hl).wf
              have h1 := ih s2 u t w1 h x d
              have h2 := link_deps _ s2 this ref hl x d
              rw [alloc_deps s w pos x] at h2
              constructor
              · intro hd
                exact h1.1 (h2.2 (Or.inl hd))
              · intro hd
                rcases h1.2 hd with h3 | h3
                · rcases h2.1 h3 with h4 | h4
                  · exact Or.inl h4
                  · exact Or.inr h4.2
                · exact Or.inr h3
    · simp [hv] at h

theorem Set_ok_extends (parse : String → Option FormulaInterface)
    (inner : Position → Sheet → Res Unit)
    (hinner : ∀ p s, p.IsValid = true → s.find p = none →
      inner p s = .timeout ∨ inner p s = .ok () (s.alloc p))
    (fuel this : Nat) (text : String) (s : Sheet) (u : Unit) (t : Sheet) (w : s.WF)
    (h : Cell.Set parse inner fuel this text s = .ok u t) :
    ∃ impl, Impl.build parse text = some impl ∧ Extends (s.setImpl this impl) t ∧
      (∀ q, (t.find q).isSome = true → (s.find q).isSome = true ∨ q ∈ impl.GetReferencedCells) ∧
      (∀ d, d ∈ s.deps this → d ≠ this → d ∈ t.deps this) ∧
      (∀ d, d ∈ t.deps this → d ∈ s.deps this ∨ d = this) := by
  obtain ⟨impl, c, s1, s2, hb, _, hc, he, hr, hi⟩ := Set_ok parse inner fuel this text s u t h
  refine ⟨impl, hb, ?_⟩
  have w0 := setImpl_wf s w this impl
  have e1 := extends_eraseDependent _ s1 w0 this _ he
  have e2 := extends_clearReferenced s1 e1.wf this
  have e3 := (rewire_extends inner this hinner _ _ () s2 e2.wf hr).1
  have hsame := InvalidateAllCache_ok fuel this true s2 u t hi
  have e4 := extends_of_same s2 t e3.wf hsame
  have e := extends_trans (extends_trans (extends_trans e1 e2) e3) e4
  have hcells := commit_cells s s1 this impl _ he
  have hheap := commit_heap s s1 this impl c hc he this
  have hdeps := rewire_deps inner this hinner _ _ () s2 e2.wf hr this
  refine ⟨e, ?_, ?_, ?_⟩
  · intro q hq
    rw [hsame.find q] at hq
    rcases rewire_keys inner this hinner _ _ () s2 hr q hq with h1 | h1
    · rw [find_congr s _ hcells q] at h1
      exact Or.inl h1
    · exact Or.inr h1
  · intro d hd hne
    rw [hsame.deps this]
    apply (hdeps d).1
    unfold Sheet.deps at hd ⊢
    rw [hheap, hc]
    rw [hc] at hd
    simp only [Option.map_some']
    split_ifs
    · exact (mem_setErase this d _).2 ⟨hd, hne⟩
    · exact hd
  · intro d hd
    rw [hsame.deps this] at hd
    rcases (hdeps d).2 hd with h1 | h1
    · left
      unfold Sheet.deps at h1 ⊢
      rw [hheap, hc] at h1
      rw [hc]
      simp only [Option.map_some'] at h1
      split_ifs at h1
      · exact ((mem_setErase this d _).1 h1).1
      · exact h1
    · exact Or.inr h1

theorem SetCell_ok_frame (parse : String → Option FormulaInterface) (fuel : Nat)
    (p : Position) (text : String) (s t : Sheet) (w : s.WF)
    (hok : Sheet.SetCell parse fuel p text s = .ok () t) :
    p.IsValid = true ∧ ∃ this impl, (s.ensure p).find p = some this ∧ t.find p = some this ∧
      Impl.build parse text = some impl ∧
      (∃ d, t.heap this = some d ∧ d.impl_.InvalidateCache = impl.InvalidateCache) ∧
      p ∉ impl.GetReferencedCells ∧
      (∀ q a, s.find q = some a → t.find q = some a) ∧
      (∀ q a c, q ≠ p → s.find q = some a → s.heap a = some c →
        ∃ d, t.heap a = some d ∧ d.impl_.InvalidateCache = c.impl_.InvalidateCache) ∧
      (∀ q a, s.find q = none → t.find q = some a →
        q = p ∨ (q ∈ impl.GetReferencedCells ∧ ∃ d, t.heap a = some d ∧ d.impl_ = .EmptyImpl)) ∧
      (∀ d, d ∈ s.deps this → d ≠ this → d ∈ t.deps this) ∧
      (∀ d, d ∈ t.deps this → d ∈ s.deps this ∨ d = this) := by
  cases fuel with
  | zero => simp [Sheet.SetCell] at hok
  | succ n =>
    by_cases hv : p.IsValid = true
    · refine ⟨hv, ?_⟩
      obtain ⟨this, hthis, heq⟩ := SetCell_succ parse n p text s hv
      rw [heq] at hok
      have hinner := fun p s1 hp hs => SetCell_empty_absent_cases parse n p s1 hp hs
      have w0 := ensure_wf s p w hv
      have e0 := ensure_extends s p w hv
      obtain ⟨impl, hb, e, hkeys, hd1, hd2⟩ :=
        Set_ok_extends parse _ hinner n this text _ () t w0 hok
      obtain ⟨impl2, c, s1, s2, hb2, hchk, hh, he, hrw, hi⟩ :=
        Set_ok parse _ n this text _ () t hok
      rw [hb] at hb2
      simp only [Option.some.injEq] at hb2
      subst hb2
      have hfind0 : ∀ q, ((s.ensure p).setImpl this impl).find q = (s.ensure p).find q :=
        find_congr (s.ensure p) _ (by simp)
      have hmono : ∀ q a, (s.ensure p).find q = some a → t.find q = some a := by
        intro q a hq
        exact e.find_mono q a (by rw [hfind0]; exact hq)
      have hdeps0 : (s.ensure p).deps this = s.deps this := by
        unfold Sheet.ensure
        split_ifs
        · rfl
        · exact alloc_deps s w p this
      have hens : ∀ q, q ≠ p → (s.ensure p).find q = s.find q := by
        intro q hq
        unfold Sheet.ensure
        split_ifs
        · rfl
        · exact find_alloc_of_ne s p q hq
      refine ⟨this, impl, hthis, hmono p this hthis, hb, ?_, ?_, ?_, ?_, ?_, ?_, ?_⟩
      · have h0 : ((s.ensure p).setImpl this impl).heap this = some { c with impl_ := impl } := by
          rw [setImpl_heap]; simp [hh]
        obtain ⟨d, hd, hd3⟩ := e.impl_same this _ h0
        exact ⟨d, hd, hd3⟩
      · intro hmem
        have := check_self _ n this _ false hchk ⟨p, hmem, hthis⟩
        cases this
      · intro q a hq
        exact hmono q a (e0.find_mono q a hq)
      · intro q a c0 hqp hq hc0
        have hq1 := e0.find_mono q a hq
        have hne : a ≠ this := by
          rintro rfl
          exact hqp (addr_unique _ w0.addrs_nodup q p a hq1 hthis)
        obtain ⟨c1, hc1, hc2⟩ := e0.impl_same a c0 hc0
        have h0 : ((s.ensure p).setImpl this impl).heap a = some c1 := by
          rw [setImpl_heap]; simp [hne, hc1]
        obtain ⟨d, hd, hd3⟩ := e.impl_same a c1 h0
        exact ⟨d, hd, hd3.trans hc2⟩
      · intro q a hq ht
        by_cases hqp : q = p
        · exact Or.inl hqp
        · right
          have hq0 : (s.ensure p).find q = none := by rw [hens q hqp]; exact hq
          constructor
          · rcases hkeys q (by rw [ht]; rfl) with h1 | h1
            · rw [hq0] at h1; cases h1
            · exact h1
          · exact e.new_empty q a (by rw [hfind0]; exact hq0) ht
      · intro d hd hne
        exact hd1 d (by rw [hdeps0]; exact hd) hne
      · intro d hd
        rcases hd2 d hd with h1 | h1
        · left; rw [hdeps0] at h1; exact h1
        · exact Or.inr h1
    · have hv2 : p.IsValid = false := by simpa using hv
      rw [SetCell_invalid parse n p text s hv2] at hok
      cases hok

theorem inv_not_self_dep (s : Sheet) (i : s.Inv) (a : Nat) : a ∉ s.deps a := by
  intro h
  exact i.acyclic a (Relation.TransGen.single h)

theorem inv_isReferenced_iff (s : Sheet) (i : s.Inv) (q : Position) (b : Nat)
    (hq : s.find q = some b) :
    s.IsReferenced b = true ↔ ∃ p, RefersTo s p q := by
  constructor
  · intro h
    unfold Sheet.IsReferenced at h
    cases hd : s.deps b with
    | nil => simp [hd] at h
    | cons a rest =>
      have ha : a ∈ s.deps b := by rw [hd]; exact List.mem_cons_self _ _
      have hlive := i.deps_live b a ha
      obtain ⟨p, hp⟩ := live_find s i.wf a hlive
      have hr := (i.symm a b).2 ha
      obtain ⟨q2, hq2, hf2⟩ := (i.refd_iff a b).1 hr
      have := addr_unique s i.wf.addrs_nodup q q2 b hq hf2
      subst this
      exact ⟨p, a, hp, hq2⟩
  · rintro ⟨p, a, hp, hmem⟩
    have hr : b ∈ s.refd a := (i.refd_iff a b).2 ⟨q, hmem, hq⟩
    have ha := (i.symm a b).1 hr
    unfold Sheet.IsReferenced
    cases hd : s.deps b with
    | nil => rw [hd] at ha; cases ha
    | cons x rest => rfl

end Spreadsheet


namespace Spreadsheet

/-! ## What a successful SetCell does to the edges (C15) -/

/-- C15: in a state reached from the empty sheet by SetCell calls, after a
successful SetCell(p, t) on the cell c at p: GetReferencedCells of c is that of
the implementation built from t; referenced_cells_ of c is exactly the set of
the cells at those positions (empty when the implementation is not a
FormulaImpl); each of those positions has a cell with c among its dependents; a
cell that was in referenced_cells_ of c before the call and whose position is
not referenced by t does not have c among its dependents; and IsReferenced of
the cell at a position q holds exactly when some cell references q. -/
theorem setCell_rewires_edges (parse : String → Option FormulaInterface) (fuel : Nat)
    (p : Position) (text : String) (s t : Sheet)
    (hr : Reach parse Op.isSet s)
    (hok : Sheet.SetCell parse fuel p text s = .ok () t) :
    ∃ this impl, t.find p = some this ∧ Impl.build parse text = some impl ∧
      t.prefs this = impl.GetReferencedCells ∧
      ((∀ cache_ f, impl ≠ .FormulaImpl cache_ f) → t.refd this = []) ∧
      (∀ b, b ∈ t.refd this ↔ ∃ q ∈ impl.GetReferencedCells, t.find q = some b) ∧
      (∀ q ∈ impl.GetReferencedCells, ∃ b, t.find q = some b ∧ this ∈ t.deps b) ∧
      (∀ q b, s.find q = some b → b ∈ s.refd this → q ∉ impl.GetReferencedCells →
        this ∉ t.deps b) ∧
      (∀ q b, t.find q = some b → (t.IsReferenced b = true ↔ ∃ p2, RefersTo t p2 q)) := by
  have i : t.Inv :=
    reach_set_inv (Reach.step s t fuel (.SetCell p text) hr trivial (by simp [Op.run, hok, Res.state?]))
  obtain ⟨_, this, impl, _, hthis, hb, ⟨d, hd, hd2⟩, _, hmono, _, _, _, _⟩ :=
    SetCell_ok_frame parse fuel p text s t (reach_wf (reach_mono (fun _ _ => trivial) hr)) hok
  have hprefs : t.prefs this = impl.GetReferencedCells := by
    unfold Sheet.prefs
    rw [hd]
    exact refs_of_uncache_eq hd2
  have hrefd : ∀ b, b ∈ t.refd this ↔ ∃ q ∈ impl.GetReferencedCells, t.find q = some b := by
    intro b
    rw [i.refd_iff this b, hprefs]
  refine ⟨this, impl, hthis, hb, hprefs, ?_, hrefd, ?_, ?_, ?_⟩
  · intro hnf
    have hnil : impl.GetReferencedCells = [] := by
      cases impl with
      | EmptyImpl => rfl
      | TextImpl v x => rfl
      | FormulaImpl c f => exact absurd rfl (hnf c f)
    apply List.eq_nil_iff_forall_not_mem.2
    intro b hb2
    obtain ⟨q, hq, _⟩ := (hrefd b).1 hb2
    rw [hnil] at hq
    cases hq
  · intro q hq
    have hsome := i.prefs_present this q (by rw [hprefs]; exact hq)
    obtain ⟨b, hfb⟩ := Option.isSome_iff_exists.1 hsome
    exact ⟨b, hfb, (i.symm this b).1 ((hrefd b).2 ⟨q, hq, hfb⟩)⟩
  · intro q b hq _ hnot hdep
    obtain ⟨q2, hq2, hf2⟩ := (hrefd b).1 ((i.symm this b).2 hdep)
    have := addr_unique t i.wf.addrs_nodup q q2 b (hmono q b hq) hf2
    subst this
    exact hnot hq2
  · intro q b hq
    exact inv_isReferenced_iff t i q b hq

/-- Witness for C15: after A1 = "=A2", the call SetCell(A1, "=A3") succeeds. -/
theorem setCell_rewires_edges_witness :
    Reach scripted Op.isSet (scenario [.SetCell A1 "=A2"]) ∧
    Sheet.SetCell scripted 20 A1 "=A3" (scenario [.SetCell A1 "=A2"]) =
      .ok () (scenario [.SetCell A1 "=A2", .SetCell A1 "=A3"]) ∧
    ∃ this impl, (scenario [.SetCell A1 "=A2", .SetCell A1 "=A3"]).find A1 = some this ∧
      Impl.build scripted "=A3" = some impl ∧
      (scenario [.SetCell A1 "=A2", .SetCell A1 "=A3"]).prefs this = impl.GetReferencedCells ∧
      ((∀ cache_ f, impl ≠ .FormulaImpl cache_ f) →
        (scenario [.SetCell A1 "=A2", .SetCell A1 "=A3"]).refd this = []) ∧
      (∀ b, b ∈ (scenario [.SetCell A1 "=A2", .SetCell A1 "=A3"]).refd this ↔
        ∃ q ∈ impl.GetReferencedCells,
          (scenario [.SetCell A1 "=A2", .SetCell A1 "=A3"]).find q = some b) ∧
      (∀ q ∈ impl.GetReferencedCells, ∃ b,
        (scenario [.SetCell A1 "=A2", .SetCell A1 "=A3"]).find q = some b ∧
        this ∈ (scenario [.SetCell A1 "=A2", .SetCell A1 "=A3"]).deps b) ∧
      (∀ q b, (scenario [.SetCell A1 "=A2"]).find q = some b →
        b ∈ (scenario [.SetCell A1 "=A2"]).refd this → q ∉ impl.GetReferencedCells →
        this ∉ (scenario [.SetCell A1 "=A2", .SetCell A1 "=A3"]).deps b) ∧
      (∀ q b, (scenario [.SetCell A1 "=A2", .SetCell A1 "=A3"]).find q = some b →
        ((scenario [.SetCell A1 "=A2", .SetCell A1 "=A3"]).IsReferenced b = true ↔
          ∃ p2, RefersTo (scenario [.SetCell A1 "=A2", .SetCell A1 "=A3"]) p2 q)) :=
  ⟨reach_scenario Op.isSet [.SetCell A1 "=A2"]
      (by intro op hop; simp at hop; subst hop; trivial) rfl,
   rfl,
   setCell_rewires_edges scripted 20 A1 "=A3" (scenario [.SetCell A1 "=A2"])
     (scenario [.SetCell A1 "=A2", .SetCell A1 "=A3"])
     (reach_scenario Op.isSet [.SetCell A1 "=A2"]
       (by intro op hop; simp at hop; subst hop; trivial) rfl)
     rfl⟩

/-! ## The frame of a successful SetCell (C19) -/

/-- C19: in a state reached from the empty sheet by SetCell calls, a
successful SetCell(p, t) keeps every cell where it was; a cell at a position
other than p keeps its implementation (up to the cached value) and its GetText;
the cell at p is the one that was there, with the same dependents, or a new one
without dependents; and a position that has a cell only after the call is p or
a position referenced by t, the latter with a cell of empty text. -/
theorem setCell_frame (parse : String → Option FormulaInterface) (fuel : Nat)
    (p : Position) (text : String) (s t : Sheet)
    (hr : Reach parse Op.isSet s)
    (hok : Sheet.SetCell parse fuel p text s = .ok () t) :
    ∃ this impl, t.find p = some this ∧ Impl.build parse text = some impl ∧
      (∀ q a, s.find q = some a → t.find q = some a) ∧
      (∀ q a, q ≠ p → s.find q = some a →
        (t.heap a).map (fun c => c.impl_.InvalidateCache) =
          (s.heap a).map (fun c => c.impl_.InvalidateCache) ∧
        t.GetText q = s.GetText q) ∧
      (∀ d, d ∈ t.deps this ↔ d ∈ s.deps this) ∧
      (s.find p = none → t.deps this = []) ∧
      (∀ q a, s.find q = none → t.find q = some a →
        q = p ∨ (q ∈ impl.GetReferencedCells ∧ t.GetText q = some "")) := by
  have i : t.Inv :=
    reach_set_inv (Reach.step s t fuel (.SetCell p text) hr trivial (by simp [Op.run, hok, Res.state?]))
  have i0 : s.Inv := reach_set_inv hr
  obtain ⟨hv, this, impl, hens, hthis, hb, _, _, hmono, himpl, hnew, hd1, hd2⟩ :=
    SetCell_ok_frame parse fuel p text s t i0.wf hok
  have hiff : ∀ d, d ∈ t.deps this ↔ d ∈ s.deps this := by
    intro d
    constructor
    · intro hd
      rcases hd2 d hd with h1 | h1
      · exact h1
      · subst h1
        exact absurd hd (inv_not_self_dep t i d)
    · intro hd
      apply hd1 d hd
      rintro rfl
      exact inv_not_self_dep s i0 d hd
  refine ⟨this, impl, hthis, hb, hmono, ?_, hiff, ?_, ?_⟩
  · intro q a hqp hq
    obtain ⟨c, hc⟩ := wf_find_live s i0.wf q a hq
    obtain ⟨d, hd, hd3⟩ := himpl q a c hqp hq hc
    constructor
    · rw [hd, hc]
      simp [hd3]
    · unfold Sheet.GetText Sheet.textAt
      rw [hmono q a hq, hq]
      simp only [hd, hc]
      rw [text_of_uncache_eq hd3]
  · intro hnone
    have hheap : s.heap this = none := by
      rw [ensure_of_none s p hnone, find_alloc_self s p hnone] at hens
      simp only [Option.some.injEq] at hens
      rw [← hens]
      exact wf_heap_brk s i0.wf
    apply List.eq_nil_iff_forall_not_mem.2
    intro d hd
    have := (hiff d).1 hd
    unfold Sheet.deps at this
    rw [hheap] at this
    cases this
  · intro q a hq ht
    rcases hnew q a hq ht with h1 | ⟨h1, d, hd, hde⟩
    · exact Or.inl h1
    · right
      refine ⟨h1, ?_⟩
      unfold Sheet.GetText Sheet.textAt
      rw [ht]
      simp only [hd, hde]
      rfl

/-- Witness for C19: after A1 = "2", A2 = "=A1+3", the call
SetCell(A3, "=D1+D2") succeeds. -/
theorem setCell_frame_witness :
    Reach scripted Op.isSet (scenario [.SetCell A1 "2", .SetCell A2 "=A1+3"]) ∧
    Sheet.SetCell scripted 20 A3 "=D1+D2" (scenario [.SetCell A1 "2", .SetCell A2 "=A1+3"]) =
      .ok () (scenario [.SetCell A1 "2", .SetCell A2 "=A1+3", .SetCell A3 "=D1+D2"]) ∧
    ∃ this impl,
      (scenario [.SetCell A1 "2", .SetCell A2 "=A1+3", .SetCell A3 "=D1+D2"]).find A3 = some this ∧
      Impl.build scripted "=D1+D2" = some impl ∧
      (∀ q a, (scenario [.SetCell A1 "2", .SetCell A2 "=A1+3"]).find q = some a →
        (scenario [.SetCell A1 "2", .SetCell A2 "=A1+3", .SetCell A3 "=D1+D2"]).find q = some a) ∧
      (∀ q a, q ≠ A3 → (scenario [.SetCell A1 "2", .SetCell A2 "=A1+3"]).find q = some a →
        ((scenario [.SetCell A1 "2", .SetCell A2 "=A1+3", .SetCell A3 "=D1+D2"]).heap a).map
            (fun c => c.impl_.InvalidateCache) =
          ((scenario [.SetCell A1 "2", .SetCell A2 "=A1+3"]).heap a).map
            (fun c => c.impl_.InvalidateCache) ∧
        (scenario [.SetCell A1 "2", .SetCell A2 "=A1+3", .SetCell A3 "=D1+D2"]).GetText q =
          (scenario [.SetCell A1 "2", .SetCell A2 "=A1+3"]).GetText q) ∧
      (∀ d, d ∈ (scenario [.SetCell A1 "2", .SetCell A2 "=A1+3",
          .SetCell A3 "=D1+D2"]).deps this ↔
        d ∈ (scenario [.SetCell A1 "2", .SetCell A2 "=A1+3"]).deps this) ∧
      ((scenario [.SetCell A1 "2", .SetCell A2 "=A1+3"]).find A3 = none →
        (scenario [.SetCell A1 "2", .SetCell A2 "=A1+3", .SetCell A3 "=D1+D2"]).deps this = []) ∧
      (∀ q a, (scenario [.SetCell A1 "2", .SetCell A2 "=A1+3"]).find q = none →
        (scenario [.SetCell A1 "2", .SetCell A2 "=A1+3", .SetCell A3 "=D1+D2"]).find q = some a →
        q = A3 ∨ (q ∈ impl.GetReferencedCells ∧
          (scenario [.SetCell A1 "2", .SetCell A2 "=A1+3", .SetCell A3 "=D1+D2"]).GetText q =
            some "")) :=
  ⟨reach_scenario Op.isSet [.SetCell A1 "2", .SetCell A2 "=A1+3"]
      (by intro op hop; simp at hop; rcases hop with h | h <;> subst h <;> trivial) rfl,
   rfl,
   setCell_frame scripted 20 A3 "=D1+D2" (scenario [.SetCell A1 "2", .SetCell A2 "=A1+3"])
     (scenario [.SetCell A1 "2", .SetCell A2 "=A1+3", .SetCell A3 "=D1+D2"])
     (reach_scenario Op.isSet [.SetCell A1 "2", .SetCell A2 "=A1+3"]
       (by intro op hop; simp at hop; rcases hop with h | h <;> subst h <;> trivial) rfl)
     rfl⟩

end Spreadsheet


namespace Spreadsheet

/-! ## The invalidation sweep -/

theorem cached_of_heap (s : Sheet) (a : Nat) (c : Cell) (h : s.heap a = some c) :
    s.cached a = c.impl_.cache.isSome := by
  simp [Sheet.cached, Sheet.cacheAt, h]

theorem cached_of_none (s : Sheet) (a : Nat) (h : s.heap a = none) : s.cached a = false := by
  simp [Sheet.cached, Sheet.cacheAt, h]

theorem cached_live (s : Sheet) (a : Nat) (h : s.cached a = true) : (s.heap a).isSome = true := by
  cases hc : s.heap a with
  | none => rw [cached_of_none s a hc] at h; cases h
  | some c => rfl

theorem uncache_cache (i : Impl) : i.InvalidateCache.cache = none := by
  cases i <;> rfl

theorem cache_of_hasCache_false (i : Impl) (h : i.HasCache = false) : i.cache = none := by
  cases i with
  | EmptyImpl => cases h
  | TextImpl _ _ => cases h
  | FormulaImpl c f =>
    cases c with
    | none => rfl
    | some v => cases h

theorem holdsFormula_of_heap (s : Sheet) (a : Nat) (c : Cell) (h : s.heap a = some c) :
    s.holdsFormula a = c.impl_.isFormula := by
  simp [Sheet.holdsFormula, h]

theorem cached_holdsFormula (s : Sheet) (a : Nat) (h : s.cached a = true) :
    s.holdsFormula a = true := by
  cases hc : s.heap a with
  | none => rw [cached_of_none s a hc] at h; cases h
  | some c =>
    rw [cached_of_heap s a c hc] at h
    rw [holdsFormula_of_heap s a c hc]
    cases hi : c.impl_ with
    | EmptyImpl => rw [hi] at h; cases h
    | TextImpl _ _ => rw [hi] at h; cases h
    | FormulaImpl _ _ => rfl

theorem isFormula_of_uncache_eq {i j : Impl} (h : i.InvalidateCache = j.InvalidateCache) :
    i.isFormula = j.isFormula := by
  cases i <;> cases j <;> simp [Impl.InvalidateCache, Impl.isFormula] at h ⊢

theorem SameUpToCache.holdsFormula {s t : Sheet} (h : SameUpToCache s t) (a : Nat) :
    t.holdsFormula a = s.holdsFormula a := by
  unfold Sheet.holdsFormula
  cases hc : s.heap a with
  | none => rw [h.heap_none a hc]
  | some c =>
    obtain ⟨d, hd, _, _, h1⟩ := h.heap_some a c hc
    rw [hd]
    exact isFormula_of_uncache_eq h1

theorem cached_setImpl_uncache (s : Sheet) (a : Nat) (c : Cell) (h : s.heap a = some c) (x : Nat) :
    (s.setImpl a c.impl_.InvalidateCache).cached x = if x = a then false else s.cached x := by
  unfold Sheet.cached Sheet.cacheAt
  rw [setImpl_heap]
  by_cases hx : x = a
  · subst hx
    simp [h, uncache_cache]
  · simp [hx]

theorem swept_refl (s : Sheet) : Swept s s :=
  ⟨SameUpToCache.refl s, fun _ h => h, fun y d h1 h2 _ => by rw [h1] at h2; cases h2⟩

theorem swept_trans {s t u : Sheet} (h1 : Swept s t) (h2 : Swept t u) : Swept s u := by
  refine ⟨h1.same.trans h2.same, fun x hx => h1.mono x (h2.mono x hx), ?_⟩
  intro y d hs hu hd
  cases ht : t.cached y with
  | true =>
    exact h2.below y d ht hu (by rw [h1.same.deps]; exact hd)
  | false =>
    have h3 := h1.below y d hs ht hd
    cases hud : u.cached d with
    | false => rfl
    | true => rw [h2.mono d hud] at h3; cases h3

theorem forEach_swept (step : Nat → Sheet → Res Unit)
    (hstep : ∀ d s u t, step d s = .ok u t → Swept s t ∧ t.cached d = false) :
    ∀ (l : List Nat) (s : Sheet) (u : Unit) (t : Sheet), forEach step l s = .ok u t →
      Swept s t ∧ ∀ d ∈ l, t.cached d = false := by
  intro l
  induction l with
  | nil =>
    intro s u t h
    simp only [forEach, Res.ok.injEq] at h
    rw [← h.2]
    exact ⟨swept_refl s, fun d hd => by cases hd⟩
  | cons d rest ih =>
    intro s u t h
    unfold forEach at h
    cases hd : step d s with
    | ok u1 s1 =>
      rw [hd] at h
      obtain ⟨h1, h2⟩ := hstep d s u1 s1 hd
      obtain ⟨h3, h4⟩ := ih s1 u t h
      refine ⟨swept_trans h1 h3, ?_⟩
      intro x hx
      rcases List.mem_cons.1 hx with rfl | hx
      · cases hc : t.cached x with
        | false => rfl
        | true => rw [h3.mono x hc] at h2; cases h2
      · exact h4 x hx
    | throws e s1 => rw [hd] at h; cases h
    | dangling => rw [hd] at h; cases h
    | timeout => rw [hd] at h; cases h

theorem InvalidateAllCache_swept :
    ∀ (fuel this : Nat) (flag : Bool) (s : Sheet) (u : Unit) (t : Sheet),
      Cell.InvalidateAllCache fuel this flag s = .ok u t →
      Swept s t ∧ t.cached this = false ∧
        (flag = true → ∀ d ∈ s.deps this, t.cached d = false) := by
  intro fuel
  induction fuel with
  | zero =>
    intro this flag s u t h
    simp [Cell.InvalidateAllCache] at h
  | succ fuel ih =>
    intro this flag s u t h
    unfold Cell.InvalidateAllCache at h
    cases hc : s.heap this with
    | none => simp [hc] at h
    | some c =>
      simp only [hc] at h
      by_cases hf : (c.impl_.HasCache || flag) = true
      · simp only [hf, if_true] at h
        have hsame : SameUpToCache s (s.setImpl this c.impl_.InvalidateCache) :=
          ⟨setImpl_cells _ _ _, setImpl_brk _ _ _, setImpl_uncache_heap s this c hc⟩
        have hcached := cached_setImpl_uncache s this c hc
        obtain ⟨h1, h2⟩ := forEach_swept _
          (fun d s1 u1 t1 hd => ⟨(ih d false s1 u1 t1 hd).1, (ih d false s1 u1 t1 hd).2.1⟩)
          _ _ u t h
        have hthis : t.cached this = false := by
          cases hx : t.cached this with
          | false => rfl
          | true =>
            have hm := h1.mono this hx
            rw [hcached] at hm
            simp at hm
        have hdeps : ∀ d ∈ s.deps this, t.cached d = false := by
          intro d hd
          apply h2 d
          unfold Sheet.deps at hd
          rw [hc] at hd
          exact hd
        refine ⟨⟨hsame.trans h1.same, ?_, ?_⟩, hthis, fun _ => hdeps⟩
        · intro x hx
          have hm := h1.mono x hx
          rw [hcached] at hm
          by_cases hxa : x = this
          · simp [hxa] at hm
          · simpa [hxa] using hm
        · intro y d hy hty hd
          by_cases hya : y = this
          · subst hya
            exact hdeps d hd
          · apply h1.below y d _ hty (by rw [hsame.deps]; exact hd)
            rw [hcached]
            simpa [hya] using hy
      · simp only [hf] at h
        simp only [Bool.false_eq_true, if_false, Res.ok.injEq] at h
        rw [← h.2]
        have hf2 : c.impl_.HasCache = false ∧ flag = false := by
          cases h1 : c.impl_.HasCache <;> cases h2 : flag <;> simp [h1, h2] at hf ⊢
        refine ⟨swept_refl s, ?_, ?_⟩
        · rw [cached_of_heap s this c hc, cache_of_hasCache_false _ hf2.1]
          rfl
        · intro hfl
          rw [hf2.2] at hfl
          cases hfl

end Spreadsheet


namespace Spreadsheet

/-! ## Caches through the steps of Cell::Set -/

theorem cached_congr (s t : Sheet) (x : Nat)
    (h : (t.heap x).map (fun c => c.impl_) = (s.heap x).map (fun c => c.impl_)) :
    t.cached x = s.cached x ∧ t.holdsFormula x = s.holdsFormula x := by
  unfold Sheet.cached Sheet.cacheAt Sheet.holdsFormula
  cases hs : s.heap x with
  | none =>
    cases ht : t.heap x with
    | none => exact ⟨rfl, rfl⟩
    | some d => rw [hs, ht] at h; simp at h
  | some c =>
    cases ht : t.heap x with
    | none => rw [hs, ht] at h; simp at h
    | some d =>
      rw [hs, ht] at h
      simp only [Option.map_some', Option.some.injEq] at h
      simp [h]

theorem link_cached (s t : Sheet) (this ref : Nat) (h : s.link this ref = some t) (x : Nat) :
    t.cached x = s.cached x ∧ t.holdsFormula x = s.holdsFormula x := by
  apply cached_congr
  rw [(link_spec s t this ref h).2.2 x]
  cases s.heap x <;> rfl

theorem alloc_cached (s : Sheet) (w : s.WF) (p : Position) (x : Nat) :
    (s.alloc p).cached x = s.cached x ∧ (s.alloc p).holdsFormula x = s.holdsFormula x := by
  by_cases hx : x = s.brk
  · subst hx
    have h0 := wf_heap_brk s w
    unfold Sheet.cached Sheet.cacheAt Sheet.holdsFormula
    rw [alloc_heap, h0]
    simp [Impl.cache, Impl.isFormula]
  · apply cached_congr
    rw [alloc_heap]
    simp [hx]

theorem ensure_cached (s : Sheet) (w : s.WF) (p : Position) (x : Nat) :
    (s.ensure p).cached x = s.cached x ∧ (s.ensure p).holdsFormula x = s.holdsFormula x := by
  unfold Sheet.ensure
  split_ifs
  · exact ⟨rfl, rfl⟩
  · exact alloc_cached s w p x

theorem ensure_deps (s : Sheet) (w : s.WF) (p : Position) (x : Nat) :
    (s.ensure p).deps x = s.deps x := by
  unfold Sheet.ensure
  split_ifs
  · rfl
  · exact alloc_deps s w p x

theorem rewire_cached (inner : Position → Sheet → Res Unit) (this : Nat)
    (hinner : ∀ p s, p.IsValid = true → s.find p = none →
      inner p s = .timeout ∨ inner p s = .ok () (s.alloc p)) :
    ∀ (l : List Position) (s : Sheet) (u : Unit) (t : Sheet), s.WF →
      rewire inner this l s = .ok u t →
      ∀ x, t.cached x = s.cached x ∧ t.holdsFormula x = s.holdsFormula x := by
  intro l
  induction l with
  | nil =>
    intro s u t _ h x
    simp only [rewire, Res.ok.injEq] at h
    rw [h.2]
    exact ⟨rfl, rfl⟩
  | cons pos rest ih =>
    intro s u t w h x
    rw [rewire] at h
    by_cases hv : pos.IsValid = true
    · simp only [hv, if_true] at h
      cases hf : s.find pos with
      | some ref =>
        simp only [hf] at h
        cases hl : s.link this ref with
        | none => simp [hl] at h
        | some s1 =>
          simp only [hl] at h
          have w1 := (extends_link s s1 w this ref hl).wf
          have h1 := ih s1 u t w1 h x
          have h2 := link_cached s s1 this ref hl x
          exact ⟨h1.1.trans h2.1, h1.2.trans h2.2⟩
      | none =>
        simp only [hf] at h
        rcases hinner pos s hv hf with hi | hi
        · simp [hi] at h
        · simp only [hi] at h
          cases hf1 : (s.alloc pos).find pos with
          | none => simp [hf1] at h
          | some ref =>
            simp only [hf1] at h
            cases hl : (s.alloc pos).link this ref with
            | none => simp [hl] at h
            | some s2 =>
              simp only [hl] at h
              have w0 := alloc_wf s pos w hv hf
              have w1 := (extends_link _ s2 w0 this ref hl).wf
              have h1 := ih s2 u t w1 h x
              have h2 := link_cached _ s2 this ref hl x
              have h3 := alloc_cached s w pos x
              exact ⟨h1.1.trans (h2.1.trans h3.1), h1.2.trans (h2.2.trans h3.2)⟩
    · simp [hv] at h

theorem build_cache_none (parse : String → Option FormulaInterface) (text : String) (impl : Impl)
    (h : Impl.build parse text = some impl) : impl.cache = none := by
  rcases build_cases parse text impl h with ⟨_, rfl⟩ | ⟨rest, f, _, _, _, rfl⟩ | ⟨_, _, rfl⟩
  · rfl
  · rfl
  · unfold Impl.mkText
    cases text.data with
    | nil => rfl
    | cons c rest =>
      simp only
      split_ifs <;> rfl

theorem Set_ok_caches (parse : String → Option FormulaInterface)
    (inner : Position → Sheet → Res Unit)
    (hinner : ∀ p s, p.IsValid = true → s.find p = none →
      inner p s = .timeout ∨ inner p s = .ok () (s.alloc p))
    (fuel this : Nat) (text : String) (s : Sheet) (u : Unit) (t : Sheet) (w : s.WF)
    (h : Cell.Set parse inner fuel this text s = .ok u t) :
    ∃ s2, Swept s2 t ∧
      (∀ x, x ≠ this → s2.cached x = s.cached x ∧ s2.holdsFormula x = s.holdsFormula x) ∧
      s2.cached this = false ∧ t.cached this = false ∧
      (∀ d ∈ t.deps this, t.cached d = false) ∧
      (∀ x d, d ∈ t.deps x → d ∈ s.deps x ∨ d = this) := by
  obtain ⟨impl, c, s1, s2, hb, _, hc, he, hr, hi⟩ := Set_ok parse inner fuel this text s u t h
  have w0 := setImpl_wf s w this impl
  have e1 := extends_eraseDependent _ s1 w0 this _ he
  have e2 := extends_clearReferenced s1 e1.wf this
  have hheap := commit_heap s s1 this impl c hc he
  have hrc := rewire_cached inner this hinner _ _ () s2 e2.wf hr
  have hrd := rewire_deps inner this hinner _ _ () s2 e2.wf hr
  obtain ⟨hsw, hthis, hdeps⟩ := InvalidateAllCache_swept fuel this true s2 u t hi
  refine ⟨s2, hsw, ?_, ?_, hthis, ?_, ?_⟩
  · intro x hx
    have h1 := hrc x
    have h2 : (s1.clearReferenced this).cached x = s.cached x ∧
        (s1.clearReferenced this).holdsFormula x = s.holdsFormula x := by
      apply cached_congr
      rw [hheap x]
      cases s.heap x with
      | none => rfl
      | some cx => simp [hx]
    exact ⟨h1.1.trans h2.1, h1.2.trans h2.2⟩
  · rw [(hrc this).1]
    unfold Sheet.cached Sheet.cacheAt
    rw [hheap this, hc]
    simp [build_cache_none parse text impl hb]
  · intro d hd
    rw [hsw.same.deps] at hd
    exact hdeps rfl d hd
  · intro x d hd
    rw [hsw.same.deps] at hd
    rcases (hrd x d).2 hd with h1 | h1
    · left
      unfold Sheet.deps at h1 ⊢
      rw [hheap x] at h1
      cases hx : s.heap x with
      | none => rw [hx] at h1; simp at h1
      | some cx =>
        rw [hx] at h1
        simp only [Option.map_some'] at h1
        split_ifs at h1
        · exact ((mem_setErase this d _).1 h1).1
        · exact h1
    · exact Or.inr h1

theorem SetCell_ok_sweep (parse : String → Option FormulaInterface) (fuel : Nat)
    (p : Position) (text : String) (s t : Sheet) (w : s.WF)
    (hok : Sheet.SetCell parse fuel p text s = .ok () t) :
    ∃ this s2, t.find p = some this ∧ Swept s2 t ∧
      (∀ x, x ≠ this → s2.cached x = s.cached x ∧ s2.holdsFormula x = s.holdsFormula x) ∧
      s2.cached this = false ∧ t.cached this = false ∧
      (∀ d ∈ t.deps this, t.cached d = false) ∧
      (∀ x d, d ∈ t.deps x → d ∈ s.deps x ∨ d = this) := by
  obtain ⟨hv, this, impl, hens, hthis, _⟩ := SetCell_ok_frame parse fuel p text s t w hok
  cases fuel with
  | zero => simp [Sheet.SetCell] at hok
  | succ n =>
    obtain ⟨this2, hthis2, heq⟩ := SetCell_succ parse n p text s hv
    rw [hens] at hthis2
    simp only [Option.some.injEq] at hthis2
    subst hthis2
    rw [heq] at hok
    have hinner := fun p s1 hp hs => SetCell_empty_absent_cases parse n p s1 hp hs
    obtain ⟨s2, hsw, hc, h1, h2, h3, h4⟩ :=
      Set_ok_caches parse _ hinner n this text _ () t (ensure_wf s p w hv) hok
    refine ⟨this, s2, hthis, hsw, ?_, h1, h2, h3, ?_⟩
    · intro x hx
      have h5 := hc x hx
      have h6 := ensure_cached s w p x
      exact ⟨h5.1.trans h6.1, h5.2.trans h6.2⟩
    · intro x d hd
      have := h4 x d hd
      rw [ensure_deps s w p x] at this
      exact this

theorem SetCell_ok_closed (parse : String → Option FormulaInterface) (fuel : Nat)
    (p : Position) (text : String) (s t : Sheet) (w : s.WF) (hcl : s.CacheClosed)
    (hok : Sheet.SetCell parse fuel p text s = .ok () t) : t.CacheClosed := by
  obtain ⟨this, s2, _, hsw, hc, h1, _, h3, h4⟩ := SetCell_ok_sweep parse fuel p text s t w hok
  intro y d hy hyc hd
  by_cases hyt : y = this
  · subst hyt
    exact h3 d hd
  · cases hdc : t.cached d with
    | false => rfl
    | true =>
      exfalso
      have hd2 := hsw.mono d hdc
      have hdt : d ≠ this := by
        rintro rfl
        rw [h1] at hd2
        cases hd2
      have hd0 : s.cached d = true := by rw [← (hc d hdt).1]; exact hd2
      have hds : d ∈ s.deps y := by
        rcases h4 y d hd with h5 | h5
        · exact h5
        · exact absurd h5 hdt
      have hf0 : s.holdsFormula y = true := by
        rw [← (hc y hyt).2, ← hsw.same.holdsFormula]
        exact hy
      cases hy0 : s.cached y with
      | false =>
        have := hcl y d hf0 hy0 hds
        rw [this] at hd0
        cases hd0
      | true =>
        have hy2 : s2.cached y = true := by rw [(hc y hyt).1]; exact hy0
        have := hsw.below y d hy2 hyc (by rw [← hsw.same.deps]; exact hd)
        rw [this] at hdc
        cases hdc

theorem ensure_closed (s : Sheet) (w : s.WF) (hcl : s.CacheClosed) (p : Position) :
    (s.ensure p).CacheClosed := by
  intro y d hy hyc hd
  rw [(ensure_cached s w p y).2] at hy
  rw [(ensure_cached s w p y).1] at hyc
  rw [ensure_deps s w p y] at hd
  rw [(ensure_cached s w p d).1]
  exact hcl y d hy hyc hd

theorem SetCell_state_closed (parse : String → Option FormulaInterface) (fuel : Nat)
    (pos : Position) (text : String) (s t : Sheet) (w : s.WF) (hcl : s.CacheClosed)
    (h : (Sheet.SetCell parse fuel pos text s).state? = some t) : t.CacheClosed := by
  cases hr : Sheet.SetCell parse fuel pos text s with
  | ok u t1 =>
    rw [hr] at h
    simp only [Res.state?, Option.some.injEq] at h
    subst h
    exact SetCell_ok_closed parse fuel pos text s _ w hcl hr
  | throws e t1 =>
    rw [hr] at h
    simp only [Res.state?, Option.some.injEq] at h
    subst h
    rcases SetCell_throws parse fuel pos text s e _ hr with ⟨_, _, h3⟩ | ⟨hv, h3, _⟩
    · rw [h3]; exact hcl
    · rw [h3]; exact ensure_closed s w hcl pos
  | dangling => rw [hr] at h; simp [Res.state?] at h
  | timeout => rw [hr] at h; simp [Res.state?] at h

end Spreadsheet


namespace Spreadsheet

/-! ## Formulas that read what they reference -/

theorem empty_formulasRead : Sheet.empty.FormulasRead := by
  intro a c cache_ f h
  simp [Sheet.empty] at h

theorem alloc_formulasRead (s : Sheet) (h : s.FormulasRead) (p : Position) :
    (s.alloc p).FormulasRead := by
  intro a c cache_ f hc hi
  rw [alloc_heap] at hc
  by_cases ha : a = s.brk
  · simp only [ha, if_true, Option.some.injEq] at hc
    subst hc
    cases hi
  · simp only [ha, if_false] at hc
    exact h a c cache_ f hc hi

theorem ensure_formulasRead (s : Sheet) (h : s.FormulasRead) (p : Position) :
    (s.ensure p).FormulasRead := by
  unfold Sheet.ensure
  split_ifs
  · exact h
  · exact alloc_formulasRead s h p

theorem SameUpToCache.formulasRead {s t : Sheet} (h : SameUpToCache s t) (hw : s.FormulasRead) :
    t.FormulasRead := by
  intro a d cache_ f hd hi
  obtain ⟨c, hc, _, _, h3⟩ := h.symm.heap_some a d hd
  obtain ⟨cache2, h4⟩ := formula_of_uncache_eq h3.symm cache_ f hi
  exact hw a c cache2 f hc h4

theorem build_formula_reads (parse : String → Option FormulaInterface)
    (hc : ReadsReferenced parse)
    (text : String) (impl : Impl) (h : Impl.build parse text = some impl)
    (cache_ : Option FValue) (f : FormulaInterface) (hi : impl = .FormulaImpl cache_ f) :
    ∀ q ∈ f.GetReferencedCells, f.Evaluate.Reads q := by
  rcases build_cases parse text impl h with ⟨_, h1⟩ | ⟨rest, f2, _, _, hp, h2⟩ | ⟨_, _, h1⟩
  · rw [hi] at h1; cases h1
  · rw [hi] at h2
    simp only [Impl.FormulaImpl.injEq] at h2
    rw [h2.2]
    exact hc _ f2 hp
  · exfalso
    rw [hi] at h1
    unfold Impl.mkText at h1
    cases hd : text.data with
    | nil => simp [hd] at h1
    | cons c rest =>
      simp only [hd] at h1
      split_ifs at h1

theorem Set_ok_formulasRead (parse : String → Option FormulaInterface)
    (hc : ReadsReferenced parse)
    (inner : Position → Sheet → Res Unit)
    (hinner : ∀ p s, p.IsValid = true → s.find p = none →
      inner p s = .timeout ∨ inner p s = .ok () (s.alloc p))
    (fuel this : Nat) (text : String) (s : Sheet) (u : Unit) (t : Sheet) (w : s.WF)
    (hw : s.FormulasRead) (h : Cell.Set parse inner fuel this text s = .ok u t) :
    t.FormulasRead := by
  obtain ⟨impl, hb, ⟨d0, hd0, hd0'⟩, _, hother⟩ :=
    Set_ok_impls parse inner hinner fuel this text s u t w h
  intro a d cache_ f hd hi
  by_cases ha : a = this
  · subst ha
    rw [hd0] at hd
    simp only [Option.some.injEq] at hd
    subst hd
    obtain ⟨cache2, h2⟩ := formula_of_uncache_eq hd0' cache_ f hi
    exact build_formula_reads parse hc text impl hb cache2 f h2
  · rcases hother a d hd ha with h1 | ⟨c, hc0, h1⟩
    · rw [hi] at h1; cases h1
    · obtain ⟨cache2, h2⟩ := formula_of_uncache_eq h1 cache_ f hi
      exact hw a c cache2 f hc0 h2

theorem SetCell_state_formulasRead (parse : String → Option FormulaInterface)
    (hc : ReadsReferenced parse) (fuel : Nat) (pos : Position) (text : String) (s t : Sheet)
    (w : s.WF) (hw : s.FormulasRead)
    (h : (Sheet.SetCell parse fuel pos text s).state? = some t) : t.FormulasRead := by
  cases hr : Sheet.SetCell parse fuel pos text s with
  | ok u t1 =>
    rw [hr] at h
    simp only [Res.state?, Option.some.injEq] at h
    subst h
    cases fuel with
    | zero => simp [Sheet.SetCell] at hr
    | succ fuel =>
      by_cases hv : pos.IsValid = true
      · obtain ⟨this, _, heq⟩ := SetCell_succ parse fuel pos text s hv
        rw [heq] at hr
        exact Set_ok_formulasRead parse hc _
          (fun p s1 hp hs => SetCell_empty_absent_cases parse fuel p s1 hp hs)
          fuel this text _ u _ (ensure_wf s pos w hv) (ensure_formulasRead s hw pos) hr
      · have hv2 : pos.IsValid = false := by simpa using hv
        rw [SetCell_invalid parse fuel pos text s hv2] at hr
        cases hr
  | throws e t1 =>
    rw [hr] at h
    simp only [Res.state?, Option.some.injEq] at h
    subst h
    rcases SetCell_throws parse fuel pos text s e _ hr with ⟨_, _, h3⟩ | ⟨hv, h3, _⟩
    · rw [h3]; exact hw
    · rw [h3]; exact ensure_formulasRead s hw pos
  | dangling => rw [hr] at h; simp [Res.state?] at h
  | timeout => rw [hr] at h; simp [Res.state?] at h

theorem reach_formulasRead {parse : String → Option FormulaInterface} (hc : ReadsReferenced parse)
    {s : Sheet} (h : Reach parse Op.isSetOrGet s) : s.FormulasRead := by
  induction h with
  | init => exact empty_formulasRead
  | step s t fuel op hs ha hrun ih =>
    cases op with
    | SetCell pos text =>
      exact SetCell_state_formulasRead parse hc fuel pos text s t (reach_wf hs) ih hrun
    | ClearCell pos => cases ha
    | GetValue pos => exact (GetValue_state fuel pos s t hrun).formulasRead ih

/-! ## GetValue fills caches from the referenced cells upwards -/

theorem warmed_refl (s : Sheet) : Warmed s s := ⟨SameUpToCache.refl s, fun _ h => h⟩

theorem warmed_trans {s t u : Sheet} (h1 : Warmed s t) (h2 : Warmed t u) : Warmed s u :=
  ⟨h1.same.trans h2.same, fun x hx => h2.mono x (h1.mono x hx)⟩

theorem cached_setCache (s : Sheet) (a : Nat) (v : FValue) (h : s.holdsFormula a = true) (x : Nat) :
    (s.setCache a v).cached x = if x = a then true else s.cached x := by
  unfold Sheet.cached Sheet.cacheAt Sheet.setCache
  unfold Sheet.holdsFormula at h
  cases hc : s.heap a with
  | none => rw [hc] at h; cases h
  | some c =>
    rw [hc] at h
    obtain ⟨i, d, r⟩ := c
    cases i with
    | EmptyImpl => cases h
    | TextImpl _ _ => cases h
    | FormulaImpl c0 f =>
      simp only [store_heap]
      by_cases hx : x = a
      · simp [hx, Impl.cache]
      · simp [hx]

theorem setCache_closed (s : Sheet) (i : s.Inv) (a : Nat) (v : FValue)
    (hf : s.holdsFormula a = true)
    (hread : ∀ q ∈ s.prefs a, ∀ y, s.find q = some y → s.holdsFormula y = true →
      s.cached y = true)
    (hcl : s.CacheClosed) : (s.setCache a v).CacheClosed := by
  have hsame := SameUpToCache.setCache s a v
  have hcached := cached_setCache s a v hf
  intro y d hy hyc hd
  rw [hsame.holdsFormula] at hy
  rw [hsame.deps] at hd
  rw [hcached] at hyc ⊢
  by_cases hya : y = a
  · simp [hya] at hyc
  · simp only [hya, if_false] at hyc
    by_cases hda : d = a
    · exfalso
      subst hda
      have h1 := (i.symm d y).2 hd
      obtain ⟨q, hq, hfq⟩ := (i.refd_iff d y).1 h1
      have := hread q hq y hfq hy
      rw [this] at hyc
      cases hyc
    · simp only [hda, if_false]
      exact hcl y d hy hyc hd

theorem runEval_warm (getv : Position → Sheet → Res (Option Value))
    (hok : ∀ p s ov t, s.Inv → s.FormulasRead → getv p s = .ok ov t →
      Warmed s t ∧ (s.CacheClosed → t.CacheClosed) ∧
        (∀ a, s.find p = some a → s.holdsFormula a = true → t.cached a = true))
    (hth : ∀ p s e t, s.Inv → s.FormulasRead → getv p s = .throws e t →
      Warmed s t ∧ (s.CacheClosed → t.CacheClosed)) :
    ∀ (ev : Eval) (s : Sheet), s.Inv → s.FormulasRead →
      (∀ v t, runEval getv ev s = .ok v t →
        Warmed s t ∧ (s.CacheClosed → t.CacheClosed) ∧
          (∀ q a, ev.Reads q → s.find q = some a → s.holdsFormula a = true →
            t.cached a = true)) ∧
      (∀ e t, runEval getv ev s = .throws e t →
        Warmed s t ∧ (s.CacheClosed → t.CacheClosed)) := by
  intro ev
  induction ev with
  | ret v =>
    intro s _ _
    constructor
    · intro v1 t h
      simp only [runEval, Res.ok.injEq] at h
      rw [← h.2]
      refine ⟨warmed_refl s, fun h => h, ?_⟩
      intro q a hq
      cases hq
    · intro e t h
      simp [runEval] at h
  | ask p k ih =>
    intro s i fr
    unfold runEval
    cases hg : getv p s with
    | ok ov s1 =>
      simp only
      obtain ⟨h1, h2, h3⟩ := hok p s ov s1 i fr hg
      have i1 := h1.same.inv i
      have fr1 := h1.same.formulasRead fr
      constructor
      · intro v t h
        obtain ⟨h4, h5, h6⟩ := (ih ov s1 i1 fr1).1 v t h
        refine ⟨warmed_trans h1 h4, fun hc => h5 (h2 hc), ?_⟩
        intro q a hq hfq hfa
        cases hq with
        | here _ => exact h4.mono a (h3 a hfq hfa)
        | later _ _ hall =>
          apply h6 q a (hall ov)
          · rw [h1.same.find]; exact hfq
          · rw [h1.same.holdsFormula]; exact hfa
      · intro e t h
        obtain ⟨h4, h5⟩ := (ih ov s1 i1 fr1).2 e t h
        exact ⟨warmed_trans h1 h4, fun hc => h5 (h2 hc)⟩
    | throws e1 s1 =>
      simp only
      constructor
      · intro v t h; cases h
      · intro e t h
        simp only [Res.throws.injEq] at h
        rw [← h.2]
        exact hth p s e1 s1 i fr hg
    | dangling =>
      simp only
      constructor
      · intro v t h; cases h
      · intro e t h; cases h
    | timeout =>
      simp only
      constructor
      · intro v t h; cases h
      · intro e t h; cases h

end Spreadsheet


namespace Spreadsheet

theorem holdsFormula_cached_of_impl (s : Sheet) (a : Nat) (c : Cell) (w : FValue)
    (f : FormulaInterface) (hc : s.heap a = some c) (hi : c.impl_ = .FormulaImpl (some w) f) :
    s.cached a = true := by
  rw [cached_of_heap s a c hc, hi]
  rfl

theorem holdsFormula_of_impl (s : Sheet) (a : Nat) (c : Cell) (cache_ : Option FValue)
    (f : FormulaInterface) (hc : s.heap a = some c) (hi : c.impl_ = .FormulaImpl cache_ f) :
    s.holdsFormula a = true := by
  rw [holdsFormula_of_heap s a c hc, hi]
  rfl

theorem not_holdsFormula_of_empty (s : Sheet) (a : Nat) (c : Cell)
    (hc : s.heap a = some c) (hi : c.impl_ = .EmptyImpl) : s.holdsFormula a = false := by
  rw [holdsFormula_of_heap s a c hc, hi]
  rfl

theorem not_holdsFormula_of_text (s : Sheet) (a : Nat) (c : Cell) (v : Value) (x : String)
    (hc : s.heap a = some c) (hi : c.impl_ = .TextImpl v x) : s.holdsFormula a = false := by
  rw [holdsFormula_of_heap s a c hc, hi]
  rfl

theorem prefs_of_impl (s : Sheet) (a : Nat) (c : Cell) (cache_ : Option FValue)
    (f : FormulaInterface) (hc : s.heap a = some c) (hi : c.impl_ = .FormulaImpl cache_ f) :
    s.prefs a = f.GetReferencedCells := by
  unfold Sheet.prefs
  rw [hc]
  simp only [hi]
  rfl

theorem GetValue_warm :
    ∀ (fuel : Nat) (pos : Position) (s : Sheet), s.Inv → s.FormulasRead →
      (∀ ov t, Sheet.GetValue fuel pos s = .ok ov t →
        Warmed s t ∧ (s.CacheClosed → t.CacheClosed) ∧
          (∀ a, s.find pos = some a → s.holdsFormula a = true → t.cached a = true)) ∧
      (∀ e t, Sheet.GetValue fuel pos s = .throws e t →
        Warmed s t ∧ (s.CacheClosed → t.CacheClosed)) := by
  intro fuel
  induction fuel with
  | zero =>
    intro pos s _ _
    constructor
    · intro ov t h; simp [Sheet.GetValue] at h
    · intro e t h; simp [Sheet.GetValue] at h
  | succ fuel ih =>
    intro pos s i fr
    have hrun := runEval_warm (fun p s1 => Sheet.GetValue fuel p s1)
      (fun p s1 ov t i1 fr1 h => (ih p s1 i1 fr1).1 ov t h)
      (fun p s1 e t i1 fr1 h => (ih p s1 i1 fr1).2 e t h)
    unfold Sheet.GetValue
    by_cases hv : pos.IsValid = true
    · simp only [hv, if_true]
      cases hf : s.find pos with
      | none =>
        simp only
        constructor
        · intro ov t h
          simp only [Res.ok.injEq] at h
          rw [← h.2]
          exact ⟨warmed_refl s, fun h => h, fun a ha => by cases ha⟩
        · intro e t h; cases h
      | some a =>
        simp only
        cases hc : s.heap a with
        | none =>
          simp only
          constructor
          · intro ov t h; cases h
          · intro e t h; cases h
        | some c =>
          simp only
          cases hi : c.impl_ with
          | EmptyImpl =>
            simp only
            constructor
            · intro ov t h
              simp only [Res.ok.injEq] at h
              rw [← h.2]
              refine ⟨warmed_refl s, fun h => h, ?_⟩
              intro a2 ha2 hfa
              simp only [Option.some.injEq] at ha2
              subst ha2
              rw [not_holdsFormula_of_empty s a c hc hi] at hfa
              cases hfa
            · intro e t h; cases h
          | TextImpl value_ text_ =>
            simp only
            constructor
            · intro ov t h
              simp only [Res.ok.injEq] at h
              rw [← h.2]
              refine ⟨warmed_refl s, fun h => h, ?_⟩
              intro a2 ha2 hfa
              simp only [Option.some.injEq] at ha2
              subst ha2
              rw [not_holdsFormula_of_text s a c value_ text_ hc hi] at hfa
              cases hfa
            · intro e t h; cases h
          | FormulaImpl cache_ f =>
            simp only
            cases cache_ with
            | some w =>
              simp only
              cases hr : runEval (fun p s1 => Sheet.GetValue fuel p s1) f.Evaluate s with
              | ok v s2 =>
                simp only
                constructor
                · intro ov t h
                  simp only [Res.ok.injEq] at h
                  rw [← h.2]
                  obtain ⟨h1, h2, _⟩ := (hrun f.Evaluate s i fr).1 v s2 hr
                  refine ⟨h1, h2, ?_⟩
                  intro a2 ha2 _
                  simp only [Option.some.injEq] at ha2
                  subst ha2
                  exact h1.mono a (holdsFormula_cached_of_impl s a c w f hc hi)
                · intro e t h; cases h
              | throws e1 s2 =>
                simp only
                constructor
                · intro ov t h; cases h
                · intro e t h
                  simp only [Res.throws.injEq] at h
                  rw [← h.2]; exact (hrun f.Evaluate s i fr).2 e1 s2 hr
              | dangling =>
                simp only
                constructor
                · intro ov t h; cases h
                · intro e t h; cases h
              | timeout =>
                simp only
                constructor
                · intro ov t h; cases h
                · intro e t h; cases h
            | none =>
              simp only
              cases hr : runEval (fun p s1 => Sheet.GetValue fuel p s1) f.Evaluate s with
              | ok v0 s1 =>
                simp only
                obtain ⟨h1, h2, h3⟩ := (hrun f.Evaluate s i fr).1 v0 s1 hr
                have i1 := h1.same.inv i
                have hfa : s.holdsFormula a = true := holdsFormula_of_impl s a c none f hc hi
                have hfa1 : s1.holdsFormula a = true := by rw [h1.same.holdsFormula]; exact hfa
                have hsame := SameUpToCache.setCache s1 a v0
                have hcached := cached_setCache s1 a v0 hfa1
                have hw : Warmed s1 (s1.setCache a v0) := by
                  refine ⟨hsame, ?_⟩
                  intro x hx
                  rw [hcached]
                  by_cases hxa : x = a
                  · simp [hxa]
                  · simpa [hxa] using hx
                have hread : ∀ q ∈ s1.prefs a, ∀ y, s1.find q = some y →
                    s1.holdsFormula y = true → s1.cached y = true := by
                  intro q hq y hfq hfy
                  rw [h1.same.prefs, prefs_of_impl s a c none f hc hi] at hq
                  apply h3 q y (fr a c none f hc hi q hq)
                  · rw [← h1.same.find]; exact hfq
                  · rw [← h1.same.holdsFormula]; exact hfy
                have hcl : s.CacheClosed → (s1.setCache a v0).CacheClosed :=
                  fun h => setCache_closed s1 i1 a v0 hfa1 hread (h2 h)
                have i2 := hsame.inv i1
                have fr2 := (h1.same.trans hsame).formulasRead fr
                have hthis : (s1.setCache a v0).cached a = true := by
                  rw [hcached]; simp
                cases hr2 : runEval (fun p s1 => Sheet.GetValue fuel p s1) f.Evaluate
                    (s1.setCache a v0) with
                | ok v s2 =>
                  simp only
                  constructor
                  · intro ov t h
                    simp only [Res.ok.injEq] at h
                    rw [← h.2]
                    obtain ⟨h4, h5, _⟩ := (hrun f.Evaluate _ i2 fr2).1 v s2 hr2
                    refine ⟨warmed_trans (warmed_trans h1 hw) h4, fun h => h5 (hcl h), ?_⟩
                    intro a2 ha2 _
                    simp only [Option.some.injEq] at ha2
                    subst ha2
                    exact h4.mono a hthis
                  · intro e t h; cases h
                | throws e1 s2 =>
                  simp only
                  constructor
                  · intro ov t h; cases h
                  · intro e t h
                    simp only [Res.throws.injEq] at h
                    rw [← h.2]
                    obtain ⟨h4, h5⟩ := (hrun f.Evaluate _ i2 fr2).2 e1 s2 hr2
                    exact ⟨warmed_trans (warmed_trans h1 hw) h4, fun h => h5 (hcl h)⟩
                | dangling =>
                  simp only
                  constructor
                  · intro ov t h; cases h
                  · intro e t h; cases h
                | timeout =>
                  simp only
                  constructor
                  · intro ov t h; cases h
                  · intro e t h; cases h
              | throws e1 s2 =>
                simp only
                constructor
                · intro ov t h; cases h
                · intro e t h
                  simp only [Res.throws.injEq] at h
                  rw [← h.2]; exact (hrun f.Evaluate s i fr).2 e1 s2 hr
              | dangling =>
                simp only
                constructor
                · intro ov t h; cases h
                · intro e t h; cases h
              | timeout =>
                simp only
                constructor
                · intro ov t h; cases h
                · intro e t h; cases h
    · simp only [hv]
      simp only [Bool.false_eq_true, if_false]
      constructor
      · intro ov t h; cases h
      · intro e t h
        simp only [Res.throws.injEq] at h
        rw [← h.2]; exact ⟨warmed_refl s, fun h => h⟩

theorem GetValue_state_closed (fuel : Nat) (pos : Position) (s t : Sheet) (i : s.Inv)
    (fr : s.FormulasRead) (hcl : s.CacheClosed)
    (h : (Sheet.GetValue fuel pos s).state? = some t) : t.CacheClosed := by
  cases hr : Sheet.GetValue fuel pos s with
  | ok ov t1 =>
    rw [hr] at h
    simp only [Res.state?, Option.some.injEq] at h
    rw [← h]; exact ((GetValue_warm fuel pos s i fr).1 ov t1 hr).2.1 hcl
  | throws e t1 =>
    rw [hr] at h
    simp only [Res.state?, Option.some.injEq] at h
    rw [← h]; exact ((GetValue_warm fuel pos s i fr).2 e t1 hr).2 hcl
  | dangling => rw [hr] at h; simp [Res.state?] at h
  | timeout => rw [hr] at h; simp [Res.state?] at h

theorem empty_closed : Sheet.empty.CacheClosed := by
  intro y d h
  simp [Sheet.holdsFormula, Sheet.empty] at h

theorem reach_closed {parse : String → Option FormulaInterface} (hc : ReadsReferenced parse)
    {s : Sheet} (h : Reach parse Op.isSetOrGet s) : s.CacheClosed := by
  induction h with
  | init => exact empty_closed
  | step s t fuel op hs ha hrun ih =>
    cases op with
    | SetCell pos text =>
      exact SetCell_state_closed parse fuel pos text s t (reach_wf hs) ih hrun
    | ClearCell pos => cases ha
    | GetValue pos =>
      exact GetValue_state_closed fuel pos s t (reach_inv hs) (reach_formulasRead hc hs) ih hrun

theorem dependent_holdsFormula (s : Sheet) (i : s.Inv) (a d : Nat) (h : d ∈ s.deps a) :
    s.holdsFormula d = true := by
  have h1 := (i.symm d a).2 h
  obtain ⟨q, hq, _⟩ := (i.refd_iff d a).1 h1
  unfold Sheet.prefs at hq
  unfold Sheet.holdsFormula
  cases hc : s.heap d with
  | none => rw [hc] at hq; cases hq
  | some c =>
    rw [hc] at hq
    simp only at hq ⊢
    cases hi : c.impl_ with
    | EmptyImpl => rw [hi] at hq; cases hq
    | TextImpl _ _ => rw [hi] at hq; cases hq
    | FormulaImpl _ _ => rfl

theorem strict_reads : ReadsReferenced strict := by
  intro e f h
  unfold strict at h
  split_ifs at h <;> simp only [Option.some.injEq] at h <;> subst h <;> intro q hq <;>
    simp only [List.mem_cons, List.mem_singleton, List.not_mem_nil, or_false] at hq
  · subst hq; exact Eval.Reads.here _
  · subst hq; exact Eval.Reads.here _
  · rcases hq with rfl | rfl
    · exact Eval.Reads.here _
    · exact Eval.Reads.later _ _ (fun _ => Eval.Reads.here _)
  · rcases hq with rfl | rfl
    · exact Eval.Reads.here _
    · exact Eval.Reads.later _ _ (fun _ => Eval.Reads.here _)

end Spreadsheet


namespace Spreadsheet

/-! ## Cache invalidation by SetCell (C16) -/

/-- C16 (as amended): in a state reached from the empty sheet by SetCell and
GetValue calls, after a successful SetCell(p, t) the cell at p holds no cached
value, none of its dependents does, and neither does any cell reached from p
along dependents through cells that held a cached value before the call; when
every evaluation of a formula reads all the cells the formula references, no
cell in the transitive closure of dependents of p holds a cached value. -/
theorem setCell_invalidates_caches (parse : String → Option FormulaInterface) (fuel : Nat)
    (p : Position) (text : String) (s t : Sheet)
    (hr : Reach parse Op.isSetOrGet s)
    (hok : Sheet.SetCell parse fuel p text s = .ok () t) :
    ∃ this, t.find p = some this ∧ t.cached this = false ∧
      (∀ d ∈ t.deps this, t.cached d = false) ∧
      (∀ x, Relation.ReflTransGen
          (fun a b => b ∈ t.deps a ∧ (a = this ∨ s.cached a = true)) this x →
        t.cached x = false) ∧
      (ReadsReferenced parse →
        ∀ x, Relation.ReflTransGen (DepEdge t) this x → t.cached x = false) := by
  have hrt : Reach parse Op.isSetOrGet t :=
    Reach.step s t fuel (.SetCell p text) hr trivial (by simp [Op.run, hok, Res.state?])
  have i : t.Inv := reach_inv hrt
  obtain ⟨this, s2, hthis, hsw, hc, _, h2, h3, _⟩ :=
    SetCell_ok_sweep parse fuel p text s t (reach_inv hr).wf hok
  refine ⟨this, hthis, h2, h3, ?_, ?_⟩
  · intro x hx
    induction hx with
    | refl => exact h2
    | @tail b c _ hbc ih =>
      obtain ⟨hmem, hor⟩ := hbc
      by_cases hb : b = this
      · subst hb
        exact h3 c hmem
      · rcases hor with h | h
        · exact absurd h hb
        · have hb2 : s2.cached b = true := by rw [(hc b hb).1]; exact h
          exact hsw.below b c hb2 ih (by rw [← hsw.same.deps]; exact hmem)
  · intro hread x hx
    have hcl : t.CacheClosed := reach_closed hread hrt
    have key : t.cached x = false ∧ (x = this ∨ t.holdsFormula x = true) := by
      induction hx with
      | refl => exact ⟨h2, Or.inl rfl⟩
      | @tail b c _ hbc ih =>
        have hf := dependent_holdsFormula t i b c hbc
        refine ⟨?_, Or.inr hf⟩
        rcases ih.2 with hb | hb
        · subst hb
          exact h3 c hbc
        · exact hcl b c hb ih.1 hbc
    exact key.1

/-- Witness for C16 as amended, with a parser whose formulas read all their
referenced cells: after A1 = "2", A2 = "=A1", A3 = "=A2" and GetValue(A3), the
cell at A3 holds a cached value; SetCell(A1, "3") succeeds. -/
theorem setCell_invalidates_caches_witness :
    Reach strict Op.isSetOrGet
      (strictScenario [.SetCell A1 "2", .SetCell A2 "=A1", .SetCell A3 "=A2", .GetValue A3]) ∧
    ReadsReferenced strict ∧
    (strictScenario [.SetCell A1 "2", .SetCell A2 "=A1", .SetCell A3 "=A2",
      .GetValue A3]).cached 2 = true ∧
    Sheet.SetCell strict 20 A1 "3"
        (strictScenario [.SetCell A1 "2", .SetCell A2 "=A1", .SetCell A3 "=A2", .GetValue A3]) =
      .ok () (strictScenario [.SetCell A1 "2", .SetCell A2 "=A1", .SetCell A3 "=A2",
        .GetValue A3, .SetCell A1 "3"]) ∧
    ∃ this,
      (strictScenario [.SetCell A1 "2", .SetCell A2 "=A1", .SetCell A3 "=A2",
        .GetValue A3, .SetCell A1 "3"]).find A1 = some this ∧
      (strictScenario [.SetCell A1 "2", .SetCell A2 "=A1", .SetCell A3 "=A2",
        .GetValue A3, .SetCell A1 "3"]).cached this = false ∧
      (∀ d ∈ (strictScenario [.SetCell A1 "2", .SetCell A2 "=A1", .SetCell A3 "=A2",
          .GetValue A3, .SetCell A1 "3"]).deps this,
        (strictScenario [.SetCell A1 "2", .SetCell A2 "=A1", .SetCell A3 "=A2",
          .GetValue A3, .SetCell A1 "3"]).cached d = false) ∧
      (∀ x, Relation.ReflTransGen
          (fun a b => b ∈ (strictScenario [.SetCell A1 "2", .SetCell A2 "=A1",
              .SetCell A3 "=A2", .GetValue A3, .SetCell A1 "3"]).deps a ∧
            (a = this ∨ (strictScenario [.SetCell A1 "2", .SetCell A2 "=A1",
              .SetCell A3 "=A2", .GetValue A3]).cached a = true)) this x →
        (strictScenario [.SetCell A1 "2", .SetCell A2 "=A1", .SetCell A3 "=A2",
          .GetValue A3, .SetCell A1 "3"]).cached x = false) ∧
      (ReadsReferenced strict →
        ∀ x, Relation.ReflTransGen
            (DepEdge (strictScenario [.SetCell A1 "2", .SetCell A2 "=A1", .SetCell A3 "=A2",
              .GetValue A3, .SetCell A1 "3"])) this x →
          (strictScenario [.SetCell A1 "2", .SetCell A2 "=A1", .SetCell A3 "=A2",
            .GetValue A3, .SetCell A1 "3"]).cached x = false) :=
  ⟨reach_runAll strict Op.isSetOrGet 20
      [.SetCell A1 "2", .SetCell A2 "=A1", .SetCell A3 "=A2", .GetValue A3] Sheet.empty _
      Reach.init
      (by intro op hop; simp at hop; rcases hop with h | h | h | h <;> subst h <;> trivial) rfl,
   strict_reads, by decide, rfl,
   setCell_invalidates_caches strict 20 A1 "3"
     (strictScenario [.SetCell A1 "2", .SetCell A2 "=A1", .SetCell A3 "=A2", .GetValue A3])
     (strictScenario [.SetCell A1 "2", .SetCell A2 "=A1", .SetCell A3 "=A2", .GetValue A3,
       .SetCell A1 "3"])
     (reach_runAll strict Op.isSetOrGet 20
       [.SetCell A1 "2", .SetCell A2 "=A1", .SetCell A3 "=A2", .GetValue A3] Sheet.empty _
       Reach.init
       (by intro op hop; simp at hop; rcases hop with h | h | h | h <;> subst h <;> trivial) rfl)
     rfl⟩

/-- Counterexample to C16 as stated: A1 = "abc", A2 = "=D1+D2", A3 = "=A1+A2",
then GetValue(A3), whose evaluation ends with the error of A1 and never reads
A2, so that A3 holds a cached value and A2 none. SetCell(D1, "5") succeeds;
its sweep stops at A2, and the cell of A3 (address 4), a dependent of the
dependent A2 (address 1) of D1 (address 2), still holds its cached value. -/
theorem stale_cache_above_uncached_formula :
    Reach scripted Op.isSetOrGet
      (scenario [.SetCell A1 "abc", .SetCell A2 "=D1+D2", .SetCell A3 "=A1+A2",
        .GetValue A3]) ∧
    Sheet.SetCell scripted 20 D1 "5"
        (scenario [.SetCell A1 "abc", .SetCell A2 "=D1+D2", .SetCell A3 "=A1+A2",
          .GetValue A3]) =
      .ok () (scenario [.SetCell A1 "abc", .SetCell A2 "=D1+D2", .SetCell A3 "=A1+A2",
        .GetValue A3, .SetCell D1 "5"]) ∧
    (scenario [.SetCell A1 "abc", .SetCell A2 "=D1+D2", .SetCell A3 "=A1+A2",
      .GetValue A3, .SetCell D1 "5"]).find D1 = some 2 ∧
    (scenario [.SetCell A1 "abc", .SetCell A2 "=D1+D2", .SetCell A3 "=A1+A2",
      .GetValue A3, .SetCell D1 "5"]).find A3 = some 4 ∧
    Relation.TransGen
      (DepEdge (scenario [.SetCell A1 "abc", .SetCell A2 "=D1+D2", .SetCell A3 "=A1+A2",
        .GetValue A3, .SetCell D1 "5"])) 2 4 ∧
    (scenario [.SetCell A1 "abc", .SetCell A2 "=D1+D2", .SetCell A3 "=A1+A2",
      .GetValue A3, .SetCell D1 "5"]).cached 4 = true ∧
    ¬ (∀ x, Relation.TransGen
        (DepEdge (scenario [.SetCell A1 "abc", .SetCell A2 "=D1+D2", .SetCell A3 "=A1+A2",
          .GetValue A3, .SetCell D1 "5"])) 2 x →
      (scenario [.SetCell A1 "abc", .SetCell A2 "=D1+D2", .SetCell A3 "=A1+A2",
        .GetValue A3, .SetCell D1 "5"]).cached x = false) := by
  have h12 : DepEdge (scenario [.SetCell A1 "abc", .SetCell A2 "=D1+D2", .SetCell A3 "=A1+A2",
      .GetValue A3, .SetCell D1 "5"]) 2 1 := by
    unfold DepEdge; decide
  have h14 : DepEdge (scenario [.SetCell A1 "abc", .SetCell A2 "=D1+D2", .SetCell A3 "=A1+A2",
      .GetValue A3, .SetCell D1 "5"]) 1 4 := by
    unfold DepEdge; decide
  have hpath := Relation.TransGen.tail (Relation.TransGen.single h12) h14
  have hc : (scenario [.SetCell A1 "abc", .SetCell A2 "=D1+D2", .SetCell A3 "=A1+A2",
      .GetValue A3, .SetCell D1 "5"]).cached 4 = true := by decide
  refine ⟨reach_scenario Op.isSetOrGet
      [.SetCell A1 "abc", .SetCell A2 "=D1+D2", .SetCell A3 "=A1+A2", .GetValue A3]
      (by intro op hop; simp at hop; rcases hop with h | h | h | h <;> subst h <;> trivial) rfl,
    rfl, by decide, by decide, hpath, hc, ?_⟩
  intro hall
  have := hall 4 hpath
  rw [hc] at this
  cases this

end Spreadsheet
